import Mathlib

/-!
A verification development for the SQL front end of `大作业代码.cpp`.

The source file holds a hand-written lexer (`Lexer`), a recursive-descent
parser (`Parser`) that builds a generic labelled tree (`ASTNode`), and a
flattening pass over that tree.  This file embeds the lexer and the parser
in Lean and proves properties of the embedded functions.

Modelling conventions.

* A C++ `std::string` is a Lean `String`; a C++ `char` is a Lean `Char`, so
  a text is read character by character, which is what the source does on
  every ASCII text.  The character classes `isspace`, `isalpha`, `isdigit`,
  `isalnum` are those of the "C" locale, in which no character outside ASCII
  belongs to any of them.
* The lexer is the record of its four data members.  Its scanning loops
  (`while (pos < input.size() && ...) ... pos++`) run over the characters that
  are still unread, `input[pos..]`, and report how many of them they consumed.
* A parser method is a function from the lexer state to a `Result`: either a
  value together with the new lexer state, or the message of the
  `runtime_error` that was thrown together with the lexer state at the throw
  (the `Parser` object and its lexer survive an exception).
* The `while (true)` loops of the parser carry a loop budget that is taken
  from the length of the input; `Result.exhausted` is the outcome of a loop
  that used up its budget and corresponds to no behaviour of the source.
  Results about accepted and rejected texts below name the returned tree or
  the thrown message, never `Result.exhausted`.
* `Parser::parse` is the definition of lines 142-180.  The second definition
  of lines 189-209 differs only in calling `SetZero` also on the path that
  returns the null pointer.
-/

namespace SQLFront

/-! ## Tokens (source lines 12-28) -/

/-- Token kinds, `enum class TokenType`. -/
inductive TokenType where
  | KEYWORD
  | IDENTIFIER
  | SYMBOL
  | NUMBER
  | STRING
  | END
deriving DecidableEq, Repr

/-- The record `struct Token`. -/
structure Token where
  type : TokenType
  value : String
deriving DecidableEq, Repr

/-! ## Character classes of the "C" locale -/

/-- The C function `isspace`: space, `\t`, `\n`, `\v`, `\f`, `\r`. -/
def isspace (c : Char) : Bool :=
  c.toNat == 32 || (9 ≤ c.toNat && c.toNat ≤ 13)

/-- The C function `isalpha`: `A`-`Z` and `a`-`z`. -/
def isalpha (c : Char) : Bool :=
  (65 ≤ c.toNat && c.toNat ≤ 90) || (97 ≤ c.toNat && c.toNat ≤ 122)

/-- The C function `isdigit`: `0`-`9`. -/
def isdigit (c : Char) : Bool :=
  48 ≤ c.toNat && c.toNat ≤ 57

/-- The C function `isalnum`. -/
def isalnum (c : Char) : Bool :=
  isalpha c || isdigit c

/-- The loop condition of the word loop (line 78): `isalnum(c) || c == '_'`. -/
def isWordChar (c : Char) : Bool :=
  isalnum c || c == '_'

/-! ## The lexer (source lines 31-127) -/

/-- The data members of `class Lexer`. -/
structure Lexer where
  input : String
  pos : Nat
  lastToken : Token
  hasPutBack : Bool
deriving DecidableEq, Repr

/-- A lexer as the constructor `Lexer() {}` leaves it: `hasPutBack` is
`false` by its member initialiser; `input` is empty; `pos` and `lastToken`
are not initialised by the source and are fixed here to `0` and an `END`
token (`Initial` overwrites `pos`, and `lastToken` is read only after
`putBackToken` has written it). -/
def Lexer.fresh : Lexer :=
  { input := "", pos := 0, lastToken := ⟨TokenType.END, ""⟩, hasPutBack := false }

/-- The method `Lexer::Initial` (lines 46-50). -/
def Lexer.Initial (lx : Lexer) (ipt : String) : Lexer :=
  { lx with input := ipt, pos := 0 }

/-- The method `Lexer::SetZero` (lines 51-55). -/
def Lexer.SetZero (lx : Lexer) : Lexer :=
  { lx with input := "", pos := 0 }

/-- The method `Lexer::putBackToken` (lines 57-61). -/
def Lexer.putBackToken (lx : Lexer) (token : Token) : Lexer :=
  { lx with lastToken := token, hasPutBack := true }

/-- The characters not yet read, `input[pos..]` (empty when `pos` is at or
past the end). -/
def Lexer.unread (lx : Lexer) : List Char :=
  lx.input.data.drop lx.pos

/-- The characters appended by a loop
`while (pos < input.size() && p(input[pos])) s += input[pos++];`
started on the unread characters `cs`. -/
def collectWhile (p : Char → Bool) : List Char → List Char
  | [] => []
  | c :: cs => if p c then c :: collectWhile p cs else []

/-- The vector `keywords` of lines 84-86. -/
def keywords : List String :=
  ["CREATE", "TABLE", "SELECT", "INSERT", "INTO", "VALUES",
   "UPDATE", "SET", "DELETE", "FROM", "WHERE", "AND", "OR"]

/-- Lines 71-125 of `nextToken`, run on the unread characters once
whitespace has been skipped: the token and the number of characters by which
`pos` advances. -/
def scanToken : List Char → Token × Nat
  | [] => (⟨TokenType.END, ""⟩, 0)
  | c :: cs =>
    if isalpha c then
      let word := collectWhile isWordChar (c :: cs)
      if String.mk word ∈ keywords then
        (⟨TokenType.KEYWORD, String.mk word⟩, word.length)
      else
        (⟨TokenType.IDENTIFIER, String.mk word⟩, word.length)
    else if isdigit c then
      let number := collectWhile isdigit (c :: cs)
      (⟨TokenType.NUMBER, String.mk number⟩, number.length)
    else if c = Char.ofNat 39 ∨ c = Char.ofNat 34 then
      let str := collectWhile (fun d => d != c) cs
      (⟨TokenType.STRING, String.mk str⟩, 1 + str.length + 1)
    else
      match cs with
      | d :: _ =>
        let twoChars := String.mk [c, d]
        if twoChars = "!=" ∨ twoChars = "<=" ∨ twoChars = ">=" then
          (⟨TokenType.SYMBOL, twoChars⟩, 2)
        else
          (⟨TokenType.SYMBOL, String.mk [c]⟩, 1)
      | [] => (⟨TokenType.SYMBOL, String.mk [c]⟩, 1)

/-- Lines 69-125 of `nextToken` on the unread characters: `skipWhitespace`
(lines 38-42) followed by `scanToken`; the count includes the whitespace
skipped. -/
def readToken (cs : List Char) : Token × Nat :=
  let ws := collectWhile isspace cs
  let r := scanToken (cs.drop ws.length)
  (r.1, ws.length + r.2)

/-- The method `Lexer::nextToken` (lines 62-126). -/
def Lexer.nextToken (lx : Lexer) : Token × Lexer :=
  if lx.hasPutBack then
    (lx.lastToken, { lx with hasPutBack := false })
  else
    let r := readToken lx.unread
    (r.1, { lx with pos := lx.pos + r.2 })

/-! ## The syntax tree (source lines 130-134) -/

/-- The record `struct ASTNode`: a label and the ordered children. -/
inductive ASTNode where
  | mk (type : String) (children : List ASTNode)
deriving Repr

mutual
/-- Decision procedure for equality of nodes. -/
def ASTNode.decEq : (a b : ASTNode) → Decidable (a = b)
  | .mk t1 c1, .mk t2 c2 =>
    if h : t1 = t2 then
      match ASTNode.decEqList c1 c2 with
      | isTrue h2 => isTrue (by rw [h, h2])
      | isFalse h2 => isFalse (fun h3 => h2 (ASTNode.mk.inj h3).2)
    else isFalse (fun h3 => h (ASTNode.mk.inj h3).1)
/-- Decision procedure for equality of lists of nodes. -/
def ASTNode.decEqList : (as bs : List ASTNode) → Decidable (as = bs)
  | [], [] => isTrue rfl
  | [], _ :: _ => isFalse (fun h => List.noConfusion h)
  | _ :: _, [] => isFalse (fun h => List.noConfusion h)
  | a :: as, b :: bs =>
    match ASTNode.decEq a b with
    | isTrue h1 =>
      match ASTNode.decEqList as bs with
      | isTrue h2 => isTrue (by rw [h1, h2])
      | isFalse h2 => isFalse (fun h3 => h2 (List.cons.inj h3).2)
    | isFalse h1 => isFalse (fun h3 => h1 (List.cons.inj h3).1)
end

instance : DecidableEq ASTNode := ASTNode.decEq

/-- The member `type` of a node. -/
def ASTNode.type : ASTNode → String
  | .mk t _ => t

/-- The member `children` of a node. -/
def ASTNode.children : ASTNode → List ASTNode
  | .mk _ cs => cs

/-- A node without children, `ASTNode{label, {}}`. -/
def ASTNode.leaf (label : String) : ASTNode := .mk label []

/-! ## The parser (source lines 137-452) -/

/-- The outcome of a parser method run on a lexer state. -/
inductive Result (α : Type) where
  | ok (value : α) (lexer : Lexer)
  | error (what : String) (lexer : Lexer)
  | exhausted (lexer : Lexer)
deriving DecidableEq

/-- A parser method: the private member `lexer` is threaded through. -/
def ParserM (α : Type) : Type := Lexer → Result α

/-- Return normally. -/
def ParserM.ret {α : Type} (a : α) : ParserM α := fun lx => Result.ok a lx

/-- Sequencing: the second step runs only when the first returned. -/
def ParserM.andThen {α β : Type} (x : ParserM α) (f : α → ParserM β) : ParserM β :=
  fun lx =>
    match x lx with
    | Result.ok a lx1 => f a lx1
    | Result.error e lx1 => Result.error e lx1
    | Result.exhausted lx1 => Result.exhausted lx1

instance : Monad ParserM where
  pure := ParserM.ret
  bind := ParserM.andThen

/-- The statement `throw runtime_error(what)`. -/
def throwRuntimeError {α : Type} (what : String) : ParserM α := fun lx => Result.error what lx

/-- A loop that used up its budget. -/
def outOfBudget {α : Type} : ParserM α := fun lx => Result.exhausted lx

/-- The call `lexer.nextToken()`. -/
def nextToken : ParserM Token := fun lx => Result.ok lx.nextToken.1 lx.nextToken.2

/-- The call `lexer.putBackToken(token)`. -/
def putBackToken (token : Token) : ParserM Unit := fun lx => Result.ok () (lx.putBackToken token)

/-- The call `lexer.SetZero()`. -/
def setZero : ParserM Unit := fun lx => Result.ok () lx.SetZero

/-- The budget of a `while (true)` loop: one more than the length of the
input of the lexer. -/
def loopBudget : ParserM Nat := fun lx => Result.ok (lx.input.length + 1) lx

/-- The method `Parser::parseIdentifier` (lines 423-431). -/
def parseIdentifier (description : String) : ParserM ASTNode := do
  let token ← nextToken
  if token.type ≠ TokenType.IDENTIFIER then
    throwRuntimeError ("Expected " ++ description)
  else
    pure (ASTNode.leaf token.value)

/-- The method `Parser::parseValue` (lines 412-420). -/
def parseValue : ParserM ASTNode := do
  let token ← nextToken
  if token.type = TokenType.NUMBER ∨ token.type = TokenType.STRING then
    pure (ASTNode.leaf token.value)
  else
    throwRuntimeError "Expected a value"

/-- The method `Parser::expectKeyword` (lines 434-441). -/
def expectKeyword (keyword : String) : ParserM Unit := do
  let token ← nextToken
  if token.type ≠ TokenType.KEYWORD ∨ token.value ≠ keyword then
    throwRuntimeError ("Expected keyword '" ++ keyword ++ "'")
  else
    pure ()

/-- The method `Parser::expectSymbol` (lines 444-451). -/
def expectSymbol (symbol : String) : ParserM Unit := do
  let token ← nextToken
  if token.type ≠ TokenType.SYMBOL ∨ token.value ≠ symbol then
    throwRuntimeError ("Expected symbol '" ++ symbol ++ "'")
  else
    pure ()

/-- The method `Parser::parseCondition` (lines 387-409). -/
def parseCondition : ParserM ASTNode := do
  let column ← parseIdentifier "column name"
  let token ← nextToken
  if token.type ≠ TokenType.SYMBOL ∨
      (token.value ≠ "=" ∧ token.value ≠ ">" ∧ token.value ≠ "<" ∧
       token.value ≠ ">=" ∧ token.value ≠ "<=" ∧ token.value ≠ "!=") then
    throwRuntimeError "Expected comparison operator"
  else do
    let value ← parseValue
    pure (ASTNode.mk "CONDITION" [column, ASTNode.leaf token.value, value])

/-- The `while (true)` loop of `parseColumns` (lines 361-377); `children`
are the children of the `COLUMNS` node so far.  It returns them with the
token that ended the loop, which line 374 has put back. -/
def parseColumnsLoop : Nat → List ASTNode → ParserM (List ASTNode × Token)
  | 0, _ => outOfBudget
  | budget + 1, children => do
    let column ← parseIdentifier "column name"
    let token ← nextToken
    if token.type = TokenType.SYMBOL ∧ token.value = "," then
      parseColumnsLoop budget (children ++ [column])
    else do
      putBackToken token
      pure (children ++ [column], token)

/-- The method `Parser::parseColumns` (lines 347-384). -/
def parseColumns : ParserM ASTNode := do
  let token ← nextToken
  if token.type = TokenType.SYMBOL ∧ token.value = "*" then
    pure (ASTNode.mk "COLUMNS" [ASTNode.leaf "ALL_COLUMNS"])
  else do
    putBackToken token
    let budget ← loopBudget
    let r ← parseColumnsLoop budget []
    putBackToken r.2
    pure (ASTNode.mk "COLUMNS" r.1)

/-- The `while (true)` loop of `parseCreate` (lines 224-239); `children` are
the children of the `CREATE` node so far. -/
def parseCreateLoop : Nat → List ASTNode → ParserM (List ASTNode)
  | 0, _ => outOfBudget
  | budget + 1, children => do
    let name ← parseIdentifier "column name"
    let dataType ← parseIdentifier "data type"
    let column := ASTNode.mk "COLUMN" [name, dataType]
    let token ← nextToken
    if token.type = TokenType.SYMBOL ∧ token.value = ")" then
      pure (children ++ [column])
    else if token.type ≠ TokenType.SYMBOL ∨ token.value ≠ "," then
      throwRuntimeError "Expected ',' or ')'"
    else
      parseCreateLoop budget (children ++ [column])

/-- The method `Parser::parseCreate` (lines 215-241). -/
def parseCreate : ParserM ASTNode := do
  expectKeyword "TABLE"
  let table ← parseIdentifier "table name"
  expectSymbol "("
  let budget ← loopBudget
  let children ← parseCreateLoop budget [table]
  pure (ASTNode.mk "CREATE" children)

/-- The method `Parser::parseSelect` (lines 244-266). -/
def parseSelect : ParserM ASTNode := do
  let columns ← parseColumns
  expectKeyword "FROM"
  let table ← parseIdentifier "table name"
  let token ← nextToken
  if token.type = TokenType.KEYWORD ∧ token.value = "WHERE" then do
    let condition ← parseCondition
    pure (ASTNode.mk "SELECT" [columns, table, condition])
  else do
    putBackToken token
    pure (ASTNode.mk "SELECT" [columns, table])

/-- The `while (true)` loop of `parseInsert` (lines 281-291); `children` are
the children of the `VALUES` node so far. -/
def parseInsertLoop : Nat → List ASTNode → ParserM (List ASTNode)
  | 0, _ => outOfBudget
  | budget + 1, children => do
    let value ← parseValue
    let token ← nextToken
    if token.type = TokenType.SYMBOL ∧ token.value = ")" then
      pure (children ++ [value])
    else if token.type ≠ TokenType.SYMBOL ∨ token.value ≠ "," then
      throwRuntimeError "Expected ',' or ')'"
    else
      parseInsertLoop budget (children ++ [value])

/-- The method `Parser::parseInsert` (lines 269-294). -/
def parseInsert : ParserM ASTNode := do
  expectKeyword "INTO"
  let table ← parseIdentifier "table name"
  expectKeyword "VALUES"
  expectSymbol "("
  let budget ← loopBudget
  let values ← parseInsertLoop budget []
  pure (ASTNode.mk "INSERT" [table, ASTNode.mk "VALUES" values])

/-- The `while (true)` loop of `parseUpdate` (lines 307-323); `children` are
the children of the `UPDATES` node so far. -/
def parseUpdateLoop : Nat → List ASTNode → ParserM (List ASTNode)
  | 0, _ => outOfBudget
  | budget + 1, children => do
    let column ← parseIdentifier "column name"
    expectSymbol "="
    let value ← parseValue
    let update := ASTNode.mk "UPDATE_FIELD" [column, value]
    let token ← nextToken
    if token.type = TokenType.KEYWORD ∧ token.value = "WHERE" then
      pure (children ++ [update])
    else if token.type ≠ TokenType.SYMBOL ∨ token.value ≠ "," then
      throwRuntimeError "Expected ',' or 'WHERE'"
    else
      parseUpdateLoop budget (children ++ [update])

/-- The method `Parser::parseUpdate` (lines 297-327). -/
def parseUpdate : ParserM ASTNode := do
  let table ← parseIdentifier "table name"
  expectKeyword "SET"
  let budget ← loopBudget
  let updates ← parseUpdateLoop budget []
  let condition ← parseCondition
  pure (ASTNode.mk "UPDATE" [table, ASTNode.mk "UPDATES" updates, condition])

/-- The method `Parser::parseDelete` (lines 330-344). -/
def parseDelete : ParserM ASTNode := do
  expectKeyword "FROM"
  let table ← parseIdentifier "table name"
  let token ← nextToken
  if token.type = TokenType.KEYWORD ∧ token.value = "WHERE" then do
    let condition ← parseCondition
    pure (ASTNode.mk "DELETE" [table, condition])
  else
    pure (ASTNode.mk "DELETE" [table])

/-- The call `lexer.Initial(input)`. -/
def initial (input : String) : ParserM Unit := fun lx => Result.ok () (lx.Initial input)

/-- The method `Parser::parse` of lines 142-180, as a step on the lexer
state of the parser.  The value is the returned `shared_ptr`: `none` is the
null pointer that `node` still holds when the leading keyword is none of the
five statement keywords. -/
def parseM (input : String) : ParserM (Option ASTNode) := do
  initial input
  let token ← nextToken
  if token.type = TokenType.KEYWORD then
    if token.value = "CREATE" then do
      let node ← parseCreate
      setZero
      pure (some node)
    else if token.value = "SELECT" then do
      let node ← parseSelect
      setZero
      pure (some node)
    else if token.value = "INSERT" then do
      let node ← parseInsert
      setZero
      pure (some node)
    else if token.value = "UPDATE" then do
      let node ← parseUpdate
      setZero
      pure (some node)
    else if token.value = "DELETE" then do
      let node ← parseDelete
      setZero
      pure (some node)
    else
      pure none
  else
    throwRuntimeError "Invalid SQL statement"

/-- A parser object: its only data member read by lines 142-452 is the
lexer. -/
abbrev Parser : Type := Lexer

/-- A parser as `Parser parser;` constructs it. -/
def Parser.fresh : Parser := Lexer.fresh

/-- The call `parser.parse(input)` on the parser `p`. -/
def Parser.parse (p : Parser) (input : String) : Result (Option ASTNode) :=
  parseM input p

/-- The parser object after a call. -/
def Result.parser {α : Type} : Result α → Parser
  | .ok _ lx => lx
  | .error _ lx => lx
  | .exhausted lx => lx

/-- What the caller of a parser method observes: the returned value or the
message of the exception. -/
inductive Outcome (α : Type) where
  | returned (value : α)
  | thrown (what : String)
  | exhausted
deriving DecidableEq

/-- The observable outcome of a result. -/
def Result.outcome {α : Type} : Result α → Outcome α
  | .ok a _ => .returned a
  | .error e _ => .thrown e
  | .exhausted _ => .exhausted

/-! ## The token stream of a text -/

/-- The tokens that repeated fresh reads (lines 69-125) produce from the
unread characters `cs`, up to and without the first `END`; `n` bounds the
number of reads. -/
def tokensFrom : Nat → List Char → List Token
  | 0, _ => []
  | n + 1, cs =>
    if (readToken cs).1.type = TokenType.END then []
    else (readToken cs).1 :: tokensFrom n (cs.drop (readToken cs).2)

/-- All tokens of the characters `cs`: every token that is not `END` consumes
a character, so `cs.length + 1` reads reach the `END`. -/
def lexAll (cs : List Char) : List Token := tokensFrom (cs.length + 1) cs

/-- All tokens of a statement text. -/
def tokens (input : String) : List Token := lexAll input.data

/-- The lexer has no pending pushback and the tokens ahead of it are `ts`. -/
def Lexer.Sees (lx : Lexer) (ts : List Token) : Prop :=
  lx.hasPutBack = false ∧ lexAll lx.unread = ts

/-! ## Statement texts and their token sequences -/

/-- The tokens of an assignment list `c1 = v1, ..., ck = vk`, given as the
pairs of a column name and a value token. -/
def assignmentTokens : List (String × Token) → List Token
  | [] => []
  | [(c, v)] => [⟨TokenType.IDENTIFIER, c⟩, ⟨TokenType.SYMBOL, "="⟩, v]
  | (c, v) :: rest =>
    ⟨TokenType.IDENTIFIER, c⟩ :: ⟨TokenType.SYMBOL, "="⟩ :: v :: ⟨TokenType.SYMBOL, ","⟩ ::
      assignmentTokens rest

/-- Every node that the parser method returns carries the label `K`. -/
def Labels (K : String) (x : ParserM ASTNode) : Prop :=
  ∀ lx n lx2, x lx = Result.ok n lx2 → n.type = K

/-- The spelling of an identifier token: a letter, then letters, digits and
underscores, the whole not being one of the keywords. -/
def isIdentifierText (s : String) : Bool :=
  match s.data with
  | [] => false
  | c :: cs => isalpha c && cs.all isWordChar && !decide (s ∈ keywords)

/-- A literal as it is written in a statement: a run of digits, or a body
between two equal quote characters. -/
inductive Literal where
  | number (digits : String)
  | quoted (quote : Char) (body : String)
deriving DecidableEq

/-- The digits are not empty; the quote is `'` or `"` and does not occur in
the body. -/
def Literal.wellFormed : Literal → Bool
  | .number digits => !digits.data.isEmpty && digits.data.all isdigit
  | .quoted q body => (q == Char.ofNat 39 || q == Char.ofNat 34) && !body.data.contains q

/-- The characters of the literal in the statement text. -/
def Literal.text : Literal → String
  | .number digits => digits
  | .quoted q body => String.mk (q :: (body.data ++ [q]))

/-- The token that the literal is read as. -/
def Literal.token : Literal → Token
  | .number digits => ⟨TokenType.NUMBER, digits⟩
  | .quoted _ body => ⟨TokenType.STRING, body⟩

/-- The six comparison operators of `parseCondition` (lines 398-399). -/
def comparisonOperators : List String := ["=", ">", "<", ">=", "<=", "!="]

/-- The text `SELECT * FROM t WHERE c op v;`. -/
def selectAllWhereText (t c op : String) (v : Literal) : String :=
  "SELECT * FROM " ++ t ++ " WHERE " ++ c ++ " " ++ op ++ " " ++ v.text ++ ";"

/-- The text `n1 ty1, ..., nk tyk` of a list of column definitions. -/
def columnDefsText : List (String × String) → String
  | [] => ""
  | [(n, ty)] => n ++ " " ++ ty
  | (n, ty) :: rest => n ++ " " ++ ty ++ ", " ++ columnDefsText rest

/-- The text `CREATE TABLE t (n1 ty1, ..., nk tyk);`. -/
def createTableText (t : String) (columns : List (String × String)) : String :=
  "CREATE TABLE " ++ t ++ " (" ++ columnDefsText columns ++ ");"

/-- The tokens of a list of column definitions `n1 ty1, ..., nk tyk`. -/
def columnDefTokens : List (String × String) → List Token
  | [] => []
  | [(n, ty)] => [⟨TokenType.IDENTIFIER, n⟩, ⟨TokenType.IDENTIFIER, ty⟩]
  | (n, ty) :: rest =>
    ⟨TokenType.IDENTIFIER, n⟩ :: ⟨TokenType.IDENTIFIER, ty⟩ :: ⟨TokenType.SYMBOL, ","⟩ ::
      columnDefTokens rest

/-- The `COLUMN` node of a column definition. -/
def columnNode (column : String × String) : ASTNode :=
  ASTNode.mk "COLUMN" [ASTNode.leaf column.1, ASTNode.leaf column.2]

/-! ## The flattening pass `SQL_Parser` (source lines 453-564 and 610)

The function is modelled as the first of the two bodies that the source file
holds: lines 456-564 followed by `return table_name`.  A read `v[n]` of a
`vector` with `n` at or past `v.size()` has no defined behaviour in the
source; the model stops there with `Extraction.pastEnd`.  The map `results`
is the record of its six keys (`ALL_COLUMNS` is the key that lines 519 and
528 write; a key that was never written is the empty list).
-/

/-- The map `tree` of line 466: the labels recorded for each depth. -/
abbrev DepthTree : Type := Nat → List String

/-- The map `tree` as line 466 initialises it. -/
def DepthTree.empty : DepthTree := fun _ => []

/-- The statement `tree[depth].push_back(label)`. -/
def DepthTree.push (tree : DepthTree) (depth : Nat) (label : String) : DepthTree :=
  fun d => if d = depth then tree d ++ [label] else tree d

mutual
/-- The function `printAST` (lines 479-489). -/
def printAST : ASTNode → Nat → DepthTree → DepthTree
  | .mk type children, depth, tree => printASTChildren children (depth + 1) (tree.push depth type)
/-- The loop over `node->children` of lines 485-488. -/
def printASTChildren : List ASTNode → Nat → DepthTree → DepthTree
  | [], _, tree => tree
  | child :: rest, depth, tree => printASTChildren rest depth (printAST child depth tree)
end

/-- The map `results`. -/
structure Results where
  VALUES : List String
  COLUMN : List String
  COLUMNS : List String
  UPDATE_FIELD : List String
  CONDITION : List String
  ALL_COLUMNS : List String
deriving DecidableEq, Repr

/-- The map `results` as line 458 initialises it. -/
def Results.empty : Results :=
  { VALUES := [], COLUMN := [], COLUMNS := [], UPDATE_FIELD := [], CONDITION := [],
    ALL_COLUMNS := [] }

/-- The outcome of a step of the flattening pass. -/
inductive Walk (α : Type) where
  | ok (value : α)
  | pastEnd
  | exhausted
deriving DecidableEq, Repr

/-- A read `v[n]`. -/
def readAt (v : List String) (n : Nat) : Walk String :=
  match v.get? n with
  | some s => Walk.ok s
  | none => Walk.pastEnd

/-- Sequencing of reads. -/
def Walk.andThen {α β : Type} (x : Walk α) (f : α → Walk β) : Walk β :=
  match x with
  | Walk.ok a => f a
  | Walk.pastEnd => Walk.pastEnd
  | Walk.exhausted => Walk.exhausted

instance : Monad Walk where
  pure := Walk.ok
  bind := Walk.andThen

/-- The operator test of lines 526 and 536. -/
def isComparison (s : String) : Bool :=
  s == ">" || s == "<" || s == ">=" || s == "<=" || s == "=" || s == "!="

/-- The `while (true)` loop of lines 524-529 on `tree[2]`: the cursor `j`
and the list `results["ALL_COLUMNS"]` after the loop. -/
def columnsRun (tree2 : List String) : Nat → Nat → List String → Walk (Nat × List String)
  | 0, _, _ => Walk.exhausted
  | budget + 1, j, out => do
    let next ← readAt tree2 (j + 1)
    if isComparison next then
      pure (j, out)
    else do
      let column ← readAt tree2 j
      columnsRun tree2 budget (j + 1) (out ++ [column])

/-- The `while` loop of lines 555-560 on `tree[2]` and `tree[3]`: the cursors
`j` and `k` and the list `results["UPDATE_FIELD"]` after the loop. -/
def updatesRun (tree2 tree3 : List String) :
    Nat → Nat → Nat → List String → Walk (Nat × Nat × List String)
  | 0, _, _, _ => Walk.exhausted
  | budget + 1, j, k, out => do
    let label ← readAt tree2 j
    if label = "UPDATE_FIELD" then do
      let column ← readAt tree3 k
      let value ← readAt tree3 (k + 1)
      updatesRun tree2 tree3 budget (j + 1) (k + 2) (out ++ [column ++ "-" ++ value])
    else
      pure (j, k, out)

/-- The cursors and the map `results` of the walk over `tree[1]`. -/
structure WalkState where
  j : Nat
  k : Nat
  results : Results
deriving DecidableEq, Repr

/-- The body of the loop of lines 513-564 for the entry `label = tree[1][i]`. -/
def walkEntry (tree : DepthTree) (label : String) (s : WalkState) : Walk WalkState :=
  if label = "COLUMNS" then do
    let first ← readAt (tree 2) s.j
    if first = "ALL_COLUMNS" then
      pure { s with j := s.j + 1,
                    results := { s.results with ALL_COLUMNS := s.results.ALL_COLUMNS ++ ["*"] } }
    else do
      let r ← columnsRun (tree 2) ((tree 2).length + 1) s.j s.results.ALL_COLUMNS
      pure { s with j := r.1, results := { s.results with ALL_COLUMNS := r.2 } }
  else if label = "CONDITION" then
    if s.j + 1 < (tree 2).length then do
      let op ← readAt (tree 2) (s.j + 1)
      if isComparison op then do
        let column ← readAt (tree 2) s.j
        let value ← readAt (tree 2) (s.j + 2)
        pure { s with j := s.j + 3,
                      results := { s.results with
                        CONDITION := s.results.CONDITION ++ [column ++ op ++ value] } }
      else
        pure s
    else
      pure s
  else if label = "COLUMN" then do
    let name ← readAt (tree 2) s.j
    let type ← readAt (tree 2) (s.j + 1)
    pure { s with j := s.j + 2,
                  results := { s.results with COLUMN := s.results.COLUMN ++ [name ++ "-" ++ type] } }
  else if label = "VALUES" then
    pure { s with results := { s.results with VALUES := s.results.VALUES ++ tree 2 } }
  else if label = "UPDATES" then do
    let r ← updatesRun (tree 2) (tree 3) ((tree 2).length + 1) s.j s.k s.results.UPDATE_FIELD
    pure { s with j := r.1, k := r.2.1, results := { s.results with UPDATE_FIELD := r.2.2 } }
  else
    pure s

/-- The loop `while (i < tree[1].size())` of lines 513-564. -/
def walkLoop (tree : DepthTree) : Nat → Nat → WalkState → Walk WalkState
  | 0, _, _ => Walk.exhausted
  | budget + 1, i, s =>
    if i < (tree 1).length then do
      let label ← readAt (tree 1) i
      let s1 ← walkEntry tree label s
      walkLoop tree budget (i + 1) s1
    else
      pure s

/-- Lines 497-511: the statement kind `sql_type = tree[0][0]`, the table name
read at its position in `tree[1]`, and the start value of `i`. -/
def readHeader (tree : DepthTree) : Walk (String × String × Nat) := do
  let kind ← readAt (tree 0) 0
  if kind = "SELECT" then do
    let table ← readAt (tree 1) 1
    pure (kind, table, 0)
  else do
    let table ← readAt (tree 1) 0
    pure (kind, table, 1)

/-- What `SQL_Parser` hands back: `sql_type`, the returned `table_name` and
the map `results`. -/
structure Descriptor where
  sql_type : String
  table_name : String
  results : Results
deriving DecidableEq, Repr

/-- Lines 497-564 and 610 on the flattened tree. -/
def extract (tree : DepthTree) : Walk Descriptor := do
  let header ← readHeader tree
  let s ← walkLoop tree ((tree 1).length + 1) header.2.2 { j := 0, k := 0, results := Results.empty }
  pure { sql_type := header.1, table_name := header.2.1, results := s.results }

/-- The outcome of `SQL_Parser`. -/
inductive Extraction where
  | done (descriptor : Descriptor)
  | pastEnd
  | nullNode
  | exhausted
deriving DecidableEq, Repr

/-- The outcome of the walk as an outcome of `SQL_Parser`. -/
def Walk.toExtraction : Walk Descriptor → Extraction
  | Walk.ok d => Extraction.done d
  | Walk.pastEnd => Extraction.pastEnd
  | Walk.exhausted => Extraction.exhausted

/-- The function `SQL_Parser` (lines 453-564, 610) called with the parser
`parser` and the text `sql`.  An exception of `parse` is caught at line 493
and leaves `tree` empty; a null pointer returned by `parse` is dereferenced by
`printAST` at line 483 (`Extraction.nullNode`). -/
def SQL_Parser (parser : Parser) (sql : String) : Extraction :=
  match parser.parse sql with
  | Result.ok (some ast) _ => (extract (printAST ast 0 DepthTree.empty)).toExtraction
  | Result.ok none _ => Extraction.nullNode
  | Result.error _ _ => (extract DepthTree.empty).toExtraction
  | Result.exhausted _ => Extraction.exhausted

/-! ## The table registry `DatabaseManager` (source lines 613-661)

The member `map<string, TableData> tables` is an association list; the
operations below read and write it by key only, so the order of its entries
is immaterial.  A call is the thrown message, if any, with the registry after
the call.
-/

/-- The record `struct TableData`. -/
structure TableData where
  name : String
  columnNames : List String
  columnTypes : List String
  rows : List (List String)
deriving DecidableEq, Repr

/-- The data member of `class DatabaseManager`. -/
structure DatabaseManager where
  tables : List (String × TableData)
deriving DecidableEq, Repr

/-- The outcome of a call of a registry method. -/
structure RegistryCall where
  thrown : Option String
  db : DatabaseManager
deriving DecidableEq, Repr

/-- The call `tables.find(name)`: the entry, or `none` for `tables.end()`. -/
def DatabaseManager.find (db : DatabaseManager) (name : String) : Option TableData :=
  db.tables.lookup name

/-- The assignment `tables[name] = table`. -/
def assignTable : List (String × TableData) → String → TableData → List (String × TableData)
  | [], name, table => [(name, table)]
  | e :: es, name, table =>
    if e.1 = name then (name, table) :: es else e :: assignTable es name table

/-- The statement `it->second.rows.push_back(values)` on the entry of `name`. -/
def pushRow : List (String × TableData) → String → List String → List (String × TableData)
  | [], _, _ => []
  | e :: es, name, values =>
    if e.1 = name then (e.1, { e.2 with rows := e.2.rows ++ [values] }) :: es
    else e :: pushRow es name values

/-- The method `DatabaseManager::createTable` (lines 627-637). -/
def DatabaseManager.createTable (db : DatabaseManager) (name : String)
    (colNames colTypes : List String) : RegistryCall :=
  if (db.find name).isSome then
    { thrown := some ("Table already exists: " ++ name), db := db }
  else
    { thrown := none,
      db := { tables := assignTable db.tables name
                { name := name, columnNames := colNames, columnTypes := colTypes, rows := [] } } }

/-- The method `DatabaseManager::insertIntoTable` (lines 639-648). -/
def DatabaseManager.insertIntoTable (db : DatabaseManager) (name : String)
    (values : List String) : RegistryCall :=
  match db.find name with
  | none => { thrown := some ("Table not found: " ++ name), db := db }
  | some table =>
    if values.length ≠ table.columnNames.length then
      { thrown := some "Column count mismatch", db := db }
    else
      { thrown := none, db := { tables := pushRow db.tables name values } }

/-- The method `DatabaseManager::tableExists` (lines 658-660). -/
def DatabaseManager.tableExists (db : DatabaseManager) (name : String) : Bool :=
  (db.find name).isSome

/-! ## The parser as a function of the token sequence

The definitions of this section follow the parser methods token by token.
They read from a list of tokens in place of the lexer: the end of the list
reads as `END`, and a token that a method puts back is again the head of the
list.  The `while (true)` loops are recursions on the list.
-/

/-- The token that `nextToken` returns at the end of the input. -/
def Token.eof : Token := ⟨TokenType.END, ""⟩

/-- The outcome of a parser method on a token list: a value with the tokens
left, or the message thrown. -/
inductive TResult (α : Type) where
  | ok (value : α) (rest : List Token)
  | error (what : String)
deriving DecidableEq

/-- A parser method on a token list. -/
def TParserM (α : Type) : Type := List Token → TResult α

/-- Sequencing on a token list. -/
def TParserM.andThen {α β : Type} (x : TParserM α) (f : α → TParserM β) : TParserM β :=
  fun ts =>
    match x ts with
    | TResult.ok a rest => f a rest
    | TResult.error e => TResult.error e

instance : Monad TParserM where
  pure := fun a ts => TResult.ok a ts
  bind := TParserM.andThen

/-- The statement `throw runtime_error(what)`. -/
def throwT {α : Type} (what : String) : TParserM α := fun _ => TResult.error what

/-- The call `lexer.nextToken()` on a token list. -/
def nextT : TParserM Token := fun ts => TResult.ok (ts.headD Token.eof) ts.tail

/-- The call `lexer.putBackToken(token)` after `token` was read. -/
def unreadT (token : Token) : TParserM Unit := fun ts => TResult.ok () (token :: ts)

/-- The method `parseIdentifier` on a token list. -/
def parseIdentifierT (description : String) : TParserM ASTNode := do
  let token ← nextT
  if token.type ≠ TokenType.IDENTIFIER then
    throwT ("Expected " ++ description)
  else
    pure (ASTNode.leaf token.value)

/-- The method `parseValue` on a token list. -/
def parseValueT : TParserM ASTNode := do
  let token ← nextT
  if token.type = TokenType.NUMBER ∨ token.type = TokenType.STRING then
    pure (ASTNode.leaf token.value)
  else
    throwT "Expected a value"

/-- The method `expectKeyword` on a token list. -/
def expectKeywordT (keyword : String) : TParserM Unit := do
  let token ← nextT
  if token.type ≠ TokenType.KEYWORD ∨ token.value ≠ keyword then
    throwT ("Expected keyword '" ++ keyword ++ "'")
  else
    pure ()

/-- The method `expectSymbol` on a token list. -/
def expectSymbolT (symbol : String) : TParserM Unit := do
  let token ← nextT
  if token.type ≠ TokenType.SYMBOL ∨ token.value ≠ symbol then
    throwT ("Expected symbol '" ++ symbol ++ "'")
  else
    pure ()

/-- The method `parseCondition` on a token list. -/
def parseConditionT : TParserM ASTNode := do
  let column ← parseIdentifierT "column name"
  let token ← nextT
  if token.type ≠ TokenType.SYMBOL ∨
      (token.value ≠ "=" ∧ token.value ≠ ">" ∧ token.value ≠ "<" ∧
       token.value ≠ ">=" ∧ token.value ≠ "<=" ∧ token.value ≠ "!=") then
    throwT "Expected comparison operator"
  else do
    let value ← parseValueT
    pure (ASTNode.mk "CONDITION" [column, ASTNode.leaf token.value, value])

/-- One iteration of the loop of `parseColumns` on the tokens `t1`, `t2`;
`unread` are the tokens ahead once `t2` is put back and `again` is the next
iteration. -/
def columnsStep (t1 t2 : Token) (unread : List Token) (children : List ASTNode)
    (again : List ASTNode → TResult (List ASTNode × Token)) : TResult (List ASTNode × Token) :=
  if t1.type ≠ TokenType.IDENTIFIER then
    TResult.error "Expected column name"
  else if t2.type = TokenType.SYMBOL ∧ t2.value = "," then
    again (children ++ [ASTNode.leaf t1.value])
  else
    TResult.ok (children ++ [ASTNode.leaf t1.value], t2) unread

/-- The loop of `parseColumns` on a token list. -/
def parseColumnsLoopT : List Token → List ASTNode → TResult (List ASTNode × Token)
  | t1 :: t2 :: ts, children => columnsStep t1 t2 (t2 :: ts) children (parseColumnsLoopT ts)
  | [t1], children =>
    columnsStep t1 Token.eof [Token.eof] children (fun _ => TResult.error "Expected column name")
  | [], children =>
    columnsStep Token.eof Token.eof [Token.eof] children
      (fun _ => TResult.error "Expected column name")

/-- The method `parseColumns` on a token list.  The second `putBackToken` of
the source (line 380) puts back the token that is already pending. -/
def parseColumnsT : TParserM ASTNode := do
  let token ← nextT
  if token.type = TokenType.SYMBOL ∧ token.value = "*" then
    pure (ASTNode.mk "COLUMNS" [ASTNode.leaf "ALL_COLUMNS"])
  else do
    unreadT token
    let r ← (fun ts => parseColumnsLoopT ts [] : TParserM (List ASTNode × Token))
    pure (ASTNode.mk "COLUMNS" r.1)

/-- One iteration of the loop of `parseCreate` on the tokens `t1`, `t2`, `t3`
followed by `rest`. -/
def createStep (t1 t2 t3 : Token) (rest : List Token) (children : List ASTNode)
    (again : List ASTNode → TResult (List ASTNode)) : TResult (List ASTNode) :=
  if t1.type ≠ TokenType.IDENTIFIER then
    TResult.error "Expected column name"
  else if t2.type ≠ TokenType.IDENTIFIER then
    TResult.error "Expected data type"
  else if t3.type = TokenType.SYMBOL ∧ t3.value = ")" then
    TResult.ok (children ++ [ASTNode.mk "COLUMN" [ASTNode.leaf t1.value, ASTNode.leaf t2.value]]) rest
  else if t3.type ≠ TokenType.SYMBOL ∨ t3.value ≠ "," then
    TResult.error "Expected ',' or ')'"
  else
    again (children ++ [ASTNode.mk "COLUMN" [ASTNode.leaf t1.value, ASTNode.leaf t2.value]])

/-- The loop of `parseCreate` on a token list. -/
def parseCreateLoopT : List Token → List ASTNode → TResult (List ASTNode)
  | t1 :: t2 :: t3 :: ts, children => createStep t1 t2 t3 ts children (parseCreateLoopT ts)
  | [t1, t2], children =>
    createStep t1 t2 Token.eof [] children (fun _ => TResult.error "Expected ',' or ')'")
  | [t1], children =>
    createStep t1 Token.eof Token.eof [] children (fun _ => TResult.error "Expected ',' or ')'")
  | [], children =>
    createStep Token.eof Token.eof Token.eof [] children
      (fun _ => TResult.error "Expected ',' or ')'")

/-- The method `parseCreate` on a token list. -/
def parseCreateT : TParserM ASTNode := do
  expectKeywordT "TABLE"
  let table ← parseIdentifierT "table name"
  expectSymbolT "("
  let children ← (fun ts => parseCreateLoopT ts [table] : TParserM (List ASTNode))
  pure (ASTNode.mk "CREATE" children)

/-- The method `parseSelect` on a token list. -/
def parseSelectT : TParserM ASTNode := do
  let columns ← parseColumnsT
  expectKeywordT "FROM"
  let table ← parseIdentifierT "table name"
  let token ← nextT
  if token.type = TokenType.KEYWORD ∧ token.value = "WHERE" then do
    let condition ← parseConditionT
    pure (ASTNode.mk "SELECT" [columns, table, condition])
  else do
    unreadT token
    pure (ASTNode.mk "SELECT" [columns, table])

/-- One iteration of the loop of `parseInsert` on the tokens `t1`, `t2`
followed by `rest`. -/
def insertStep (t1 t2 : Token) (rest : List Token) (children : List ASTNode)
    (again : List ASTNode → TResult (List ASTNode)) : TResult (List ASTNode) :=
  if t1.type = TokenType.NUMBER ∨ t1.type = TokenType.STRING then
    if t2.type = TokenType.SYMBOL ∧ t2.value = ")" then
      TResult.ok (children ++ [ASTNode.leaf t1.value]) rest
    else if t2.type ≠ TokenType.SYMBOL ∨ t2.value ≠ "," then
      TResult.error "Expected ',' or ')'"
    else
      again (children ++ [ASTNode.leaf t1.value])
  else
    TResult.error "Expected a value"

/-- The loop of `parseInsert` on a token list. -/
def parseInsertLoopT : List Token → List ASTNode → TResult (List ASTNode)
  | t1 :: t2 :: ts, children => insertStep t1 t2 ts children (parseInsertLoopT ts)
  | [t1], children =>
    insertStep t1 Token.eof [] children (fun _ => TResult.error "Expected ',' or ')'")
  | [], children =>
    insertStep Token.eof Token.eof [] children (fun _ => TResult.error "Expected ',' or ')'")

/-- The method `parseInsert` on a token list. -/
def parseInsertT : TParserM ASTNode := do
  expectKeywordT "INTO"
  let table ← parseIdentifierT "table name"
  expectKeywordT "VALUES"
  expectSymbolT "("
  let values ← (fun ts => parseInsertLoopT ts [] : TParserM (List ASTNode))
  pure (ASTNode.mk "INSERT" [table, ASTNode.mk "VALUES" values])

/-- One iteration of the loop of `parseUpdate` on the tokens `t1` to `t4`
followed by `rest`. -/
def updateStep (t1 t2 t3 t4 : Token) (rest : List Token) (children : List ASTNode)
    (again : List ASTNode → TResult (List ASTNode)) : TResult (List ASTNode) :=
  if t1.type ≠ TokenType.IDENTIFIER then
    TResult.error "Expected column name"
  else if t2.type ≠ TokenType.SYMBOL ∨ t2.value ≠ "=" then
    TResult.error "Expected symbol '='"
  else if t3.type = TokenType.NUMBER ∨ t3.type = TokenType.STRING then
    if t4.type = TokenType.KEYWORD ∧ t4.value = "WHERE" then
      TResult.ok
        (children ++ [ASTNode.mk "UPDATE_FIELD" [ASTNode.leaf t1.value, ASTNode.leaf t3.value]]) rest
    else if t4.type ≠ TokenType.SYMBOL ∨ t4.value ≠ "," then
      TResult.error "Expected ',' or 'WHERE'"
    else
      again (children ++ [ASTNode.mk "UPDATE_FIELD" [ASTNode.leaf t1.value, ASTNode.leaf t3.value]])
  else
    TResult.error "Expected a value"

/-- The loop of `parseUpdate` on a token list. -/
def parseUpdateLoopT : List Token → List ASTNode → TResult (List ASTNode)
  | t1 :: t2 :: t3 :: t4 :: ts, children =>
    updateStep t1 t2 t3 t4 ts children (parseUpdateLoopT ts)
  | [t1, t2, t3], children =>
    updateStep t1 t2 t3 Token.eof [] children (fun _ => TResult.error "Expected ',' or 'WHERE'")
  | [t1, t2], children =>
    updateStep t1 t2 Token.eof Token.eof [] children
      (fun _ => TResult.error "Expected ',' or 'WHERE'")
  | [t1], children =>
    updateStep t1 Token.eof Token.eof Token.eof [] children
      (fun _ => TResult.error "Expected ',' or 'WHERE'")
  | [], children =>
    updateStep Token.eof Token.eof Token.eof Token.eof [] children
      (fun _ => TResult.error "Expected ',' or 'WHERE'")

/-- The method `parseUpdate` on a token list. -/
def parseUpdateT : TParserM ASTNode := do
  let table ← parseIdentifierT "table name"
  expectKeywordT "SET"
  let updates ← (fun ts => parseUpdateLoopT ts [] : TParserM (List ASTNode))
  let condition ← parseConditionT
  pure (ASTNode.mk "UPDATE" [table, ASTNode.mk "UPDATES" updates, condition])

/-- The method `parseDelete` on a token list. -/
def parseDeleteT : TParserM ASTNode := do
  expectKeywordT "FROM"
  let table ← parseIdentifierT "table name"
  let token ← nextT
  if token.type = TokenType.KEYWORD ∧ token.value = "WHERE" then do
    let condition ← parseConditionT
    pure (ASTNode.mk "DELETE" [table, condition])
  else
    pure (ASTNode.mk "DELETE" [table])

/-- The method `parse` (lines 142-180) on a token list. -/
def parseT : TParserM (Option ASTNode) := do
  let token ← nextT
  if token.type = TokenType.KEYWORD then
    if token.value = "CREATE" then do
      let node ← parseCreateT
      pure (some node)
    else if token.value = "SELECT" then do
      let node ← parseSelectT
      pure (some node)
    else if token.value = "INSERT" then do
      let node ← parseInsertT
      pure (some node)
    else if token.value = "UPDATE" then do
      let node ← parseUpdateT
      pure (some node)
    else if token.value = "DELETE" then do
      let node ← parseDeleteT
      pure (some node)
    else
      pure none
  else
    throwT "Invalid SQL statement"

/-- What the caller observes of an outcome on a token list. -/
def TResult.outcome {α : Type} : TResult α → Outcome α
  | TResult.ok a _ => Outcome.returned a
  | TResult.error e => Outcome.thrown e

/-- The outcome of `parse` as a function of the tokens ahead of the lexer:
a recursion on the token list, without a loop budget. -/
def parseTokens (ts : List Token) : Outcome (Option ASTNode) :=
  (parseT ts).outcome

/-- The tokens ahead of the lexer are `ts`: the pending token, if there is
one, and then the tokens of the unread input. -/
def Lexer.Ahead (lx : Lexer) (ts : List Token) : Prop :=
  (lx.hasPutBack = false ∧ lexAll lx.unread = ts) ∨
  (lx.hasPutBack = true ∧ lx.lastToken :: lexAll lx.unread = ts)

/-- The parser method `x` and the method `y` on token lists agree: from a
lexer and a token list related by `pre`, both return the same value `a` and
leave a lexer and a token list related by `post a`, or both throw the same
message. -/
def SimP {α : Type} (pre : Lexer → List Token → Prop) (post : α → Lexer → List Token → Prop)
    (x : ParserM α) (y : TParserM α) : Prop :=
  ∀ lx ts, pre lx ts →
    match y ts with
    | TResult.ok a rest => ∃ lx1, x lx = Result.ok a lx1 ∧ post a lx1 rest ∧ lx1.input = lx.input
    | TResult.error e => ∃ lx1, x lx = Result.error e lx1

/-! ## Statements

The statements of the grammar that `parse` implements, with the token
sequence in which each is written and the tree that `parse` builds for it.
-/

/-- A token that `parseValue` accepts: a number or a string. -/
def Token.isValue (t : Token) : Prop :=
  t.type = TokenType.NUMBER ∨ t.type = TokenType.STRING

instance (t : Token) : Decidable t.isValue := by
  unfold Token.isValue
  infer_instance

/-- A `WHERE` clause: column, comparison operator and value token. -/
structure Condition where
  column : String
  op : String
  value : Token
deriving DecidableEq, Repr

/-- The operator is one of the six comparison operators and the value is a
number or a string. -/
def Condition.wellFormed (c : Condition) : Prop :=
  c.op ∈ comparisonOperators ∧ c.value.isValue

/-- The tokens `WHERE column op value`. -/
def Condition.tokens (c : Condition) : List Token :=
  [⟨TokenType.KEYWORD, "WHERE"⟩, ⟨TokenType.IDENTIFIER, c.column⟩, ⟨TokenType.SYMBOL, c.op⟩,
    c.value]

/-- The node that `parseCondition` builds. -/
def Condition.toAST (c : Condition) : ASTNode :=
  ASTNode.mk "CONDITION" [ASTNode.leaf c.column, ASTNode.leaf c.op, ASTNode.leaf c.value.value]

/-- The entry that line 538 builds for the condition. -/
def Condition.joined (c : Condition) : String :=
  c.column ++ c.op ++ c.value.value

/-- The tokens of an optional `WHERE` clause. -/
def whereTokens : Option Condition → List Token
  | none => []
  | some c => c.tokens

/-- The tokens of a select list `c1 , ... , ck`. -/
def columnListTokens : List String → List Token
  | [] => []
  | [c] => [⟨TokenType.IDENTIFIER, c⟩]
  | c :: rest => ⟨TokenType.IDENTIFIER, c⟩ :: ⟨TokenType.SYMBOL, ","⟩ :: columnListTokens rest

/-- The tokens of a value list `v1 , ... , vk`. -/
def valueListTokens : List Token → List Token
  | [] => []
  | [v] => [v]
  | v :: rest => v :: ⟨TokenType.SYMBOL, ","⟩ :: valueListTokens rest

/-- The statements of the grammar. -/
inductive Statement where
  | create (table : String) (columns : List (String × String))
  | selectAll (table : String) (condition : Option Condition)
  | select (columns : List String) (table : String) (condition : Option Condition)
  | insert (table : String) (values : List Token)
  | update (table : String) (assignments : List (String × Token)) (condition : Condition)
  | delete (table : String) (condition : Option Condition)
deriving DecidableEq, Repr

/-- The table name of a statement. -/
def Statement.table : Statement → String
  | .create t _ => t
  | .selectAll t _ => t
  | .select _ t _ => t
  | .insert t _ => t
  | .update t _ _ => t
  | .delete t _ => t

/-- The leading keyword of a statement. -/
def Statement.keyword : Statement → String
  | .create _ _ => "CREATE"
  | .selectAll _ _ => "SELECT"
  | .select _ _ _ => "SELECT"
  | .insert _ _ => "INSERT"
  | .update _ _ _ => "UPDATE"
  | .delete _ _ => "DELETE"

/-- The `WHERE` clause of a statement, if it has one. -/
def Statement.condition : Statement → Option Condition
  | .create _ _ => none
  | .selectAll _ c => c
  | .select _ _ c => c
  | .insert _ _ => none
  | .update _ _ c => some c
  | .delete _ c => c

/-- The lists of a statement are not empty, its values are numbers or
strings, and its `WHERE` clause is well formed. -/
def Statement.wellFormed : Statement → Prop
  | .create _ columns => columns ≠ []
  | .selectAll _ c => ∀ x ∈ c, x.wellFormed
  | .select columns _ c => columns ≠ [] ∧ ∀ x ∈ c, x.wellFormed
  | .insert _ values => values ≠ [] ∧ ∀ v ∈ values, v.isValue
  | .update _ assignments c =>
    assignments ≠ [] ∧ (∀ a ∈ assignments, a.2.isValue) ∧ c.wellFormed
  | .delete _ c => ∀ x ∈ c, x.wellFormed

/-- The token sequence in which a statement is written. -/
def Statement.tokens : Statement → List Token
  | .create t columns =>
    ⟨TokenType.KEYWORD, "CREATE"⟩ :: ⟨TokenType.KEYWORD, "TABLE"⟩ :: ⟨TokenType.IDENTIFIER, t⟩ ::
      ⟨TokenType.SYMBOL, "("⟩ :: (columnDefTokens columns ++ [⟨TokenType.SYMBOL, ")"⟩])
  | .selectAll t c =>
    ⟨TokenType.KEYWORD, "SELECT"⟩ :: ⟨TokenType.SYMBOL, "*"⟩ :: ⟨TokenType.KEYWORD, "FROM"⟩ ::
      ⟨TokenType.IDENTIFIER, t⟩ :: whereTokens c
  | .select columns t c =>
    ⟨TokenType.KEYWORD, "SELECT"⟩ :: (columnListTokens columns ++
      ⟨TokenType.KEYWORD, "FROM"⟩ :: ⟨TokenType.IDENTIFIER, t⟩ :: whereTokens c)
  | .insert t values =>
    ⟨TokenType.KEYWORD, "INSERT"⟩ :: ⟨TokenType.KEYWORD, "INTO"⟩ :: ⟨TokenType.IDENTIFIER, t⟩ ::
      ⟨TokenType.KEYWORD, "VALUES"⟩ :: ⟨TokenType.SYMBOL, "("⟩ ::
      (valueListTokens values ++ [⟨TokenType.SYMBOL, ")"⟩])
  | .update t assignments c =>
    ⟨TokenType.KEYWORD, "UPDATE"⟩ :: ⟨TokenType.IDENTIFIER, t⟩ :: ⟨TokenType.KEYWORD, "SET"⟩ ::
      (assignmentTokens assignments ++ c.tokens)
  | .delete t c =>
    ⟨TokenType.KEYWORD, "DELETE"⟩ :: ⟨TokenType.KEYWORD, "FROM"⟩ :: ⟨TokenType.IDENTIFIER, t⟩ ::
      whereTokens c

/-- The children that an optional `WHERE` clause adds to the root. -/
def whereNodes : Option Condition → List ASTNode
  | none => []
  | some c => [c.toAST]

/-- The `UPDATE_FIELD` node of an assignment. -/
def updateFieldNode (a : String × Token) : ASTNode :=
  ASTNode.mk "UPDATE_FIELD" [ASTNode.leaf a.1, ASTNode.leaf a.2.value]

/-- The tree of a statement. -/
def Statement.toAST : Statement → ASTNode
  | .create t columns => ASTNode.mk "CREATE" (ASTNode.leaf t :: columns.map columnNode)
  | .selectAll t c =>
    ASTNode.mk "SELECT"
      (ASTNode.mk "COLUMNS" [ASTNode.leaf "ALL_COLUMNS"] :: ASTNode.leaf t :: whereNodes c)
  | .select columns t c =>
    ASTNode.mk "SELECT"
      (ASTNode.mk "COLUMNS" (columns.map ASTNode.leaf) :: ASTNode.leaf t :: whereNodes c)
  | .insert t values =>
    ASTNode.mk "INSERT"
      [ASTNode.leaf t, ASTNode.mk "VALUES" (values.map (fun v => ASTNode.leaf v.value))]
  | .update t assignments c =>
    ASTNode.mk "UPDATE"
      [ASTNode.leaf t, ASTNode.mk "UPDATES" (assignments.map updateFieldNode), c.toAST]
  | .delete t c => ASTNode.mk "DELETE" (ASTNode.leaf t :: whereNodes c)

/-- The token `tok` is the keyword `WHERE`. -/
def Token.isWhere (t : Token) : Prop :=
  t.type = TokenType.KEYWORD ∧ t.value = "WHERE"

instance (t : Token) : Decidable t.isWhere := by
  unfold Token.isWhere
  infer_instance

/-- The tokens `rest` that follow the statement do not continue it: after a
`SELECT` or `DELETE` without `WHERE` clause the next token is not `WHERE`. -/
def Statement.endsBefore (s : Statement) (rest : List Token) : Prop :=
  match s with
  | .selectAll _ none => ¬ (rest.headD Token.eof).isWhere
  | .select _ _ none => ¬ (rest.headD Token.eof).isWhere
  | .delete _ none => ¬ (rest.headD Token.eof).isWhere
  | _ => True

mutual
/-- The labels of the nodes at depth `d` below `node`, in the order in which
`printAST` visits them. -/
def labelsAt : Nat → ASTNode → List String
  | 0, .mk type _ => [type]
  | d + 1, .mk _ children => labelsAtList d children
/-- The labels of the nodes at depth `d` below the nodes of a list. -/
def labelsAtList : Nat → List ASTNode → List String
  | _, [] => []
  | d, child :: rest => labelsAt d child ++ labelsAtList d rest
end

/-- The labels that the flattening pass takes for node labels; an identifier
of the statement may be spelled like any of them. -/
def nodeLabels : List String :=
  ["ALL_COLUMNS", "COLUMN", "COLUMNS", "CONDITION", "UPDATES", "UPDATE_FIELD"]

/-- The names that a statement holds: its table name, its column names and
types, and the column of its condition. -/
def Statement.identifiers : Statement → List String
  | .create t columns => t :: (columns.map Prod.fst ++ columns.map Prod.snd)
  | .selectAll t c => t :: c.toList.map Condition.column
  | .select columns t c => t :: (columns ++ c.toList.map Condition.column)
  | .insert t _ => [t]
  | .update t assignments c => t :: (assignments.map Prod.fst ++ [c.column])
  | .delete t c => t :: c.toList.map Condition.column

/-- The text `l1, ..., lk` of a list of literals. -/
def literalsText : List Literal → String
  | [] => ""
  | [v] => v.text
  | v :: rest => v.text ++ ", " ++ literalsText rest

/-- The text `INSERT INTO t VALUES (l1, ..., lk);`. -/
def insertText (t : String) (values : List Literal) : String :=
  "INSERT INTO " ++ t ++ " VALUES (" ++ literalsText values ++ ");"

/-- The characters `cs` close every quote that is open: `q` is the quote
character that is open before `cs`, if there is one, and a quote character
that is met while none is open opens one. -/
def quotesClosedFrom : Option Char → List Char → Bool
  | none, [] => true
  | some _, [] => false
  | none, c :: cs =>
    if c = Char.ofNat 39 ∨ c = Char.ofNat 34 then quotesClosedFrom (some c) cs
    else quotesClosedFrom none cs
  | some q, c :: cs =>
    if c = q then quotesClosedFrom none cs else quotesClosedFrom (some q) cs

/-- The text holds no unclosed quote character. -/
def quotesClosed (s : String) : Bool :=
  quotesClosedFrom none s.data

/-! ## Lemmas on the lexer -/

theorem collectWhile_eq_takeWhile (p : Char → Bool) (cs : List Char) :
    collectWhile p cs = cs.takeWhile p := by
  induction cs with
  | nil => rfl
  | cons c cs ih => by_cases h : p c <;> simp [collectWhile, List.takeWhile, h, ih]

/-- A run of characters that all satisfy `p`, followed by a character that
does not (or by the end), is what the loop collects. -/
theorem collectWhile_run (p : Char → Bool) (w rest : List Char)
    (hw : ∀ c ∈ w, p c = true) (hrest : ∀ c ∈ rest.head?, p c = false) :
    collectWhile p (w ++ rest) = w := by
  induction w with
  | nil =>
    cases rest with
    | nil => rfl
    | cons d ds =>
      have : p d = false := hrest d (by simp)
      simp [collectWhile, this]
  | cons c cs ih =>
    have hc : p c = true := hw c (by simp)
    have := ih (fun d hd => hw d (by simp [hd]))
    simp [collectWhile, hc, this]

theorem collectWhile_length_le (p : Char → Bool) (cs : List Char) :
    (collectWhile p cs).length ≤ cs.length := by
  induction cs with
  | nil => simp [collectWhile]
  | cons c cs ih => by_cases h : p c <;> simp [collectWhile, h]; omega

/-- Skipping whitespace in front of a token start. -/
theorem readToken_skip (ws r : List Char) (hws : ∀ c ∈ ws, isspace c = true)
    (hr : ∀ c ∈ r.head?, isspace c = false) :
    readToken (ws ++ r) = ((scanToken r).1, ws.length + (scanToken r).2) := by
  simp [readToken, collectWhile_run isspace ws r hws hr]

theorem scanToken_word (w rest : List Char) (hne : w ≠ [])
    (hhead : ∀ c ∈ w.head?, isalpha c = true)
    (hw : ∀ c ∈ w, isWordChar c = true) (hrest : ∀ c ∈ rest.head?, isWordChar c = false) :
    scanToken (w ++ rest) =
      (⟨if String.mk w ∈ keywords then TokenType.KEYWORD else TokenType.IDENTIFIER, String.mk w⟩,
        w.length) := by
  cases w with
  | nil => exact absurd rfl hne
  | cons c cs =>
    have hc : isalpha c = true := hhead c (by simp)
    have hrun := collectWhile_run isWordChar (c :: cs) rest hw hrest
    simp only [List.cons_append] at hrun
    simp only [List.cons_append, scanToken, hc, if_true, hrun]
    split <;> rfl

theorem scanToken_number (w rest : List Char) (hne : w ≠ [])
    (hw : ∀ c ∈ w, isdigit c = true) (hrest : ∀ c ∈ rest.head?, isdigit c = false) :
    scanToken (w ++ rest) = (⟨TokenType.NUMBER, String.mk w⟩, w.length) := by
  cases w with
  | nil => exact absurd rfl hne
  | cons c cs =>
    have hc : isdigit c = true := hw c (by simp)
    have ha : isalpha c = false := by
      simp only [isdigit, isalpha] at hc ⊢
      simp only [Bool.and_eq_true, decide_eq_true_eq, Bool.or_eq_false_iff, Bool.and_eq_false_iff,
        decide_eq_false_iff_not] at hc ⊢
      omega
    have hrun := collectWhile_run isdigit (c :: cs) rest hw hrest
    simp only [List.cons_append] at hrun
    simp [scanToken, hc, ha, hrun]

theorem isalpha_isWordChar {c : Char} (h : isalpha c = true) : isWordChar c = true := by
  simp [isWordChar, isalnum, h]

theorem not_isalpha_of_isdigit {c : Char} (hc : isdigit c = true) : isalpha c = false := by
  simp only [isdigit, isalpha] at hc ⊢
  simp only [Bool.and_eq_true, decide_eq_true_eq, Bool.or_eq_false_iff, Bool.and_eq_false_iff,
    decide_eq_false_iff_not] at hc ⊢
  omega

/-- The two quote characters. -/
theorem quote_not_alnum {q : Char} (hq : q = Char.ofNat 39 ∨ q = Char.ofNat 34) :
    isalpha q = false ∧ isdigit q = false ∧ isspace q = false := by
  rcases hq with rfl | rfl <;> decide

theorem scanToken_string (q : Char) (body rest : List Char)
    (hq : q = Char.ofNat 39 ∨ q = Char.ofNat 34) (hbody : q ∉ body) :
    scanToken (q :: (body ++ q :: rest)) = (⟨TokenType.STRING, String.mk body⟩, 1 + body.length + 1) := by
  obtain ⟨ha, hd, _⟩ := quote_not_alnum hq
  have hrun : collectWhile (fun d => d != q) (body ++ q :: rest) = body := by
    apply collectWhile_run
    · intro c hc
      have : c ≠ q := fun h => hbody (h ▸ hc)
      simpa using this
    · simp
  simp [scanToken, ha, hd, hq, hrun]

theorem scanToken_string_open (q : Char) (body : List Char)
    (hq : q = Char.ofNat 39 ∨ q = Char.ofNat 34) (hbody : q ∉ body) :
    scanToken (q :: body) = (⟨TokenType.STRING, String.mk body⟩, 1 + body.length + 1) := by
  obtain ⟨ha, hd, _⟩ := quote_not_alnum hq
  have hrun : collectWhile (fun d => d != q) (body ++ []) = body := by
    apply collectWhile_run
    · intro c hc
      have : c ≠ q := fun h => hbody (h ▸ hc)
      simpa using this
    · simp
  rw [List.append_nil] at hrun
  simp [scanToken, ha, hd, hq, hrun]

theorem scanToken_symbol2 (c d : Char) (rest : List Char)
    (ha : isalpha c = false) (hd : isdigit c = false)
    (hq : ¬ (c = Char.ofNat 39 ∨ c = Char.ofNat 34))
    (h2 : String.mk [c, d] = "!=" ∨ String.mk [c, d] = "<=" ∨ String.mk [c, d] = ">=") :
    scanToken (c :: d :: rest) = (⟨TokenType.SYMBOL, String.mk [c, d]⟩, 2) := by
  simp only [scanToken, ha, hd, hq, h2]
  simp

theorem scanToken_symbol1 (c : Char) (rest : List Char)
    (ha : isalpha c = false) (hd : isdigit c = false)
    (hq : ¬ (c = Char.ofNat 39 ∨ c = Char.ofNat 34))
    (h2 : ∀ d ∈ rest.head?,
      ¬ (String.mk [c, d] = "!=" ∨ String.mk [c, d] = "<=" ∨ String.mk [c, d] = ">=")) :
    scanToken (c :: rest) = (⟨TokenType.SYMBOL, String.mk [c]⟩, 1) := by
  cases rest with
  | nil => simp [scanToken, ha, hd, hq]
  | cons d ds =>
    have := h2 d (by simp)
    simp only [scanToken, ha, hd, hq, this]
    simp

theorem Lexer.nextToken_of_not_hasPutBack (lx : Lexer) (h : lx.hasPutBack = false) :
    lx.nextToken = ((readToken lx.unread).1, { lx with pos := lx.pos + (readToken lx.unread).2 }) := by
  simp [Lexer.nextToken, h]

theorem Lexer.unread_advance (lx : Lexer) (n : Nat) :
    Lexer.unread { lx with pos := lx.pos + n } = lx.unread.drop n := by
  simp [Lexer.unread, List.drop_drop, Nat.add_comm]

theorem not_isspace_of_isalpha {c : Char} (h : isalpha c = true) : isspace c = false := by
  revert h
  simp only [isalpha, isspace]
  simp only [Bool.and_eq_true, decide_eq_true_eq, Bool.or_eq_true, Bool.or_eq_false_iff,
    Bool.and_eq_false_iff, decide_eq_false_iff_not, beq_eq_false_iff_ne]
  omega

theorem not_isspace_of_isdigit {c : Char} (h : isdigit c = true) : isspace c = false := by
  revert h
  simp only [isdigit, isspace]
  simp only [Bool.and_eq_true, decide_eq_true_eq, Bool.or_eq_false_iff,
    Bool.and_eq_false_iff, decide_eq_false_iff_not, beq_eq_false_iff_ne]
  omega

/-! ## Lemmas on the token stream -/

theorem collectWhile_pos (p : Char → Bool) (c : Char) (cs : List Char) (h : p c = true) :
    0 < (collectWhile p (c :: cs)).length := by
  simp [collectWhile, h]

/-- A token other than `END` consumes at least one character, and `END` comes
only from the end of the input. -/
theorem scanToken_spec (cs : List Char) :
    ((scanToken cs).1.type = TokenType.END → cs = [] ∧ (scanToken cs) = (⟨TokenType.END, ""⟩, 0)) ∧
    ((scanToken cs).1.type ≠ TokenType.END → 0 < (scanToken cs).2) := by
  cases cs with
  | nil => simp [scanToken]
  | cons c cs =>
    simp only [scanToken]
    split
    · rename_i ha
      have := collectWhile_pos isWordChar c cs (isalpha_isWordChar ha)
      split <;> simp [this]
    · split
      · rename_i hd
        have := collectWhile_pos isdigit c cs hd
        simp [this]
      · split
        · simp
        · split
          · split <;> simp
          · simp

theorem readToken_end (cs : List Char) (h : (readToken cs).1.type = TokenType.END) :
    (readToken cs).1 = ⟨TokenType.END, ""⟩ ∧ cs.drop (readToken cs).2 = [] := by
  have h1 := (scanToken_spec (cs.drop (collectWhile isspace cs).length)).1 h
  simp only [readToken] at h ⊢
  rw [h1.2]
  simp [h1.1]

theorem readToken_pos (cs : List Char) (h : (readToken cs).1.type ≠ TokenType.END) :
    0 < (readToken cs).2 ∧ cs ≠ [] := by
  have h1 := (scanToken_spec (cs.drop (collectWhile isspace cs).length)).2 h
  constructor
  · simp only [readToken]; omega
  · rintro rfl
    simp [readToken, collectWhile, scanToken] at h

theorem tokensFrom_length_le (n : Nat) (cs : List Char) : (tokensFrom n cs).length ≤ cs.length := by
  induction n generalizing cs with
  | zero => simp [tokensFrom]
  | succ n ih =>
    simp only [tokensFrom]
    split
    · simp
    · rename_i h
      have hp := readToken_pos cs h
      have := ih (cs.drop (readToken cs).2)
      have hlen : 0 < cs.length := List.length_pos.mpr hp.2
      simp only [List.length_cons, List.length_drop] at this ⊢
      omega

/-- More reads than characters change nothing. -/
theorem tokensFrom_congr (n m : Nat) (cs : List Char) (hn : cs.length < n) (hm : cs.length < m) :
    tokensFrom n cs = tokensFrom m cs := by
  induction n generalizing m cs with
  | zero => omega
  | succ n ih =>
    cases m with
    | zero => omega
    | succ m =>
      simp only [tokensFrom]
      split
      · rfl
      · rename_i hne
        have hp := readToken_pos cs hne
        have hlen : 0 < cs.length := List.length_pos.mpr hp.2
        have hd : (cs.drop (readToken cs).2).length < cs.length := by
          simp only [List.length_drop]; omega
        rw [ih m _ (by omega) (by omega)]

theorem tokensFrom_stable (n : Nat) (cs : List Char) (h : cs.length < n) :
    tokensFrom n cs = lexAll cs :=
  tokensFrom_congr n (cs.length + 1) cs h (Nat.lt_succ_self _)

theorem lexAll_cons (cs : List Char) (h : (readToken cs).1.type ≠ TokenType.END) :
    lexAll cs = (readToken cs).1 :: lexAll (cs.drop (readToken cs).2) := by
  have hp := readToken_pos cs h
  have hlen : 0 < cs.length := List.length_pos.mpr hp.2
  have hd : (cs.drop (readToken cs).2).length < cs.length := by
    simp only [List.length_drop]; omega
  conv_lhs => simp only [lexAll, tokensFrom, if_neg h]
  rw [tokensFrom_stable _ _ hd]

theorem lexAll_nil_of_end (cs : List Char) (h : (readToken cs).1.type = TokenType.END) :
    lexAll cs = [] := by
  simp [lexAll, tokensFrom, h]

theorem lexAll_length_le (cs : List Char) : (lexAll cs).length ≤ cs.length :=
  tokensFrom_length_le _ cs

theorem lexAll_eq_nil_iff (cs : List Char) :
    lexAll cs = [] ↔ (readToken cs).1.type = TokenType.END := by
  constructor
  · intro h
    by_contra hne
    rw [lexAll_cons cs hne] at h
    simp at h
  · exact lexAll_nil_of_end cs

theorem lexAll_eq_cons_iff (cs : List Char) (t : Token) (ts : List Token) :
    lexAll cs = t :: ts ↔
      (readToken cs).1 = t ∧ t.type ≠ TokenType.END ∧ lexAll (cs.drop (readToken cs).2) = ts := by
  constructor
  · intro h
    have hne : (readToken cs).1.type ≠ TokenType.END := by
      intro he
      rw [lexAll_nil_of_end cs he] at h
      simp at h
    rw [lexAll_cons cs hne] at h
    simp only [List.cons.injEq] at h
    exact ⟨h.1, h.1 ▸ hne, h.2⟩
  · rintro ⟨h1, h2, h3⟩
    rw [lexAll_cons cs (h1 ▸ h2), h1, h3]

/-! ## Lemmas on the parser steps -/

@[simp] theorem bind_apply {α β : Type} (x : ParserM α) (f : α → ParserM β) (lx : Lexer) :
    (x >>= f) lx =
      match x lx with
      | Result.ok a lx1 => f a lx1
      | Result.error e lx1 => Result.error e lx1
      | Result.exhausted lx1 => Result.exhausted lx1 := rfl

@[simp] theorem pure_apply {α : Type} (a : α) (lx : Lexer) :
    (pure a : ParserM α) lx = Result.ok a lx := rfl

@[simp] theorem throwRuntimeError_apply {α : Type} (what : String) (lx : Lexer) :
    (throwRuntimeError what : ParserM α) lx = Result.error what lx := rfl

@[simp] theorem outOfBudget_apply {α : Type} (lx : Lexer) :
    (outOfBudget : ParserM α) lx = Result.exhausted lx := rfl

theorem nextToken_apply (lx : Lexer) :
    nextToken lx = Result.ok lx.nextToken.1 lx.nextToken.2 := rfl

@[simp] theorem putBackToken_apply (t : Token) (lx : Lexer) :
    putBackToken t lx = Result.ok () (lx.putBackToken t) := rfl

@[simp] theorem setZero_apply (lx : Lexer) : setZero lx = Result.ok () lx.SetZero := rfl

@[simp] theorem initial_apply (input : String) (lx : Lexer) :
    initial input lx = Result.ok () (lx.Initial input) := rfl

@[simp] theorem loopBudget_apply (lx : Lexer) :
    loopBudget lx = Result.ok (lx.input.length + 1) lx := rfl

theorem parserIte_apply {α : Type} (c : Prop) [Decidable c] (x y : ParserM α) (lx : Lexer) :
    (if c then x else y) lx = if c then x lx else y lx := by
  split <;> rfl

theorem Lexer.unread_length_le (lx : Lexer) : lx.unread.length ≤ lx.input.length := by
  unfold Lexer.unread
  rw [List.length_drop]
  show lx.input.data.length - lx.pos ≤ lx.input.data.length
  omega

theorem Lexer.Sees.length_le {lx : Lexer} {ts : List Token} (h : lx.Sees ts) :
    ts.length ≤ lx.input.length := by
  have h1 := lexAll_length_le lx.unread
  have h2 := lx.unread_length_le
  rw [h.2] at h1
  omega

theorem Lexer.Sees.next_cons {lx : Lexer} {t : Token} {ts : List Token} (h : lx.Sees (t :: ts)) :
    lx.nextToken.1 = t ∧ lx.nextToken.2.Sees ts ∧ lx.nextToken.2.input = lx.input := by
  obtain ⟨hpb, hts⟩ := h
  obtain ⟨h1, _, h3⟩ := (lexAll_eq_cons_iff _ _ _).mp hts
  rw [Lexer.nextToken_of_not_hasPutBack lx hpb]
  refine ⟨h1, ⟨hpb, ?_⟩, rfl⟩
  rw [Lexer.unread_advance]
  exact h3

theorem Lexer.Sees.next_nil {lx : Lexer} (h : lx.Sees []) :
    lx.nextToken.1 = ⟨TokenType.END, ""⟩ ∧ lx.nextToken.2.Sees [] ∧
      lx.nextToken.2.input = lx.input := by
  obtain ⟨hpb, hts⟩ := h
  have hend := (lexAll_eq_nil_iff _).mp hts
  obtain ⟨h1, h2⟩ := readToken_end _ hend
  rw [Lexer.nextToken_of_not_hasPutBack lx hpb]
  refine ⟨h1, ⟨hpb, ?_⟩, rfl⟩
  rw [Lexer.unread_advance, h2]
  rfl

/-- The lexer of a parser that starts on `input` without a pending pushback
sees the tokens of `input`. -/
theorem Lexer.sees_initial (lx : Lexer) (input : String) (h : lx.hasPutBack = false) :
    (lx.Initial input).Sees (tokens input) := by
  refine ⟨h, ?_⟩
  simp [Lexer.Initial, Lexer.unread, tokens]

theorem nextToken_ok {lx : Lexer} {t : Token} {ts : List Token} (h : lx.Sees (t :: ts)) :
    ∃ lx1, nextToken lx = Result.ok t lx1 ∧ lx1.Sees ts ∧ lx1.input = lx.input := by
  obtain ⟨h1, h2, h3⟩ := h.next_cons
  exact ⟨lx.nextToken.2, by rw [nextToken_apply, h1], h2, h3⟩

theorem nextToken_end {lx : Lexer} (h : lx.Sees []) :
    ∃ lx1, nextToken lx = Result.ok ⟨TokenType.END, ""⟩ lx1 ∧ lx1.Sees [] ∧
      lx1.input = lx.input := by
  obtain ⟨h1, h2, h3⟩ := h.next_nil
  exact ⟨lx.nextToken.2, by rw [nextToken_apply, h1], h2, h3⟩

theorem parseIdentifier_ok {lx : Lexer} {v : String} {ts : List Token} (description : String)
    (h : lx.Sees (⟨TokenType.IDENTIFIER, v⟩ :: ts)) :
    ∃ lx1, parseIdentifier description lx = Result.ok (ASTNode.leaf v) lx1 ∧ lx1.Sees ts ∧
      lx1.input = lx.input := by
  obtain ⟨lx1, h1, h2, h3⟩ := nextToken_ok h
  exact ⟨lx1, by simp [parseIdentifier, h1, parserIte_apply], h2, h3⟩

theorem parseValue_ok {lx : Lexer} {t : Token} {ts : List Token}
    (h : lx.Sees (t :: ts)) (ht : t.type = TokenType.NUMBER ∨ t.type = TokenType.STRING) :
    ∃ lx1, parseValue lx = Result.ok (ASTNode.leaf t.value) lx1 ∧ lx1.Sees ts ∧
      lx1.input = lx.input := by
  obtain ⟨lx1, h1, h2, h3⟩ := nextToken_ok h
  exact ⟨lx1, by simp [parseValue, h1, ht, parserIte_apply], h2, h3⟩

theorem expectKeyword_ok {lx : Lexer} {k : String} {ts : List Token}
    (h : lx.Sees (⟨TokenType.KEYWORD, k⟩ :: ts)) :
    ∃ lx1, expectKeyword k lx = Result.ok () lx1 ∧ lx1.Sees ts ∧ lx1.input = lx.input := by
  obtain ⟨lx1, h1, h2, h3⟩ := nextToken_ok h
  exact ⟨lx1, by simp [expectKeyword, h1, parserIte_apply], h2, h3⟩

theorem expectSymbol_ok {lx : Lexer} {k : String} {ts : List Token}
    (h : lx.Sees (⟨TokenType.SYMBOL, k⟩ :: ts)) :
    ∃ lx1, expectSymbol k lx = Result.ok () lx1 ∧ lx1.Sees ts ∧ lx1.input = lx.input := by
  obtain ⟨lx1, h1, h2, h3⟩ := nextToken_ok h
  exact ⟨lx1, by simp [expectSymbol, h1, parserIte_apply], h2, h3⟩

/-- The six comparison operators of `parseCondition` (lines 398-399). -/
theorem parseCondition_ok {lx : Lexer} {c op : String} {v : Token} {ts : List Token}
    (h : lx.Sees (⟨TokenType.IDENTIFIER, c⟩ :: ⟨TokenType.SYMBOL, op⟩ :: v :: ts))
    (hop : op ∈ ["=", ">", "<", ">=", "<=", "!="])
    (hv : v.type = TokenType.NUMBER ∨ v.type = TokenType.STRING) :
    ∃ lx1, parseCondition lx =
        Result.ok (ASTNode.mk "CONDITION" [ASTNode.leaf c, ASTNode.leaf op, ASTNode.leaf v.value]) lx1 ∧
      lx1.Sees ts ∧ lx1.input = lx.input := by
  obtain ⟨lx1, h1, s1, i1⟩ := parseIdentifier_ok "column name" h
  obtain ⟨lx2, h2, s2, i2⟩ := nextToken_ok s1
  obtain ⟨lx3, h3, s3, i3⟩ := parseValue_ok s2 hv
  refine ⟨lx3, ?_, s3, by rw [i3, i2, i1]⟩
  have hop2 : ¬ (op ≠ "=" ∧ op ≠ ">" ∧ op ≠ "<" ∧ op ≠ ">=" ∧ op ≠ "<=" ∧ op ≠ "!=") := by
    simp only [List.mem_cons, List.mem_singleton, List.not_mem_nil, or_false] at hop
    rcases hop with rfl | rfl | rfl | rfl | rfl | rfl <;> decide
  simp only [parseCondition, bind_apply, h1]
  rw [h2]
  simp only [parserIte_apply, bind_apply, h3, pure_apply]
  simp [hop2]

theorem Labels.bind {α : Type} {K : String} (x : ParserM α) (f : α → ParserM ASTNode)
    (h : ∀ a, Labels K (f a)) : Labels K (x >>= f) := by
  intro lx n lx2 hx
  rw [bind_apply] at hx
  cases hr : x lx with
  | ok a lx1 => rw [hr] at hx; exact h a lx1 n lx2 hx
  | error e lx1 => rw [hr] at hx; cases hx
  | exhausted lx1 => rw [hr] at hx; cases hx

theorem Labels.pure (K : String) (children : List ASTNode) :
    Labels K (pure (ASTNode.mk K children)) := by
  intro lx n lx2 h
  simp only [pure_apply, Result.ok.injEq] at h
  rw [← h.1]; rfl

theorem Labels.ite {K : String} (c : Prop) [Decidable c] (x y : ParserM ASTNode)
    (hx : Labels K x) (hy : Labels K y) : Labels K (if c then x else y) := by
  split
  · exact hx
  · exact hy

theorem parseCreate_type : Labels "CREATE" parseCreate := by
  unfold parseCreate
  refine Labels.bind _ _ (fun _ => Labels.bind _ _ (fun _ => Labels.bind _ _ (fun _ =>
    Labels.bind _ _ (fun _ => Labels.bind _ _ (fun _ => Labels.pure _ _)))))

theorem parseSelect_type : Labels "SELECT" parseSelect := by
  unfold parseSelect
  refine Labels.bind _ _ (fun _ => Labels.bind _ _ (fun _ => Labels.bind _ _ (fun _ =>
    Labels.bind _ _ (fun _ => Labels.ite _ _ _ ?_ ?_))))
  · exact Labels.bind _ _ (fun _ => Labels.pure _ _)
  · exact Labels.bind _ _ (fun _ => Labels.pure _ _)

theorem parseInsert_type : Labels "INSERT" parseInsert := by
  unfold parseInsert
  refine Labels.bind _ _ (fun _ => Labels.bind _ _ (fun _ => Labels.bind _ _ (fun _ =>
    Labels.bind _ _ (fun _ => Labels.bind _ _ (fun _ => Labels.bind _ _ (fun _ =>
      Labels.pure _ _))))))

theorem parseUpdate_type : Labels "UPDATE" parseUpdate := by
  unfold parseUpdate
  refine Labels.bind _ _ (fun _ => Labels.bind _ _ (fun _ => Labels.bind _ _ (fun _ =>
    Labels.bind _ _ (fun _ => Labels.bind _ _ (fun _ => Labels.pure _ _)))))

theorem parseDelete_type : Labels "DELETE" parseDelete := by
  unfold parseDelete
  refine Labels.bind _ _ (fun _ => Labels.bind _ _ (fun _ => Labels.bind _ _ (fun _ =>
    Labels.ite _ _ _ ?_ ?_)))
  · exact Labels.bind _ _ (fun _ => Labels.pure _ _)
  · exact Labels.pure _ _

/-- The statement keyword dispatch of `parse`: with a leading statement
keyword, a returned node comes from the sub-rule of that keyword. -/
theorem parseM_ok_of_keyword {input : String} {lx lx2 : Lexer} {K : String} {node : ASTNode}
    (hfirst : (lx.Initial input).nextToken.1 = ⟨TokenType.KEYWORD, K⟩)
    (h : parseM input lx = Result.ok (some node) lx2) :
    (K = "CREATE" ∧ ∃ lx3, parseCreate (lx.Initial input).nextToken.2 = Result.ok node lx3) ∨
    (K = "SELECT" ∧ ∃ lx3, parseSelect (lx.Initial input).nextToken.2 = Result.ok node lx3) ∨
    (K = "INSERT" ∧ ∃ lx3, parseInsert (lx.Initial input).nextToken.2 = Result.ok node lx3) ∨
    (K = "UPDATE" ∧ ∃ lx3, parseUpdate (lx.Initial input).nextToken.2 = Result.ok node lx3) ∨
    (K = "DELETE" ∧ ∃ lx3, parseDelete (lx.Initial input).nextToken.2 = Result.ok node lx3) := by
  have step : ∀ (x : ParserM ASTNode) (l : Lexer),
      (x >>= fun n => setZero >>= fun _ => (pure (some n) : ParserM (Option ASTNode))) l =
        Result.ok (some node) lx2 → ∃ lx3, x l = Result.ok node lx3 := by
    intro x l hx
    rw [bind_apply] at hx
    cases hr : x l with
    | ok a lx1 =>
      rw [hr] at hx
      simp only [bind_apply, setZero_apply, pure_apply, Result.ok.injEq, Option.some.injEq] at hx
      exact ⟨lx1, by rw [hx.1]⟩
    | error e lx1 => rw [hr] at hx; cases hx
    | exhausted lx1 => rw [hr] at hx; cases hx
  simp only [parseM, bind_apply, initial_apply, nextToken_apply, hfirst, parserIte_apply,
    if_true] at h
  by_cases h1 : K = "CREATE"
  · rw [if_pos h1] at h; exact Or.inl ⟨h1, step _ _ h⟩
  rw [if_neg h1] at h
  by_cases h2 : K = "SELECT"
  · rw [if_pos h2] at h; exact Or.inr (Or.inl ⟨h2, step _ _ h⟩)
  rw [if_neg h2] at h
  by_cases h3 : K = "INSERT"
  · rw [if_pos h3] at h; exact Or.inr (Or.inr (Or.inl ⟨h3, step _ _ h⟩))
  rw [if_neg h3] at h
  by_cases h4 : K = "UPDATE"
  · rw [if_pos h4] at h; exact Or.inr (Or.inr (Or.inr (Or.inl ⟨h4, step _ _ h⟩)))
  rw [if_neg h4] at h
  by_cases h5 : K = "DELETE"
  · rw [if_pos h5] at h; exact Or.inr (Or.inr (Or.inr (Or.inr ⟨h5, step _ _ h⟩)))
  rw [if_neg h5] at h
  simp at h

theorem assignmentTokens_cons_cons (c : String) (v : Token) (a : String × Token)
    (rest : List (String × Token)) :
    assignmentTokens ((c, v) :: a :: rest) =
      ⟨TokenType.IDENTIFIER, c⟩ :: ⟨TokenType.SYMBOL, "="⟩ :: v :: ⟨TokenType.SYMBOL, ","⟩ ::
        assignmentTokens (a :: rest) := by
  simp [assignmentTokens]

/-- One assignment `c = v` at the head of the token stream. -/
theorem parseUpdateLoop_step {lx : Lexer} {c : String} {v : Token} {ts : List Token}
    (budget : Nat) (children : List ASTNode)
    (h : lx.Sees (⟨TokenType.IDENTIFIER, c⟩ :: ⟨TokenType.SYMBOL, "="⟩ :: v :: ts))
    (hv : v.type = TokenType.NUMBER ∨ v.type = TokenType.STRING) :
    ∃ lx1, lx1.Sees ts ∧ lx1.input = lx.input ∧
      parseUpdateLoop (budget + 1) children lx =
        (do
          let token ← nextToken
          if token.type = TokenType.KEYWORD ∧ token.value = "WHERE" then
            pure (children ++ [ASTNode.mk "UPDATE_FIELD" [ASTNode.leaf c, ASTNode.leaf v.value]])
          else if token.type ≠ TokenType.SYMBOL ∨ token.value ≠ "," then
            throwRuntimeError "Expected ',' or 'WHERE'"
          else
            parseUpdateLoop budget
              (children ++ [ASTNode.mk "UPDATE_FIELD" [ASTNode.leaf c, ASTNode.leaf v.value]]) :
          ParserM (List ASTNode)) lx1 := by
  obtain ⟨lx1, h1, s1, i1⟩ := parseIdentifier_ok "column name" h
  obtain ⟨lx2, h2, s2, i2⟩ := expectSymbol_ok s1
  obtain ⟨lx3, h3, s3, i3⟩ := parseValue_ok s2 hv
  refine ⟨lx3, s3, by rw [i3, i2, i1], ?_⟩
  conv_lhs => rw [parseUpdateLoop]
  simp only [bind_apply, h1, h2, h3]

theorem parseUpdateLoop_no_where (as : List (String × Token)) :
    ∀ (tail : List Token) (budget : Nat) (children : List ASTNode) (lx : Lexer),
      as ≠ [] →
      (∀ a ∈ as, a.2.type = TokenType.NUMBER ∨ a.2.type = TokenType.STRING) →
      (∀ x ∈ tail.head?, x ≠ ⟨TokenType.SYMBOL, ","⟩ ∧ x ≠ ⟨TokenType.KEYWORD, "WHERE"⟩) →
      lx.Sees (assignmentTokens as ++ tail) →
      (assignmentTokens as ++ tail).length < budget →
      ∃ lx1, parseUpdateLoop budget children lx = Result.error "Expected ',' or 'WHERE'" lx1 := by
  induction as with
  | nil => intro _ _ _ _ h; exact absurd rfl h
  | cons a rest ih =>
    intro tail budget children lx _ hlit htail hsees hbudget
    obtain ⟨c, v⟩ := a
    have hv := hlit (c, v) (by simp)
    cases budget with
    | zero => omega
    | succ budget =>
      cases rest with
      | nil =>
        simp only [assignmentTokens, List.cons_append, List.nil_append] at hsees
        obtain ⟨lx1, s1, _, heq⟩ := parseUpdateLoop_step budget children hsees hv
        rw [heq]
        cases tail with
        | nil =>
          obtain ⟨lx2, h2, _, _⟩ := nextToken_end s1
          exact ⟨lx2, by simp [h2, parserIte_apply]⟩
        | cons x xs =>
          obtain ⟨lx2, h2, _, _⟩ := nextToken_ok s1
          have hx := htail x (by simp)
          refine ⟨lx2, ?_⟩
          simp only [bind_apply, h2, parserIte_apply]
          have hx1 : ¬ (x.type = TokenType.KEYWORD ∧ x.value = "WHERE") := by
            rintro ⟨h1, h2⟩
            exact hx.2 (by cases x; simp_all)
          have hx2 : x.type ≠ TokenType.SYMBOL ∨ x.value ≠ "," := by
            by_contra hcon
            simp only [not_or, not_not] at hcon
            exact hx.1 (by cases x; simp_all)
          rw [if_neg hx1, if_pos hx2]
          rfl
      | cons a2 rest2 =>
        rw [assignmentTokens_cons_cons] at hsees hbudget
        simp only [List.cons_append] at hsees hbudget
        obtain ⟨lx1, s1, _, heq⟩ := parseUpdateLoop_step budget children hsees hv
        rw [heq]
        obtain ⟨lx2, h2, s2, _⟩ := nextToken_ok s1
        simp only [bind_apply, h2, parserIte_apply]
        rw [if_neg (by decide), if_neg (by decide)]
        exact ih tail budget _ lx2 (by simp) (fun a ha => hlit a (by simp [ha])) htail s2
          (by simp only [List.length_cons] at hbudget; omega)

/-! ## Lexing the characters of a statement text -/

theorem collectWhile_append_of_all (p : Char → Bool) (ws cs : List Char)
    (hws : ∀ c ∈ ws, p c = true) :
    collectWhile p (ws ++ cs) = ws ++ collectWhile p cs := by
  induction ws with
  | nil => rfl
  | cons w ws ih =>
    have hw : p w = true := hws w (by simp)
    simp [collectWhile, hw, ih (fun c hc => hws c (by simp [hc]))]

theorem readToken_append_space (ws cs : List Char) (hws : ∀ c ∈ ws, isspace c = true) :
    readToken (ws ++ cs) = ((readToken cs).1, ws.length + (readToken cs).2) := by
  simp only [readToken, collectWhile_append_of_all isspace ws cs hws, List.length_append]
  rw [← List.drop_drop, List.drop_left, Nat.add_assoc]

/-- Leading whitespace does not change the tokens. -/
theorem lexAll_append_space (ws cs : List Char) (hws : ∀ c ∈ ws, isspace c = true) :
    lexAll (ws ++ cs) = lexAll cs := by
  have hr := readToken_append_space ws cs hws
  by_cases hend : (readToken cs).1.type = TokenType.END
  · rw [lexAll_nil_of_end cs hend, lexAll_nil_of_end]
    rw [hr]; exact hend
  · have hend2 : (readToken (ws ++ cs)).1.type ≠ TokenType.END := by rw [hr]; exact hend
    rw [lexAll_cons cs hend, lexAll_cons _ hend2, hr]
    show _ :: lexAll (List.drop (ws.length + (readToken cs).2) (ws ++ cs)) = _
    rw [← List.drop_drop, List.drop_left]

theorem lexAll_space (cs : List Char) : lexAll (' ' :: cs) = lexAll cs :=
  lexAll_append_space [' '] cs (by decide)

/-- A token start is not whitespace: the read is the scan. -/
theorem readToken_of_not_space (cs : List Char) (h : ∀ c ∈ cs.head?, isspace c = false) :
    readToken cs = scanToken cs := by
  have := readToken_skip [] cs (by simp) h
  simpa using this

theorem lexAll_of_scan (cs rest : List Char) (t : Token)
    (hsp : ∀ c ∈ (cs ++ rest).head?, isspace c = false)
    (hscan : scanToken (cs ++ rest) = (t, cs.length)) (ht : t.type ≠ TokenType.END) :
    lexAll (cs ++ rest) = t :: lexAll rest := by
  have hr := readToken_of_not_space _ hsp
  rw [hscan] at hr
  rw [lexAll_cons _ (by rw [hr]; exact ht), hr]
  show t :: lexAll (List.drop cs.length (cs ++ rest)) = _
  rw [List.drop_left]

theorem head_append_of_ne_nil {α : Type} (w rest : List α) (h : w ≠ []) :
    (w ++ rest).head? = w.head? := by
  cases w with
  | nil => exact absurd rfl h
  | cons a as => rfl

theorem lexAll_word (w rest : List Char) (hne : w ≠ [])
    (hhead : ∀ c ∈ w.head?, isalpha c = true)
    (hw : ∀ c ∈ w, isWordChar c = true) (hrest : ∀ c ∈ rest.head?, isWordChar c = false) :
    lexAll (w ++ rest) =
      ⟨if String.mk w ∈ keywords then TokenType.KEYWORD else TokenType.IDENTIFIER, String.mk w⟩ ::
        lexAll rest := by
  apply lexAll_of_scan
  · rw [head_append_of_ne_nil w rest hne]
    intro c hc
    exact not_isspace_of_isalpha (hhead c hc)
  · exact scanToken_word w rest hne hhead hw hrest
  · split <;> simp

theorem isIdentifierText_spec {s : String} (h : isIdentifierText s = true) :
    s.data ≠ [] ∧ (∀ c ∈ s.data.head?, isalpha c = true) ∧ (∀ c ∈ s.data, isWordChar c = true) ∧
      s ∉ keywords := by
  unfold isIdentifierText at h
  split at h
  · cases h
  · rename_i c cs heq
    simp only [Bool.and_eq_true, List.all_eq_true, Bool.not_eq_true', decide_eq_false_iff_not] at h
    rw [heq]
    refine ⟨by simp, ?_, ?_, h.2⟩
    · intro d hd
      have : c = d := by simpa using hd
      exact this ▸ h.1.1
    · intro d hd
      rcases List.mem_cons.mp hd with rfl | hd
      · exact isalpha_isWordChar h.1.1
      · exact h.1.2 d hd

theorem lexAll_identifier (s : String) (rest : List Char) (hs : isIdentifierText s = true)
    (hrest : ∀ c ∈ rest.head?, isWordChar c = false) :
    lexAll (s.data ++ rest) = ⟨TokenType.IDENTIFIER, s⟩ :: lexAll rest := by
  obtain ⟨h1, h2, h3, h4⟩ := isIdentifierText_spec hs
  rw [lexAll_word s.data rest h1 h2 h3 hrest]
  have : String.mk s.data = s := rfl
  rw [this, if_neg h4]

theorem lexAll_keyword (k : String) (rest : List Char) (hk : k ∈ keywords)
    (hrest : ∀ c ∈ rest.head?, isWordChar c = false) :
    lexAll (k.data ++ rest) = ⟨TokenType.KEYWORD, k⟩ :: lexAll rest := by
  have hprop : k.data ≠ [] ∧ (∀ c ∈ k.data.head?, isalpha c = true) ∧
      (∀ c ∈ k.data, isWordChar c = true) := by
    simp only [keywords, List.mem_cons, List.mem_singleton, List.not_mem_nil, or_false] at hk
    rcases hk with rfl | rfl | rfl | rfl | rfl | rfl | rfl | rfl | rfl | rfl | rfl | rfl | rfl <;>
      decide
  rw [lexAll_word k.data rest hprop.1 hprop.2.1 hprop.2.2 hrest]
  have : String.mk k.data = k := rfl
  rw [this, if_pos hk]

theorem lexAll_number (w rest : List Char) (hne : w ≠ [])
    (hw : ∀ c ∈ w, isdigit c = true) (hrest : ∀ c ∈ rest.head?, isdigit c = false) :
    lexAll (w ++ rest) = ⟨TokenType.NUMBER, String.mk w⟩ :: lexAll rest := by
  apply lexAll_of_scan
  · rw [head_append_of_ne_nil w rest hne]
    intro c hc
    exact not_isspace_of_isdigit (hw c (List.mem_of_mem_head? hc))
  · exact scanToken_number w rest hne hw hrest
  · simp

theorem lexAll_string (q : Char) (body rest : List Char)
    (hq : q = Char.ofNat 39 ∨ q = Char.ofNat 34) (hbody : q ∉ body) :
    lexAll (q :: (body ++ q :: rest)) = ⟨TokenType.STRING, String.mk body⟩ :: lexAll rest := by
  have h := lexAll_of_scan (q :: (body ++ [q])) rest ⟨TokenType.STRING, String.mk body⟩
    (by
      intro c hc
      have : q = c := by simpa using hc
      exact this ▸ (quote_not_alnum hq).2.2)
    (by
      have := scanToken_string q body rest hq hbody
      simp only [List.cons_append, List.append_assoc, List.singleton_append, List.length_cons,
        List.length_append, List.length_nil, List.nil_append] at this ⊢
      rw [this]
      congr 1
      omega)
    (by simp)
  simpa using h

theorem lexAll_literal (v : Literal) (rest : List Char) (hv : v.wellFormed = true)
    (hrest : ∀ c ∈ rest.head?, isdigit c = false) :
    lexAll (v.text.data ++ rest) = v.token :: lexAll rest := by
  cases v with
  | number digits =>
    simp only [Literal.wellFormed, Bool.and_eq_true, Bool.not_eq_true', List.isEmpty_eq_false,
      List.all_eq_true] at hv
    exact lexAll_number digits.data rest hv.1 hv.2 hrest
  | quoted q body =>
    simp only [Literal.wellFormed, Bool.and_eq_true, Bool.or_eq_true, beq_iff_eq,
      Bool.not_eq_true', List.contains_eq_any_beq, List.any_eq_false, beq_iff_eq] at hv
    have hbody : q ∉ body.data := fun hmem => hv.2 q hmem rfl
    have := lexAll_string q body.data rest hv.1 hbody
    simpa [Literal.text, Literal.token] using this

theorem lexAll_symbol1 (c : Char) (rest : List Char)
    (hsp : isspace c = false) (ha : isalpha c = false) (hd : isdigit c = false)
    (hq : ¬ (c = Char.ofNat 39 ∨ c = Char.ofNat 34))
    (h2 : ∀ d ∈ rest.head?,
      ¬ (String.mk [c, d] = "!=" ∨ String.mk [c, d] = "<=" ∨ String.mk [c, d] = ">=")) :
    lexAll (c :: rest) = ⟨TokenType.SYMBOL, String.mk [c]⟩ :: lexAll rest := by
  have h := lexAll_of_scan [c] rest ⟨TokenType.SYMBOL, String.mk [c]⟩
    (by
      intro e he
      have : c = e := by simpa using he
      exact this ▸ hsp)
    (scanToken_symbol1 c rest ha hd hq h2) (by simp)
  simpa using h

theorem lexAll_symbol2 (c d : Char) (rest : List Char)
    (hsp : isspace c = false) (ha : isalpha c = false) (hd : isdigit c = false)
    (hq : ¬ (c = Char.ofNat 39 ∨ c = Char.ofNat 34))
    (h2 : String.mk [c, d] = "!=" ∨ String.mk [c, d] = "<=" ∨ String.mk [c, d] = ">=") :
    lexAll (c :: d :: rest) = ⟨TokenType.SYMBOL, String.mk [c, d]⟩ :: lexAll rest := by
  have h := lexAll_of_scan [c, d] rest ⟨TokenType.SYMBOL, String.mk [c, d]⟩
    (by
      intro e he
      have : c = e := by simpa using he
      exact this ▸ hsp)
    (scanToken_symbol2 c d rest ha hd hq h2) (by simp)
  simpa using h

/-- A comparison operator followed by a space is one symbol token. -/
theorem lexAll_operator (op : String) (rest : List Char) (hop : op ∈ comparisonOperators) :
    lexAll (op.data ++ ' ' :: rest) = ⟨TokenType.SYMBOL, op⟩ :: lexAll (' ' :: rest) := by
  simp only [comparisonOperators, List.mem_cons, List.mem_singleton, List.not_mem_nil,
    or_false] at hop
  rcases hop with rfl | rfl | rfl | rfl | rfl | rfl
  · exact lexAll_symbol1 '=' (' ' :: rest) (by decide) (by decide) (by decide) (by decide)
      (by intro d hd; have : ' ' = d := by simpa using hd
          subst this; decide)
  · exact lexAll_symbol1 '>' (' ' :: rest) (by decide) (by decide) (by decide) (by decide)
      (by intro d hd; have : ' ' = d := by simpa using hd
          subst this; decide)
  · exact lexAll_symbol1 '<' (' ' :: rest) (by decide) (by decide) (by decide) (by decide)
      (by intro d hd; have : ' ' = d := by simpa using hd
          subst this; decide)
  · exact lexAll_symbol2 '>' '=' (' ' :: rest) (by decide) (by decide) (by decide) (by decide)
      (by decide)
  · exact lexAll_symbol2 '<' '=' (' ' :: rest) (by decide) (by decide) (by decide) (by decide)
      (by decide)
  · exact lexAll_symbol2 '!' '=' (' ' :: rest) (by decide) (by decide) (by decide) (by decide)
      (by decide)

/-- A character that is not one of `!`, `<`, `>` starts no two-character
symbol. -/
theorem no_two_char_symbol (c : Char) (hc : c ≠ '!' ∧ c ≠ '<' ∧ c ≠ '>') (rest : List Char) :
    ∀ d ∈ rest.head?,
      ¬ (String.mk [c, d] = "!=" ∨ String.mk [c, d] = "<=" ∨ String.mk [c, d] = ">=") := by
  intro d _ h
  rcases h with h | h | h <;>
    · have := congrArg String.data h
      simp only [List.cons.injEq] at this
      first
        | exact hc.1 this.1
        | exact hc.2.1 this.1
        | exact hc.2.2 this.1

theorem head_cons_false (p : Char → Bool) (c : Char) (cs : List Char) (h : p c = false) :
    ∀ d ∈ (c :: cs).head?, p d = false := by
  intro d hd
  have : c = d := by simpa using hd
  exact this ▸ h

theorem selectAllWhereText_data (t c op : String) (v : Literal) :
    (selectAllWhereText t c op v).data =
      "SELECT".data ++ (' ' :: '*' :: ' ' :: ("FROM".data ++ (' ' :: (t.data ++ (' ' ::
        ("WHERE".data ++ (' ' :: (c.data ++ (' ' :: (op.data ++ (' ' ::
          (v.text.data ++ [';'])))))))))))) := by
  simp only [selectAllWhereText, String.data_append]
  simp only [List.append_assoc]
  rfl

theorem tokens_selectAllWhereText (t c op : String) (v : Literal)
    (ht : isIdentifierText t = true) (hc : isIdentifierText c = true)
    (hop : op ∈ comparisonOperators) (hv : v.wellFormed = true) :
    tokens (selectAllWhereText t c op v) =
      [⟨TokenType.KEYWORD, "SELECT"⟩, ⟨TokenType.SYMBOL, "*"⟩, ⟨TokenType.KEYWORD, "FROM"⟩,
       ⟨TokenType.IDENTIFIER, t⟩, ⟨TokenType.KEYWORD, "WHERE"⟩, ⟨TokenType.IDENTIFIER, c⟩,
       ⟨TokenType.SYMBOL, op⟩, v.token, ⟨TokenType.SYMBOL, ";"⟩] := by
  unfold tokens
  rw [selectAllWhereText_data]
  rw [lexAll_keyword "SELECT" _ (by decide) (head_cons_false _ _ _ (by decide)), lexAll_space,
    lexAll_symbol1 '*' _ (by decide) (by decide) (by decide) (by decide)
      (no_two_char_symbol '*' (by decide) _),
    lexAll_space,
    lexAll_keyword "FROM" _ (by decide) (head_cons_false _ _ _ (by decide)), lexAll_space,
    lexAll_identifier t _ ht (head_cons_false _ _ _ (by decide)), lexAll_space,
    lexAll_keyword "WHERE" _ (by decide) (head_cons_false _ _ _ (by decide)), lexAll_space,
    lexAll_identifier c _ hc (head_cons_false _ _ _ (by decide)), lexAll_space,
    lexAll_operator op _ hop, lexAll_space,
    lexAll_literal v _ hv (head_cons_false _ _ _ (by decide)),
    lexAll_symbol1 ';' [] (by decide) (by decide) (by decide) (by decide)
      (no_two_char_symbol ';' (by decide) _)]
  rfl

theorem parseM_create {input : String} {lx lx1 : Lexer}
    (h : nextToken (lx.Initial input) = Result.ok ⟨TokenType.KEYWORD, "CREATE"⟩ lx1) :
    parseM input lx =
      (parseCreate >>= fun node => setZero >>= fun _ => pure (some node)) lx1 := by
  simp [parseM, h, parserIte_apply]

theorem parseM_select {input : String} {lx lx1 : Lexer}
    (h : nextToken (lx.Initial input) = Result.ok ⟨TokenType.KEYWORD, "SELECT"⟩ lx1) :
    parseM input lx =
      (parseSelect >>= fun node => setZero >>= fun _ => pure (some node)) lx1 := by
  simp [parseM, h, parserIte_apply]

theorem parseM_insert {input : String} {lx lx1 : Lexer}
    (h : nextToken (lx.Initial input) = Result.ok ⟨TokenType.KEYWORD, "INSERT"⟩ lx1) :
    parseM input lx =
      (parseInsert >>= fun node => setZero >>= fun _ => pure (some node)) lx1 := by
  simp [parseM, h, parserIte_apply]

theorem parseM_update {input : String} {lx lx1 : Lexer}
    (h : nextToken (lx.Initial input) = Result.ok ⟨TokenType.KEYWORD, "UPDATE"⟩ lx1) :
    parseM input lx =
      (parseUpdate >>= fun node => setZero >>= fun _ => pure (some node)) lx1 := by
  simp [parseM, h, parserIte_apply]

theorem parseM_delete {input : String} {lx lx1 : Lexer}
    (h : nextToken (lx.Initial input) = Result.ok ⟨TokenType.KEYWORD, "DELETE"⟩ lx1) :
    parseM input lx =
      (parseDelete >>= fun node => setZero >>= fun _ => pure (some node)) lx1 := by
  simp [parseM, h, parserIte_apply]

/-- The rule `SELECT * FROM t WHERE c op v` on the token stream. -/
theorem parse_select_all_where (p : Parser) (input t c op : String) (v : Token)
    (rest : List Token) (hpb : p.hasPutBack = false)
    (htokens : tokens input =
      ⟨TokenType.KEYWORD, "SELECT"⟩ :: ⟨TokenType.SYMBOL, "*"⟩ :: ⟨TokenType.KEYWORD, "FROM"⟩ ::
        ⟨TokenType.IDENTIFIER, t⟩ :: ⟨TokenType.KEYWORD, "WHERE"⟩ :: ⟨TokenType.IDENTIFIER, c⟩ ::
        ⟨TokenType.SYMBOL, op⟩ :: v :: rest)
    (hop : op ∈ comparisonOperators)
    (hv : v.type = TokenType.NUMBER ∨ v.type = TokenType.STRING) :
    ∃ p2, p.parse input = Result.ok (some (ASTNode.mk "SELECT"
      [ASTNode.mk "COLUMNS" [ASTNode.leaf "ALL_COLUMNS"], ASTNode.leaf t,
        ASTNode.mk "CONDITION" [ASTNode.leaf c, ASTNode.leaf op, ASTNode.leaf v.value]])) p2 := by
  have hsees := Lexer.sees_initial p input hpb
  rw [htokens] at hsees
  obtain ⟨lx1, h1, s1, _⟩ := nextToken_ok hsees
  obtain ⟨lx2, h2, s2, _⟩ := nextToken_ok s1
  obtain ⟨lx3, h3, s3, _⟩ := expectKeyword_ok s2
  obtain ⟨lx4, h4, s4, _⟩ := parseIdentifier_ok "table name" s3
  obtain ⟨lx5, h5, s5, _⟩ := nextToken_ok s4
  obtain ⟨lx6, h6, _, _⟩ := parseCondition_ok s5 hop hv
  have hcols : parseColumns lx1 =
      Result.ok (ASTNode.mk "COLUMNS" [ASTNode.leaf "ALL_COLUMNS"]) lx2 := by
    simp only [parseColumns, bind_apply, h2, parserIte_apply]
    rfl
  have hsel : parseSelect lx1 = Result.ok (ASTNode.mk "SELECT"
      [ASTNode.mk "COLUMNS" [ASTNode.leaf "ALL_COLUMNS"], ASTNode.leaf t,
        ASTNode.mk "CONDITION" [ASTNode.leaf c, ASTNode.leaf op, ASTNode.leaf v.value]]) lx6 := by
    simp [parseSelect, hcols, h3, h4, h5, h6, parserIte_apply]
  refine ⟨lx6.SetZero, ?_⟩
  rw [Parser.parse, parseM_select h1]
  simp [hsel]

theorem columnDefTokens_cons_cons (n ty : String) (a : String × String)
    (rest : List (String × String)) :
    columnDefTokens ((n, ty) :: a :: rest) =
      ⟨TokenType.IDENTIFIER, n⟩ :: ⟨TokenType.IDENTIFIER, ty⟩ :: ⟨TokenType.SYMBOL, ","⟩ ::
        columnDefTokens (a :: rest) := by
  simp [columnDefTokens]

theorem columnDefsText_cons_cons (n ty : String) (a : String × String)
    (rest : List (String × String)) :
    columnDefsText ((n, ty) :: a :: rest) =
      n ++ " " ++ ty ++ ", " ++ columnDefsText (a :: rest) := by
  simp [columnDefsText]

/-- One column definition `n ty` at the head of the token stream. -/
theorem parseCreateLoop_step {lx : Lexer} {n ty : String} {ts : List Token}
    (budget : Nat) (children : List ASTNode)
    (h : lx.Sees (⟨TokenType.IDENTIFIER, n⟩ :: ⟨TokenType.IDENTIFIER, ty⟩ :: ts)) :
    ∃ lx1, lx1.Sees ts ∧ lx1.input = lx.input ∧
      parseCreateLoop (budget + 1) children lx =
        (do
          let token ← nextToken
          if token.type = TokenType.SYMBOL ∧ token.value = ")" then
            pure (children ++ [columnNode (n, ty)])
          else if token.type ≠ TokenType.SYMBOL ∨ token.value ≠ "," then
            throwRuntimeError "Expected ',' or ')'"
          else
            parseCreateLoop budget (children ++ [columnNode (n, ty)]) :
          ParserM (List ASTNode)) lx1 := by
  obtain ⟨lx1, h1, s1, i1⟩ := parseIdentifier_ok "column name" h
  obtain ⟨lx2, h2, s2, i2⟩ := parseIdentifier_ok "data type" s1
  refine ⟨lx2, s2, by rw [i2, i1], ?_⟩
  conv_lhs => rw [parseCreateLoop]
  simp only [bind_apply, h1, h2]
  rfl

theorem parseCreateLoop_ok (columns : List (String × String)) :
    ∀ (tail : List Token) (budget : Nat) (children : List ASTNode) (lx : Lexer),
      columns ≠ [] →
      lx.Sees (columnDefTokens columns ++ ⟨TokenType.SYMBOL, ")"⟩ :: tail) →
      (columnDefTokens columns ++ ⟨TokenType.SYMBOL, ")"⟩ :: tail).length < budget →
      ∃ lx1, parseCreateLoop budget children lx =
          Result.ok (children ++ columns.map columnNode) lx1 ∧ lx1.Sees tail := by
  induction columns with
  | nil => intro _ _ _ _ h; exact absurd rfl h
  | cons a rest ih =>
    intro tail budget children lx _ hsees hbudget
    obtain ⟨n, ty⟩ := a
    cases budget with
    | zero => omega
    | succ budget =>
      cases rest with
      | nil =>
        simp only [columnDefTokens, List.cons_append, List.nil_append] at hsees
        obtain ⟨lx1, s1, _, heq⟩ := parseCreateLoop_step budget children hsees
        obtain ⟨lx2, h2, s2, _⟩ := nextToken_ok s1
        refine ⟨lx2, ?_, s2⟩
        rw [heq]
        simp [h2, parserIte_apply]
      | cons a2 rest2 =>
        rw [columnDefTokens_cons_cons] at hsees hbudget
        simp only [List.cons_append] at hsees hbudget
        obtain ⟨lx1, s1, _, heq⟩ := parseCreateLoop_step budget children hsees
        obtain ⟨lx2, h2, s2, _⟩ := nextToken_ok s1
        obtain ⟨lx3, h3, s3⟩ := ih tail budget (children ++ [columnNode (n, ty)]) lx2 (by simp) s2
          (by simp only [List.length_cons] at hbudget; omega)
        refine ⟨lx3, ?_, s3⟩
        rw [heq]
        simp [h2, parserIte_apply, h3]

/-- The rule `CREATE TABLE t ( n1 ty1 , ... , nk tyk )` on the token stream. -/
theorem parse_create_table (p : Parser) (input t : String) (columns : List (String × String))
    (tail : List Token) (hpb : p.hasPutBack = false) (hne : columns ≠ [])
    (htokens : tokens input =
      ⟨TokenType.KEYWORD, "CREATE"⟩ :: ⟨TokenType.KEYWORD, "TABLE"⟩ :: ⟨TokenType.IDENTIFIER, t⟩ ::
        ⟨TokenType.SYMBOL, "("⟩ :: (columnDefTokens columns ++ ⟨TokenType.SYMBOL, ")"⟩ :: tail)) :
    ∃ p2, p.parse input =
      Result.ok (some (ASTNode.mk "CREATE" (ASTNode.leaf t :: columns.map columnNode))) p2 := by
  have hsees := Lexer.sees_initial p input hpb
  rw [htokens] at hsees
  obtain ⟨lx1, h1, s1, _⟩ := nextToken_ok hsees
  obtain ⟨lx2, h2, s2, _⟩ := expectKeyword_ok s1
  obtain ⟨lx3, h3, s3, _⟩ := parseIdentifier_ok "table name" s2
  obtain ⟨lx4, h4, s4, _⟩ := expectSymbol_ok s3
  have hlen := s4.length_le
  obtain ⟨lx5, h5, _⟩ := parseCreateLoop_ok columns tail (lx4.input.length + 1) [ASTNode.leaf t] lx4
    hne s4 (by omega)
  refine ⟨lx5.SetZero, ?_⟩
  rw [Parser.parse, parseM_create h1]
  simp [parseCreate, h2, h3, h4, h5]

theorem columnDefsText_lex (columns : List (String × String)) :
    ∀ (rest : List Char), columns ≠ [] →
      (∀ col ∈ columns, isIdentifierText col.1 = true ∧ isIdentifierText col.2 = true) →
      (∀ c ∈ rest.head?, isWordChar c = false) →
      lexAll ((columnDefsText columns).data ++ rest) = columnDefTokens columns ++ lexAll rest := by
  induction columns with
  | nil => intro _ h; exact absurd rfl h
  | cons a more ih =>
    intro rest _ hid hrest
    obtain ⟨n, ty⟩ := a
    have ha := hid (n, ty) (by simp)
    cases more with
    | nil =>
      have hdata : (columnDefsText [(n, ty)]).data ++ rest = n.data ++ (' ' :: (ty.data ++ rest)) := by
        simp only [columnDefsText, String.data_append, List.append_assoc]
        rfl
      rw [hdata, lexAll_identifier n _ ha.1 (head_cons_false _ _ _ (by decide)), lexAll_space,
        lexAll_identifier ty _ ha.2 hrest]
      rfl
    | cons a2 more2 =>
      have hdata : (columnDefsText ((n, ty) :: a2 :: more2)).data ++ rest =
          n.data ++ (' ' :: (ty.data ++ (',' :: ' ' ::
            ((columnDefsText (a2 :: more2)).data ++ rest)))) := by
        rw [columnDefsText_cons_cons]
        simp only [String.data_append, List.append_assoc]
        rfl
      rw [hdata, lexAll_identifier n _ ha.1 (head_cons_false _ _ _ (by decide)), lexAll_space,
        lexAll_identifier ty _ ha.2 (head_cons_false _ _ _ (by decide)),
        lexAll_symbol1 ',' _ (by decide) (by decide) (by decide) (by decide)
          (no_two_char_symbol ',' (by decide) _),
        lexAll_space, ih rest (by simp) (fun col hcol => hid col (by simp [hcol])) hrest,
        columnDefTokens_cons_cons]
      rfl

theorem tokens_createTableText (t : String) (columns : List (String × String))
    (ht : isIdentifierText t = true) (hne : columns ≠ [])
    (hid : ∀ col ∈ columns, isIdentifierText col.1 = true ∧ isIdentifierText col.2 = true) :
    tokens (createTableText t columns) =
      ⟨TokenType.KEYWORD, "CREATE"⟩ :: ⟨TokenType.KEYWORD, "TABLE"⟩ :: ⟨TokenType.IDENTIFIER, t⟩ ::
        ⟨TokenType.SYMBOL, "("⟩ ::
          (columnDefTokens columns ++ ⟨TokenType.SYMBOL, ")"⟩ :: [⟨TokenType.SYMBOL, ";"⟩]) := by
  have hdata : (createTableText t columns).data =
      "CREATE".data ++ (' ' :: ("TABLE".data ++ (' ' :: (t.data ++ (' ' :: '(' ::
        ((columnDefsText columns).data ++ [')', ';'])))))) := by
    simp only [createTableText, String.data_append, List.append_assoc]
    rfl
  unfold tokens
  rw [hdata, lexAll_keyword "CREATE" _ (by decide) (head_cons_false _ _ _ (by decide)),
    lexAll_space,
    lexAll_keyword "TABLE" _ (by decide) (head_cons_false _ _ _ (by decide)), lexAll_space,
    lexAll_identifier t _ ht (head_cons_false _ _ _ (by decide)), lexAll_space,
    lexAll_symbol1 '(' _ (by decide) (by decide) (by decide) (by decide)
      (no_two_char_symbol '(' (by decide) _),
    columnDefsText_lex columns _ hne hid (head_cons_false _ _ _ (by decide)),
    lexAll_symbol1 ')' _ (by decide) (by decide) (by decide) (by decide)
      (no_two_char_symbol ')' (by decide) _),
    lexAll_symbol1 ';' [] (by decide) (by decide) (by decide) (by decide)
      (no_two_char_symbol ';' (by decide) _)]
  rfl

/-- Line 179: a first token that is not a keyword makes `parse` throw. -/
theorem parse_invalid_of_not_keyword (p : Parser) (input : String) (hpb : p.hasPutBack = false)
    (hfirst : ∀ t ∈ (tokens input).head?, t.type ≠ TokenType.KEYWORD) :
    (p.parse input).outcome = Outcome.thrown "Invalid SQL statement" := by
  have hsees := Lexer.sees_initial p input hpb
  cases hts : tokens input with
  | nil =>
    rw [hts] at hsees
    obtain ⟨lx1, h1, _, _⟩ := nextToken_end hsees
    simp [Parser.parse, parseM, h1, parserIte_apply, Result.outcome]
  | cons t ts =>
    rw [hts] at hsees hfirst
    obtain ⟨lx1, h1, _, _⟩ := nextToken_ok hsees
    have ht := hfirst t (by simp)
    simp [Parser.parse, parseM, h1, parserIte_apply, Result.outcome, ht]

/-- Lines 149-177: a first token that is a keyword other than the five
statement keywords makes `parse` return the null pointer. -/
theorem parse_null_of_other_keyword (p : Parser) (input K : String) (hpb : p.hasPutBack = false)
    (hfirst : (tokens input).head? = some ⟨TokenType.KEYWORD, K⟩)
    (hK : K ∉ ["CREATE", "SELECT", "INSERT", "UPDATE", "DELETE"]) :
    (p.parse input).outcome = Outcome.returned none := by
  have hsees := Lexer.sees_initial p input hpb
  cases hts : tokens input with
  | nil => rw [hts] at hfirst; cases hfirst
  | cons t ts =>
    rw [hts] at hsees hfirst
    simp only [List.head?_cons, Option.some.injEq] at hfirst
    subst hfirst
    obtain ⟨lx1, h1, _, _⟩ := nextToken_ok hsees
    simp only [List.mem_cons, List.mem_singleton, List.not_mem_nil, or_false, not_or] at hK
    simp [Parser.parse, parseM, h1, parserIte_apply, Result.outcome, hK]


/-! ## The parser and the parser on token lists agree -/

@[simp] theorem tbind_apply {α β : Type} (x : TParserM α) (f : α → TParserM β) (ts : List Token) :
    (x >>= f) ts =
      match x ts with
      | TResult.ok a rest => f a rest
      | TResult.error e => TResult.error e := rfl

@[simp] theorem tpure_apply {α : Type} (a : α) (ts : List Token) :
    (pure a : TParserM α) ts = TResult.ok a ts := rfl

@[simp] theorem throwT_apply {α : Type} (what : String) (ts : List Token) :
    (throwT what : TParserM α) ts = TResult.error what := rfl

@[simp] theorem nextT_apply (ts : List Token) :
    nextT ts = TResult.ok (ts.headD Token.eof) ts.tail := rfl

@[simp] theorem unreadT_apply (t : Token) (ts : List Token) :
    unreadT t ts = TResult.ok () (t :: ts) := rfl

theorem tparserIte_apply {α : Type} (c : Prop) [Decidable c] (x y : TParserM α) (ts : List Token) :
    (if c then x else y) ts = if c then x ts else y ts := by
  split <;> rfl

theorem Lexer.Sees.ahead {lx : Lexer} {ts : List Token} (h : lx.Sees ts) : lx.Ahead ts :=
  Or.inl h

/-- Reading a token: the head of the tokens ahead, `END` at their end. -/
theorem Lexer.Ahead.next {lx : Lexer} {ts : List Token} (h : lx.Ahead ts) :
    lx.nextToken.1 = ts.headD Token.eof ∧ lx.nextToken.2.Sees ts.tail ∧
      lx.nextToken.2.input = lx.input := by
  rcases h with h | ⟨hpb, hts⟩
  · cases ts with
    | nil => exact Lexer.Sees.next_nil h
    | cons t ts => exact Lexer.Sees.next_cons h
  · subst hts
    simp [Lexer.nextToken, hpb, Lexer.Sees, Lexer.unread]

/-- Putting a token back in front of the tokens ahead. -/
theorem Lexer.Sees.putBack {lx : Lexer} {ts : List Token} (h : lx.Sees ts) (t : Token) :
    (lx.putBackToken t).Ahead (t :: ts) := by
  refine Or.inr ⟨rfl, ?_⟩
  have := h.2
  simp only [Lexer.putBackToken, Lexer.unread] at this ⊢
  rw [this]

theorem Lexer.Ahead.length_bound {lx : Lexer} {ts : List Token} (h : lx.Ahead ts) :
    ts.length ≤ lx.input.length + 1 := by
  have h1 := lexAll_length_le lx.unread
  have h2 := lx.unread_length_le
  rcases h with h | ⟨_, hts⟩
  · rw [h.2] at h1; omega
  · subst hts
    simp only [List.length_cons]
    omega

theorem Lexer.ahead_initial (lx : Lexer) (input : String) :
    (lx.Initial input).Ahead
      (if lx.hasPutBack then lx.lastToken :: tokens input else tokens input) := by
  cases hpb : lx.hasPutBack with
  | false => exact Or.inl (Lexer.sees_initial lx input hpb)
  | true =>
    refine Or.inr ⟨hpb, ?_⟩
    simp [Lexer.Initial, Lexer.unread, tokens]

theorem SimP.andThen {α β : Type} {pre : Lexer → List Token → Prop}
    {mid : α → Lexer → List Token → Prop} {post : β → Lexer → List Token → Prop}
    {x : ParserM α} {y : TParserM α} {f : α → ParserM β} {g : α → TParserM β}
    (hx : SimP pre mid x y) (hf : ∀ a, SimP (mid a) post (f a) (g a)) :
    SimP pre post (x >>= f) (y >>= g) := by
  intro lx ts hpre
  have h1 := hx lx ts hpre
  rw [tbind_apply, bind_apply]
  cases hy : y ts with
  | ok a rest =>
    rw [hy] at h1
    obtain ⟨lx1, e1, p1, i1⟩ := h1
    have h2 := hf a lx1 rest p1
    simp only [e1]
    cases hg : g a rest with
    | ok b rest2 =>
      rw [hg] at h2
      obtain ⟨lx2, e2, p2, i2⟩ := h2
      exact ⟨lx2, e2, p2, by rw [i2, i1]⟩
    | error e =>
      rw [hg] at h2
      exact h2
  | error e =>
    rw [hy] at h1
    obtain ⟨lx1, e1⟩ := h1
    exact ⟨lx1, by simp only [e1]⟩

theorem SimP.weaken {α : Type} {pre pre2 : Lexer → List Token → Prop}
    {post post2 : α → Lexer → List Token → Prop}
    {x : ParserM α} {y : TParserM α} (h : SimP pre post x y)
    (hpre : ∀ lx ts, pre2 lx ts → pre lx ts) (hpost : ∀ a lx ts, post a lx ts → post2 a lx ts) :
    SimP pre2 post2 x y := by
  intro lx ts h2
  have h1 := h lx ts (hpre lx ts h2)
  cases hy : y ts with
  | ok a rest =>
    rw [hy] at h1
    obtain ⟨lx1, e1, p1, i1⟩ := h1
    exact ⟨lx1, e1, hpost _ _ _ p1, i1⟩
  | error e =>
    rw [hy] at h1
    exact h1

theorem SimP.ret {α : Type} {pre : Lexer → List Token → Prop}
    {post : α → Lexer → List Token → Prop} (a : α)
    (h : ∀ lx ts, pre lx ts → post a lx ts) :
    SimP pre post (pure a : ParserM α) (pure a : TParserM α) := by
  intro lx ts hpre
  exact ⟨lx, rfl, h lx ts hpre, rfl⟩

theorem SimP.throw {α : Type} {pre : Lexer → List Token → Prop}
    {post : α → Lexer → List Token → Prop} (what : String) :
    SimP pre post (throwRuntimeError what : ParserM α) (throwT what : TParserM α) := by
  intro lx ts _
  exact ⟨lx, rfl⟩

theorem SimP.branch {α : Type} {pre : Lexer → List Token → Prop}
    {post : α → Lexer → List Token → Prop} (c : Prop) [Decidable c]
    {x1 x2 : ParserM α} {y1 y2 : TParserM α}
    (h1 : c → SimP pre post x1 y1) (h2 : ¬ c → SimP pre post x2 y2) :
    SimP pre post (if c then x1 else x2) (if c then y1 else y2) := by
  split
  · exact h1 ‹_›
  · exact h2 ‹_›

/-- Reading a token, with a bound `n` on the number of tokens ahead: a token
that is not `END` was taken from the list. -/
theorem SimP.nextLen (n : Nat) :
    SimP (fun lx ts => lx.Ahead ts ∧ ts.length < n + 1)
      (fun t lx rest => lx.Sees rest ∧ rest.length < n + 1 ∧
        (t.type ≠ TokenType.END → rest.length < n))
      nextToken nextT := by
  intro lx ts h
  obtain ⟨e1, s1, i1⟩ := h.1.next
  refine ⟨lx.nextToken.2, by rw [nextToken_apply, e1], ⟨s1, ?_, ?_⟩, i1⟩
  · have := List.length_tail ts
    omega
  · intro hne
    cases ts with
    | nil => exact absurd rfl hne
    | cons t ts =>
      have := h.2
      simp only [List.length_cons, List.tail_cons] at this ⊢
      omega

theorem SimP.nextTok : SimP Lexer.Ahead (fun _ => Lexer.Sees) nextToken nextT := by
  intro lx ts h
  obtain ⟨e1, s1, i1⟩ := h.next
  exact ⟨lx.nextToken.2, by rw [nextToken_apply, e1], s1, i1⟩

theorem SimP.unread (t : Token) :
    SimP Lexer.Sees (fun _ => Lexer.Ahead) (putBackToken t) (unreadT t) := by
  intro lx ts h
  exact ⟨lx.putBackToken t, rfl, h.putBack t, rfl⟩

/-- A method that needs no pending token may also start right after a read. -/
theorem SimP.ofSees {α : Type} {post : α → Lexer → List Token → Prop}
    {x : ParserM α} {y : TParserM α} (h : SimP Lexer.Ahead post x y) :
    SimP Lexer.Sees post x y :=
  h.weaken (fun _ _ hs => hs.ahead) (fun _ _ _ hp => hp)

theorem SimP.toAhead {α : Type} {pre : Lexer → List Token → Prop}
    {x : ParserM α} {y : TParserM α} (h : SimP pre (fun _ => Lexer.Sees) x y) :
    SimP pre (fun _ => Lexer.Ahead) x y :=
  h.weaken (fun _ _ hs => hs) (fun _ _ _ hp => hp.ahead)

theorem parseIdentifier_sim (description : String) :
    SimP Lexer.Ahead (fun _ => Lexer.Sees) (parseIdentifier description)
      (parseIdentifierT description) :=
  SimP.andThen SimP.nextTok (fun _ => SimP.branch _ (fun _ => SimP.throw _)
    (fun _ => SimP.ret _ (fun _ _ h => h)))

theorem parseValue_sim : SimP Lexer.Ahead (fun _ => Lexer.Sees) parseValue parseValueT :=
  SimP.andThen SimP.nextTok (fun _ => SimP.branch _ (fun _ => SimP.ret _ (fun _ _ h => h))
    (fun _ => SimP.throw _))

theorem expectKeyword_sim (keyword : String) :
    SimP Lexer.Ahead (fun _ => Lexer.Sees) (expectKeyword keyword) (expectKeywordT keyword) :=
  SimP.andThen SimP.nextTok (fun _ => SimP.branch _ (fun _ => SimP.throw _)
    (fun _ => SimP.ret _ (fun _ _ h => h)))

theorem expectSymbol_sim (symbol : String) :
    SimP Lexer.Ahead (fun _ => Lexer.Sees) (expectSymbol symbol) (expectSymbolT symbol) :=
  SimP.andThen SimP.nextTok (fun _ => SimP.branch _ (fun _ => SimP.throw _)
    (fun _ => SimP.ret _ (fun _ _ h => h)))

theorem parseCondition_sim :
    SimP Lexer.Ahead (fun _ => Lexer.Sees) parseCondition parseConditionT :=
  SimP.andThen (parseIdentifier_sim _) (fun _ =>
    SimP.andThen SimP.nextTok.ofSees (fun _ =>
      SimP.branch _ (fun _ => SimP.throw _)
        (fun _ => SimP.andThen parseValue_sim.ofSees (fun _ => SimP.ret _ (fun _ _ h => h)))))

/-- The bound on the tokens ahead under which a loop with budget `b` is run. -/
theorem parseIdentifier_simLen (description : String) (n : Nat) :
    SimP (fun lx ts => lx.Ahead ts ∧ ts.length < n + 1)
      (fun _ lx rest => lx.Sees rest ∧ rest.length < n)
      (parseIdentifier description) (parseIdentifierT description) :=
  SimP.andThen (SimP.nextLen n) (fun t => SimP.branch _ (fun _ => SimP.throw _)
    (fun ht => SimP.ret _ (fun _ _ h => ⟨h.1, h.2.2 (by
      intro hend
      exact ht (by rw [hend]; decide))⟩)))

theorem parseValue_simLen (n : Nat) :
    SimP (fun lx ts => lx.Ahead ts ∧ ts.length < n + 1)
      (fun _ lx rest => lx.Sees rest ∧ rest.length < n)
      parseValue parseValueT :=
  SimP.andThen (SimP.nextLen n) (fun t => SimP.branch _
    (fun ht => SimP.ret _ (fun _ _ h => ⟨h.1, h.2.2 (by
      intro hend
      rw [hend] at ht
      rcases ht with ht | ht <;> cases ht)⟩))
    (fun _ => SimP.throw _))

theorem expectSymbol_simLen (symbol : String) (n : Nat) :
    SimP (fun lx ts => lx.Ahead ts ∧ ts.length < n + 1)
      (fun _ lx rest => lx.Sees rest ∧ rest.length < n)
      (expectSymbol symbol) (expectSymbolT symbol) :=
  SimP.andThen (SimP.nextLen n) (fun t => SimP.branch _ (fun _ => SimP.throw _)
    (fun ht => SimP.ret _ (fun _ _ h => ⟨h.1, h.2.2 (by
      intro hend
      exact ht (Or.inl (by rw [hend]; decide)))⟩)))


theorem parseIdentifierT_eq (description : String) (ts : List Token) :
    parseIdentifierT description ts =
      if (ts.headD Token.eof).type ≠ TokenType.IDENTIFIER then
        TResult.error ("Expected " ++ description)
      else TResult.ok (ASTNode.leaf (ts.headD Token.eof).value) ts.tail := by
  simp only [parseIdentifierT, tbind_apply, nextT_apply, tparserIte_apply]
  split <;> rfl

theorem parseValueT_eq (ts : List Token) :
    parseValueT ts =
      if (ts.headD Token.eof).type = TokenType.NUMBER ∨
          (ts.headD Token.eof).type = TokenType.STRING then
        TResult.ok (ASTNode.leaf (ts.headD Token.eof).value) ts.tail
      else TResult.error "Expected a value" := by
  simp only [parseValueT, tbind_apply, nextT_apply, tparserIte_apply]
  split <;> rfl

theorem expectKeywordT_eq (keyword : String) (ts : List Token) :
    expectKeywordT keyword ts =
      if (ts.headD Token.eof).type ≠ TokenType.KEYWORD ∨ (ts.headD Token.eof).value ≠ keyword then
        TResult.error ("Expected keyword '" ++ keyword ++ "'")
      else TResult.ok () ts.tail := by
  simp only [expectKeywordT, tbind_apply, nextT_apply, tparserIte_apply]
  split <;> rfl

theorem expectSymbolT_eq (symbol : String) (ts : List Token) :
    expectSymbolT symbol ts =
      if (ts.headD Token.eof).type ≠ TokenType.SYMBOL ∨ (ts.headD Token.eof).value ≠ symbol then
        TResult.error ("Expected symbol '" ++ symbol ++ "'")
      else TResult.ok () ts.tail := by
  simp only [expectSymbolT, tbind_apply, nextT_apply, tparserIte_apply]
  split <;> rfl

/-- The loop of `parseCreate` on a token list, by the first three tokens. -/
theorem parseCreateLoopT_eq (ts : List Token) (children : List ASTNode) :
    parseCreateLoopT ts children =
      createStep (ts.headD Token.eof) (ts.tail.headD Token.eof) (ts.tail.tail.headD Token.eof)
        ts.tail.tail.tail children (parseCreateLoopT ts.tail.tail.tail) := by
  rcases ts with _ | ⟨t1, _ | ⟨t2, _ | ⟨t3, ts⟩⟩⟩
  · simp [parseCreateLoopT, createStep, Token.eof]
  · simp [parseCreateLoopT, createStep, Token.eof]
  · simp [parseCreateLoopT, createStep, Token.eof]
  · simp [parseCreateLoopT]

/-- The loop of `parseCreate` on a token list, as one iteration followed by
the loop. -/
theorem parseCreateLoopT_bind (children : List ASTNode) :
    (fun ts => parseCreateLoopT ts children : TParserM (List ASTNode)) =
      (do
        let name ← parseIdentifierT "column name"
        let dataType ← parseIdentifierT "data type"
        let token ← nextT
        if token.type = TokenType.SYMBOL ∧ token.value = ")" then
          pure (children ++ [ASTNode.mk "COLUMN" [name, dataType]])
        else if token.type ≠ TokenType.SYMBOL ∨ token.value ≠ "," then
          throwT "Expected ',' or ')'"
        else
          (fun ts => parseCreateLoopT ts (children ++ [ASTNode.mk "COLUMN" [name, dataType]])) :
        TParserM (List ASTNode)) := by
  funext ts
  rw [parseCreateLoopT_eq]
  simp only [tbind_apply, parseIdentifierT_eq, nextT_apply, createStep]
  by_cases h1 : (ts.headD Token.eof).type = TokenType.IDENTIFIER
  · by_cases h2 : (ts.tail.headD Token.eof).type = TokenType.IDENTIFIER
    · simp only [h1, h2, ne_eq, not_true_eq_false, if_false, tparserIte_apply, tpure_apply,
        throwT_apply]
    · simp only [h1, h2, ne_eq, not_true_eq_false, not_false_eq_true, if_true, if_false]
      rfl
  · simp only [h1, ne_eq, not_false_eq_true, if_true]
    rfl

theorem parseCreateLoop_sim (b : Nat) :
    ∀ children, SimP (fun lx ts => lx.Ahead ts ∧ ts.length < 2 * b) (fun _ => Lexer.Sees)
      (parseCreateLoop b children) (fun ts => parseCreateLoopT ts children) := by
  induction b with
  | zero => intro _ lx ts h; omega
  | succ b ih =>
    intro children
    rw [parseCreateLoopT_bind, parseCreateLoop]
    refine SimP.andThen (parseIdentifier_simLen _ (2 * b + 1)) (fun name => ?_)
    refine SimP.andThen ((parseIdentifier_simLen _ (2 * b)).weaken
      (fun _ _ h => ⟨h.1.ahead, h.2⟩) (fun _ _ _ h => h)) (fun dataType => ?_)
    refine SimP.andThen ((SimP.nextLen (2 * b)).weaken (fun _ _ h => ⟨h.1.ahead, by omega⟩)
      (fun _ _ _ h => h)) (fun token => ?_)
    refine SimP.branch _ (fun _ => SimP.ret _ (fun _ _ h => h.1)) (fun _ => ?_)
    refine SimP.branch _ (fun _ => SimP.throw _) (fun hc => ?_)
    refine (ih _).weaken (fun _ _ h => ⟨h.1.ahead, h.2.2 ?_⟩) (fun _ _ _ h => h)
    intro hend
    exact hc (Or.inl (by rw [hend]; decide))


/-- The loop of `parseInsert` on a token list, by the first two tokens. -/
theorem parseInsertLoopT_eq (ts : List Token) (children : List ASTNode) :
    parseInsertLoopT ts children =
      insertStep (ts.headD Token.eof) (ts.tail.headD Token.eof) ts.tail.tail children
        (parseInsertLoopT ts.tail.tail) := by
  rcases ts with _ | ⟨t1, _ | ⟨t2, ts⟩⟩
  · simp [parseInsertLoopT, insertStep, Token.eof]
  · simp [parseInsertLoopT, insertStep, Token.eof]
  · simp [parseInsertLoopT]

theorem parseInsertLoopT_bind (children : List ASTNode) :
    (fun ts => parseInsertLoopT ts children : TParserM (List ASTNode)) =
      (do
        let value ← parseValueT
        let token ← nextT
        if token.type = TokenType.SYMBOL ∧ token.value = ")" then
          pure (children ++ [value])
        else if token.type ≠ TokenType.SYMBOL ∨ token.value ≠ "," then
          throwT "Expected ',' or ')'"
        else
          (fun ts => parseInsertLoopT ts (children ++ [value])) :
        TParserM (List ASTNode)) := by
  funext ts
  rw [parseInsertLoopT_eq]
  simp only [tbind_apply, parseValueT_eq, nextT_apply, insertStep]
  by_cases h1 : (ts.headD Token.eof).type = TokenType.NUMBER ∨
      (ts.headD Token.eof).type = TokenType.STRING
  · simp only [h1, if_true, tparserIte_apply, tpure_apply, throwT_apply]
  · simp only [h1, if_false]

theorem parseInsertLoop_sim (b : Nat) :
    ∀ children, SimP (fun lx ts => lx.Ahead ts ∧ ts.length < 2 * b) (fun _ => Lexer.Sees)
      (parseInsertLoop b children) (fun ts => parseInsertLoopT ts children) := by
  induction b with
  | zero => intro _ lx ts h; omega
  | succ b ih =>
    intro children
    rw [parseInsertLoopT_bind, parseInsertLoop]
    refine SimP.andThen (parseValue_simLen (2 * b + 1)) (fun value => ?_)
    refine SimP.andThen ((SimP.nextLen (2 * b)).weaken (fun _ _ h => ⟨h.1.ahead, h.2⟩)
      (fun _ _ _ h => h)) (fun token => ?_)
    refine SimP.branch _ (fun _ => SimP.ret _ (fun _ _ h => h.1)) (fun _ => ?_)
    refine SimP.branch _ (fun _ => SimP.throw _) (fun hc => ?_)
    refine (ih _).weaken (fun _ _ h => ⟨h.1.ahead, h.2.2 ?_⟩) (fun _ _ _ h => h)
    intro hend
    exact hc (Or.inl (by rw [hend]; decide))

/-- The loop of `parseUpdate` on a token list, by the first four tokens. -/
theorem parseUpdateLoopT_eq (ts : List Token) (children : List ASTNode) :
    parseUpdateLoopT ts children =
      updateStep (ts.headD Token.eof) (ts.tail.headD Token.eof) (ts.tail.tail.headD Token.eof)
        (ts.tail.tail.tail.headD Token.eof) ts.tail.tail.tail.tail children
        (parseUpdateLoopT ts.tail.tail.tail.tail) := by
  rcases ts with _ | ⟨t1, _ | ⟨t2, _ | ⟨t3, _ | ⟨t4, ts⟩⟩⟩⟩
  · simp [parseUpdateLoopT, updateStep, Token.eof]
  · simp [parseUpdateLoopT, updateStep, Token.eof]
  · simp [parseUpdateLoopT, updateStep, Token.eof]
  · simp [parseUpdateLoopT, updateStep, Token.eof]
  · simp [parseUpdateLoopT]

theorem parseUpdateLoopT_bind (children : List ASTNode) :
    (fun ts => parseUpdateLoopT ts children : TParserM (List ASTNode)) =
      (do
        let column ← parseIdentifierT "column name"
        expectSymbolT "="
        let value ← parseValueT
        let token ← nextT
        if token.type = TokenType.KEYWORD ∧ token.value = "WHERE" then
          pure (children ++ [ASTNode.mk "UPDATE_FIELD" [column, value]])
        else if token.type ≠ TokenType.SYMBOL ∨ token.value ≠ "," then
          throwT "Expected ',' or 'WHERE'"
        else
          (fun ts => parseUpdateLoopT ts (children ++ [ASTNode.mk "UPDATE_FIELD" [column, value]])) :
        TParserM (List ASTNode)) := by
  funext ts
  rw [parseUpdateLoopT_eq]
  simp only [tbind_apply, parseIdentifierT_eq, expectSymbolT_eq, parseValueT_eq, nextT_apply,
    updateStep]
  by_cases h1 : (ts.headD Token.eof).type = TokenType.IDENTIFIER
  · by_cases h2 : (ts.tail.headD Token.eof).type ≠ TokenType.SYMBOL ∨
        (ts.tail.headD Token.eof).value ≠ "="
    · simp only [h1, h2, ne_eq, not_true_eq_false, if_false, if_true]
      rfl
    · by_cases h3 : (ts.tail.tail.headD Token.eof).type = TokenType.NUMBER ∨
          (ts.tail.tail.headD Token.eof).type = TokenType.STRING
      · simp only [h1, h2, h3, ne_eq, not_true_eq_false, if_false, if_true, tparserIte_apply,
          tpure_apply, throwT_apply]
      · simp only [h1, h2, h3, ne_eq, not_true_eq_false, if_false]
  · simp only [h1, ne_eq, not_false_eq_true, if_true]
    rfl

theorem SimP.nextLe (n : Nat) :
    SimP (fun lx ts => lx.Ahead ts ∧ ts.length < n) (fun _ lx rest => lx.Sees rest ∧ rest.length < n)
      nextToken nextT := by
  intro lx ts h
  obtain ⟨e1, s1, i1⟩ := h.1.next
  refine ⟨lx.nextToken.2, by rw [nextToken_apply, e1], ⟨s1, ?_⟩, i1⟩
  have := List.length_tail ts
  omega

theorem parseValue_simLe (n : Nat) :
    SimP (fun lx ts => lx.Ahead ts ∧ ts.length < n) (fun _ lx rest => lx.Sees rest ∧ rest.length < n)
      parseValue parseValueT :=
  SimP.andThen (SimP.nextLe n) (fun _ => SimP.branch _ (fun _ => SimP.ret _ (fun _ _ h => h))
    (fun _ => SimP.throw _))

theorem parseUpdateLoop_sim (b : Nat) :
    ∀ children, SimP (fun lx ts => lx.Ahead ts ∧ ts.length < 2 * b) (fun _ => Lexer.Sees)
      (parseUpdateLoop b children) (fun ts => parseUpdateLoopT ts children) := by
  induction b with
  | zero => intro _ lx ts h; omega
  | succ b ih =>
    intro children
    rw [parseUpdateLoopT_bind, parseUpdateLoop]
    refine SimP.andThen (parseIdentifier_simLen _ (2 * b + 1)) (fun column => ?_)
    refine SimP.andThen ((expectSymbol_simLen _ (2 * b)).weaken
      (fun _ _ h => ⟨h.1.ahead, h.2⟩) (fun _ _ _ h => h)) (fun _ => ?_)
    refine SimP.andThen ((parseValue_simLe (2 * b)).weaken (fun _ _ h => ⟨h.1.ahead, h.2⟩)
      (fun _ _ _ h => h)) (fun value => ?_)
    refine SimP.andThen ((SimP.nextLe (2 * b)).weaken (fun _ _ h => ⟨h.1.ahead, h.2⟩)
      (fun _ _ _ h => h)) (fun token => ?_)
    refine SimP.branch _ (fun _ => SimP.ret _ (fun _ _ h => h.1)) (fun _ => ?_)
    refine SimP.branch _ (fun _ => SimP.throw _) (fun _ => ?_)
    exact (ih _).weaken (fun _ _ h => ⟨h.1.ahead, h.2⟩) (fun _ _ _ h => h)


/-- The loop of `parseColumns` on a token list, by the first two tokens. -/
theorem parseColumnsLoopT_eq (ts : List Token) (children : List ASTNode) :
    parseColumnsLoopT ts children =
      columnsStep (ts.headD Token.eof) (ts.tail.headD Token.eof)
        (ts.tail.headD Token.eof :: ts.tail.tail) children (parseColumnsLoopT ts.tail.tail) := by
  rcases ts with _ | ⟨t1, _ | ⟨t2, ts⟩⟩
  · simp [parseColumnsLoopT, columnsStep, Token.eof]
  · simp [parseColumnsLoopT, columnsStep, Token.eof]
  · simp [parseColumnsLoopT]

theorem parseColumnsLoopT_bind (children : List ASTNode) :
    (fun ts => parseColumnsLoopT ts children : TParserM (List ASTNode × Token)) =
      (do
        let column ← parseIdentifierT "column name"
        let token ← nextT
        if token.type = TokenType.SYMBOL ∧ token.value = "," then
          (fun ts => parseColumnsLoopT ts (children ++ [column]))
        else do
          unreadT token
          pure (children ++ [column], token) :
        TParserM (List ASTNode × Token)) := by
  funext ts
  rw [parseColumnsLoopT_eq]
  simp only [tbind_apply, parseIdentifierT_eq, nextT_apply, columnsStep]
  by_cases h1 : (ts.headD Token.eof).type = TokenType.IDENTIFIER
  · simp only [h1, ne_eq, not_true_eq_false, if_false, tparserIte_apply, tbind_apply,
      unreadT_apply, tpure_apply]
  · simp only [h1, ne_eq, not_false_eq_true, if_true]
    rfl

/-- The lexer holds the token `t` pending in front of the tokens `ts`. -/
theorem SimP.putBackPending (t : Token) :
    SimP Lexer.Sees (fun _ lx rest => lx.Ahead rest ∧ lx.putBackToken t = lx)
      (putBackToken t) (unreadT t) := by
  intro lx ts h
  exact ⟨lx.putBackToken t, rfl, ⟨h.putBack t, rfl⟩, rfl⟩

theorem parseColumnsLoop_sim (b : Nat) :
    ∀ children, SimP (fun lx ts => lx.Ahead ts ∧ ts.length < 2 * b)
      (fun r lx rest => lx.Ahead rest ∧ lx.putBackToken r.2 = lx)
      (parseColumnsLoop b children) (fun ts => parseColumnsLoopT ts children) := by
  induction b with
  | zero => intro _ lx ts h; omega
  | succ b ih =>
    intro children
    rw [parseColumnsLoopT_bind, parseColumnsLoop]
    refine SimP.andThen (parseIdentifier_simLen _ (2 * b + 1)) (fun column => ?_)
    refine SimP.andThen ((SimP.nextLen (2 * b)).weaken (fun _ _ h => ⟨h.1.ahead, h.2⟩)
      (fun _ _ _ h => h)) (fun token => ?_)
    refine SimP.branch _ (fun hc => ?_) (fun _ => ?_)
    · refine (ih _).weaken (fun _ _ h => ⟨h.1.ahead, h.2.2 ?_⟩) (fun _ _ _ h => h)
      intro hend
      rw [hend] at hc
      exact absurd hc.1 (by decide)
    · refine SimP.andThen ((SimP.putBackPending token).weaken (fun _ _ h => h.1)
        (fun _ _ _ h => h)) (fun _ => SimP.ret _ (fun _ _ h => h))

theorem parseColumns_sim :
    SimP Lexer.Ahead (fun _ => Lexer.Ahead) parseColumns parseColumnsT := by
  unfold parseColumns parseColumnsT
  refine SimP.andThen SimP.nextTok (fun token => ?_)
  refine SimP.branch _ (fun _ => SimP.ret _ (fun _ _ h => h.ahead)) (fun _ => ?_)
  refine SimP.andThen (SimP.unread token) (fun _ => ?_)
  intro lx ts hA
  have hlen := hA.length_bound
  have hloop := parseColumnsLoop_sim (lx.input.length + 1) [] lx ts ⟨hA, by omega⟩
  beta_reduce at hloop
  simp only [tbind_apply, bind_apply, loopBudget_apply]
  cases hy : parseColumnsLoopT ts [] with
  | ok r rest =>
    rw [hy] at hloop
    obtain ⟨lx1, e1, ⟨p1, p2⟩, i1⟩ := hloop
    refine ⟨lx1, ?_, p1, i1⟩
    simp only [e1, putBackToken_apply, p2, tpure_apply, pure_apply]
  | error e =>
    rw [hy] at hloop
    obtain ⟨lx1, e1⟩ := hloop
    exact ⟨lx1, by simp only [e1]⟩


/-- A loop run with the budget of `loopBudget` agrees with the loop on the
token list: the budget is more than half the number of tokens ahead. -/
theorem SimP.loop {α β : Type} {loop : Nat → ParserM α} {loopT : TParserM α}
    {mid : α → Lexer → List Token → Prop} {post : β → Lexer → List Token → Prop}
    {f : α → ParserM β} {g : α → TParserM β}
    (hloop : ∀ b, SimP (fun lx ts => lx.Ahead ts ∧ ts.length < 2 * b) mid (loop b) loopT)
    (hk : ∀ r, SimP (mid r) post (f r) (g r)) :
    SimP Lexer.Ahead post (loopBudget >>= fun b => loop b >>= f) (loopT >>= g) := by
  intro lx ts hA
  have hlen := hA.length_bound
  have h := SimP.andThen (hloop (lx.input.length + 1)) hk lx ts ⟨hA, by omega⟩
  rw [bind_apply, loopBudget_apply]
  exact h

theorem parseCreate_sim : SimP Lexer.Ahead (fun _ => Lexer.Sees) parseCreate parseCreateT :=
  SimP.andThen (expectKeyword_sim _) (fun _ =>
    SimP.andThen (parseIdentifier_sim _).ofSees (fun table =>
      SimP.andThen (expectSymbol_sim _).ofSees (fun _ =>
        (SimP.loop (fun b => parseCreateLoop_sim b [table])
          (fun _ => SimP.ret _ (fun _ _ h => h))).ofSees)))

theorem parseInsert_sim : SimP Lexer.Ahead (fun _ => Lexer.Sees) parseInsert parseInsertT :=
  SimP.andThen (expectKeyword_sim _) (fun _ =>
    SimP.andThen (parseIdentifier_sim _).ofSees (fun _ =>
      SimP.andThen (expectKeyword_sim _).ofSees (fun _ =>
        SimP.andThen (expectSymbol_sim _).ofSees (fun _ =>
          (SimP.loop (fun b => parseInsertLoop_sim b [])
            (fun _ => SimP.ret _ (fun _ _ h => h))).ofSees))))

theorem parseUpdate_sim : SimP Lexer.Ahead (fun _ => Lexer.Sees) parseUpdate parseUpdateT :=
  SimP.andThen (parseIdentifier_sim _) (fun _ =>
    SimP.andThen (expectKeyword_sim _).ofSees (fun _ =>
      (SimP.loop (fun b => parseUpdateLoop_sim b [])
        (fun _ => SimP.andThen parseCondition_sim.ofSees
          (fun _ => SimP.ret _ (fun _ _ h => h)))).ofSees))

theorem parseDelete_sim : SimP Lexer.Ahead (fun _ => Lexer.Sees) parseDelete parseDeleteT :=
  SimP.andThen (expectKeyword_sim _) (fun _ =>
    SimP.andThen (parseIdentifier_sim _).ofSees (fun _ =>
      SimP.andThen SimP.nextTok.ofSees (fun _ =>
        SimP.branch _
          (fun _ => SimP.andThen parseCondition_sim.ofSees (fun _ => SimP.ret _ (fun _ _ h => h)))
          (fun _ => SimP.ret _ (fun _ _ h => h)))))

theorem parseSelect_sim : SimP Lexer.Ahead (fun _ => Lexer.Ahead) parseSelect parseSelectT :=
  SimP.andThen parseColumns_sim (fun _ =>
    SimP.andThen (expectKeyword_sim _) (fun _ =>
      SimP.andThen (parseIdentifier_sim _).ofSees (fun _ =>
        SimP.andThen SimP.nextTok.ofSees (fun token =>
          SimP.branch _
            (fun _ => SimP.andThen parseCondition_sim.ofSees
              (fun _ => SimP.ret _ (fun _ _ h => h.ahead)))
            (fun _ => SimP.andThen (SimP.unread token)
              (fun _ => SimP.ret _ (fun _ _ h => h)))))))

/-- The outcome of a statement rule followed by `SetZero` and `return`. -/
theorem outcome_setZero {pre : Lexer → List Token → Prop}
    {post : ASTNode → Lexer → List Token → Prop} {x : ParserM ASTNode} {y : TParserM ASTNode}
    (h : SimP pre post x y) (lx : Lexer) (ts : List Token) (hpre : pre lx ts) :
    ((x >>= fun node => setZero >>= fun _ => (pure (some node) : ParserM (Option ASTNode)))
        lx).outcome =
      ((y >>= fun node => (pure (some node) : TParserM (Option ASTNode))) ts).outcome := by
  have h1 := h lx ts hpre
  rw [bind_apply, tbind_apply]
  cases hy : y ts with
  | ok a rest =>
    rw [hy] at h1
    obtain ⟨lx1, e1, _, _⟩ := h1
    simp only [e1, bind_apply, setZero_apply, pure_apply, tpure_apply]
    rfl
  | error e =>
    rw [hy] at h1
    obtain ⟨lx1, e1⟩ := h1
    simp only [e1]
    rfl

/-- The parser and the parser on token lists have the same outcome, whatever
state the parser object is in: the tokens it reads are the pending token, if
one is left over, and then the tokens of the text. -/
theorem parse_eq_parseT (p : Parser) (input : String) (ts : List Token)
    (hA : (p.Initial input).Ahead ts) :
    (p.parse input).outcome = (parseT ts).outcome := by
  obtain ⟨e1, s1, _⟩ := hA.next
  have hnext : nextToken (p.Initial input) =
      Result.ok (ts.headD Token.eof) (p.Initial input).nextToken.2 := by
    rw [nextToken_apply, e1]
  simp only [Parser.parse, parseM, parseT, bind_apply, tbind_apply, initial_apply, hnext,
    nextT_apply, parserIte_apply, tparserIte_apply]
  split
  · split
    · exact outcome_setZero parseCreate_sim _ _ s1.ahead
    · split
      · exact outcome_setZero parseSelect_sim _ _ s1.ahead
      · split
        · exact outcome_setZero parseInsert_sim _ _ s1.ahead
        · split
          · exact outcome_setZero parseUpdate_sim _ _ s1.ahead
          · split
            · exact outcome_setZero parseDelete_sim _ _ s1.ahead
            · rfl
  · rfl

/-- A parser without a pending token: the outcome of `parse` is a function of
the tokens of the text. -/
theorem parse_eq_parseTokens (p : Parser) (input : String) (hpb : p.hasPutBack = false) :
    (p.parse input).outcome = parseTokens (tokens input) :=
  parse_eq_parseT p input (tokens input) (Lexer.sees_initial p input hpb).ahead

theorem TResult.outcome_ne_exhausted {α : Type} (r : TResult α) :
    r.outcome ≠ Outcome.exhausted := by
  cases r <;> simp [TResult.outcome]

/-! ## The statements that the parser on token lists accepts -/

theorem Token.eq_of_type {t : Token} {k : TokenType} (h : t.type = k) : t = ⟨k, t.value⟩ := by
  cases t
  simp_all

theorem Token.eq_of_type_value {t : Token} {k : TokenType} {v : String} (h : t.type = k)
    (hv : t.value = v) : t = ⟨k, v⟩ := by
  cases t
  simp_all

theorem parseCreateLoopT_of_columns (columns : List (String × String)) :
    ∀ (rest : List Token) (children : List ASTNode), columns ≠ [] →
      parseCreateLoopT (columnDefTokens columns ++ ⟨TokenType.SYMBOL, ")"⟩ :: rest) children =
        TResult.ok (children ++ columns.map columnNode) rest := by
  induction columns with
  | nil => intro _ _ h; exact absurd rfl h
  | cons a more ih =>
    intro rest children _
    obtain ⟨n, ty⟩ := a
    cases more with
    | nil => simp [columnDefTokens, parseCreateLoopT, createStep, columnNode]
    | cons a2 more2 =>
      rw [columnDefTokens_cons_cons]
      simp only [List.cons_append, parseCreateLoopT, createStep]
      simp only [ne_eq, not_true_eq_false, if_false, reduceCtorEq, false_and, and_self, and_true,
        not_false_eq_true, true_and, false_or, or_false]
      have := ih rest (children ++ [columnNode (n, ty)]) (by simp)
      simpa [columnNode] using this

theorem parseCreateLoopT_inv (n : Nat) :
    ∀ (ts : List Token), ts.length ≤ n → ∀ (children r : List ASTNode) (rest : List Token),
      parseCreateLoopT ts children = TResult.ok r rest →
      ∃ columns, columns ≠ [] ∧
        ts = columnDefTokens columns ++ ⟨TokenType.SYMBOL, ")"⟩ :: rest ∧
        r = children ++ columns.map columnNode := by
  induction n with
  | zero =>
    intro ts hlen children r rest h
    have : ts = [] := List.length_eq_zero.mp (Nat.le_zero.mp hlen)
    subst this
    simp [parseCreateLoopT, createStep, Token.eof] at h
  | succ n ih =>
    intro ts hlen children r rest h
    rcases ts with _ | ⟨t1, _ | ⟨t2, _ | ⟨t3, ts⟩⟩⟩
    · simp [parseCreateLoopT, createStep, Token.eof] at h
    · simp only [parseCreateLoopT, createStep, Token.eof] at h
      split at h
      · cases h
      · simp at h
    · simp only [parseCreateLoopT, createStep, Token.eof] at h
      split at h
      · cases h
      · split at h
        · cases h
        · simp at h
    · simp only [parseCreateLoopT, createStep] at h
      split at h
      · cases h
      · rename_i h1
        split at h
        · cases h
        · rename_i h2
          have e1 := Token.eq_of_type (not_not.mp h1)
          have e2 := Token.eq_of_type (not_not.mp h2)
          split at h
          · rename_i h3
            simp only [TResult.ok.injEq] at h
            refine ⟨[(t1.value, t2.value)], by simp, ?_, ?_⟩
            · rw [← h.2, Token.eq_of_type_value h3.1 h3.2]
              simp only [columnDefTokens, List.cons_append, List.nil_append]
              rw [← e1, ← e2]
            · rw [← h.1]
              rfl
          · split at h
            · cases h
            · rename_i h3 h4
              simp only [not_or, not_not] at h4
              simp only [List.length_cons] at hlen
              obtain ⟨cols, hne, hts, hr⟩ := ih ts (by omega) _ _ _ h
              obtain ⟨a, more, rfl⟩ := List.exists_cons_of_ne_nil hne
              refine ⟨(t1.value, t2.value) :: a :: more, by simp, ?_, ?_⟩
              · rw [columnDefTokens_cons_cons, hts, Token.eq_of_type_value h4.1 h4.2]
                simp only [List.cons_append]
                rw [← e1, ← e2]
              · rw [hr]
                simp [columnNode]


theorem valueListTokens_cons_cons (v a : Token) (rest : List Token) :
    valueListTokens (v :: a :: rest) =
      v :: ⟨TokenType.SYMBOL, ","⟩ :: valueListTokens (a :: rest) := by
  simp [valueListTokens]

theorem columnListTokens_cons_cons (c a : String) (rest : List String) :
    columnListTokens (c :: a :: rest) =
      ⟨TokenType.IDENTIFIER, c⟩ :: ⟨TokenType.SYMBOL, ","⟩ :: columnListTokens (a :: rest) := by
  simp [columnListTokens]

theorem parseInsertLoopT_of_values (values : List Token) :
    ∀ (rest : List Token) (children : List ASTNode), values ≠ [] →
      (∀ v ∈ values, v.isValue) →
      parseInsertLoopT (valueListTokens values ++ ⟨TokenType.SYMBOL, ")"⟩ :: rest) children =
        TResult.ok (children ++ values.map (fun v => ASTNode.leaf v.value)) rest := by
  induction values with
  | nil => intro _ _ h; exact absurd rfl h
  | cons v more ih =>
    intro rest children _ hval
    have hv : v.type = TokenType.NUMBER ∨ v.type = TokenType.STRING := hval v (by simp)
    cases more with
    | nil => simp [valueListTokens, parseInsertLoopT, insertStep, hv]
    | cons a2 more2 =>
      rw [valueListTokens_cons_cons]
      simp only [List.cons_append, parseInsertLoopT, insertStep, hv, if_true]
      simp only [ne_eq, not_true_eq_false, if_false, reduceCtorEq, false_and, and_self, and_true,
        not_false_eq_true, true_and, false_or, or_false]
      have := ih rest (children ++ [ASTNode.leaf v.value]) (by simp)
        (fun x hx => hval x (by simp [hx]))
      simpa using this

theorem parseInsertLoopT_inv (n : Nat) :
    ∀ (ts : List Token), ts.length ≤ n → ∀ (children r : List ASTNode) (rest : List Token),
      parseInsertLoopT ts children = TResult.ok r rest →
      ∃ values, values ≠ [] ∧ (∀ v ∈ values, v.isValue) ∧
        ts = valueListTokens values ++ ⟨TokenType.SYMBOL, ")"⟩ :: rest ∧
        r = children ++ values.map (fun v => ASTNode.leaf v.value) := by
  induction n with
  | zero =>
    intro ts hlen children r rest h
    have : ts = [] := List.length_eq_zero.mp (Nat.le_zero.mp hlen)
    subst this
    simp [parseInsertLoopT, insertStep, Token.eof] at h
  | succ n ih =>
    intro ts hlen children r rest h
    rcases ts with _ | ⟨t1, _ | ⟨t2, ts⟩⟩
    · simp [parseInsertLoopT, insertStep, Token.eof] at h
    · simp only [parseInsertLoopT, insertStep, Token.eof] at h
      split at h
      · simp at h
      · cases h
    · simp only [parseInsertLoopT, insertStep] at h
      split at h
      · rename_i h1
        split at h
        · rename_i h2
          simp only [TResult.ok.injEq] at h
          refine ⟨[t1], by simp, ?_, ?_, ?_⟩
          · intro v hv
            rw [List.mem_singleton.mp hv]
            exact h1
          · rw [← h.2, Token.eq_of_type_value h2.1 h2.2]
            rfl
          · rw [← h.1]
            rfl
        · split at h
          · cases h
          · rename_i h3 h4
            simp only [not_or, not_not] at h4
            simp only [List.length_cons] at hlen
            obtain ⟨vals, hne, hval, hts, hr⟩ := ih ts (by omega) _ _ _ h
            obtain ⟨a, more, rfl⟩ := List.exists_cons_of_ne_nil hne
            refine ⟨t1 :: a :: more, by simp, ?_, ?_, ?_⟩
            · intro v hv
              rcases List.mem_cons.mp hv with rfl | hv
              · exact h1
              · exact hval v hv
            · rw [valueListTokens_cons_cons, hts, Token.eq_of_type_value h4.1 h4.2]
              rfl
            · rw [hr]
              simp
      · cases h

theorem parseUpdateLoopT_of_assignments (assignments : List (String × Token)) :
    ∀ (rest : List Token) (children : List ASTNode), assignments ≠ [] →
      (∀ a ∈ assignments, a.2.isValue) →
      parseUpdateLoopT (assignmentTokens assignments ++ ⟨TokenType.KEYWORD, "WHERE"⟩ :: rest)
          children =
        TResult.ok (children ++ assignments.map updateFieldNode) rest := by
  induction assignments with
  | nil => intro _ _ h; exact absurd rfl h
  | cons a more ih =>
    intro rest children _ hval
    obtain ⟨c, v⟩ := a
    have hv : v.type = TokenType.NUMBER ∨ v.type = TokenType.STRING := hval (c, v) (by simp)
    cases more with
    | nil => simp [assignmentTokens, parseUpdateLoopT, updateStep, hv, updateFieldNode]
    | cons a2 more2 =>
      rw [assignmentTokens_cons_cons]
      simp only [List.cons_append, parseUpdateLoopT, updateStep, hv, if_true]
      simp only [ne_eq, not_true_eq_false, if_false, reduceCtorEq, false_and, and_self, and_true,
        not_false_eq_true, true_and, false_or, or_false]
      have := ih rest (children ++ [updateFieldNode (c, v)]) (by simp)
        (fun x hx => hval x (by simp [hx]))
      simpa [updateFieldNode] using this

theorem parseUpdateLoopT_inv (n : Nat) :
    ∀ (ts : List Token), ts.length ≤ n → ∀ (children r : List ASTNode) (rest : List Token),
      parseUpdateLoopT ts children = TResult.ok r rest →
      ∃ assignments, assignments ≠ [] ∧ (∀ a ∈ assignments, a.2.isValue) ∧
        ts = assignmentTokens assignments ++ ⟨TokenType.KEYWORD, "WHERE"⟩ :: rest ∧
        r = children ++ assignments.map updateFieldNode := by
  induction n with
  | zero =>
    intro ts hlen children r rest h
    have : ts = [] := List.length_eq_zero.mp (Nat.le_zero.mp hlen)
    subst this
    simp [parseUpdateLoopT, updateStep, Token.eof] at h
  | succ n ih =>
    intro ts hlen children r rest h
    rcases ts with _ | ⟨t1, _ | ⟨t2, _ | ⟨t3, _ | ⟨t4, ts⟩⟩⟩⟩
    · simp [parseUpdateLoopT, updateStep, Token.eof] at h
    · simp only [parseUpdateLoopT, updateStep, Token.eof] at h
      split at h
      · cases h
      · simp at h
    · simp only [parseUpdateLoopT, updateStep, Token.eof] at h
      split at h
      · cases h
      · split at h
        · cases h
        · simp at h
    · simp only [parseUpdateLoopT, updateStep, Token.eof] at h
      split at h
      · cases h
      · split at h
        · cases h
        · split at h
          · simp at h
          · cases h
    · simp only [parseUpdateLoopT, updateStep] at h
      split at h
      · cases h
      · rename_i h1
        split at h
        · cases h
        · rename_i h2
          simp only [not_or, not_not] at h2
          have e1 := Token.eq_of_type (not_not.mp h1)
          have e2 := Token.eq_of_type_value h2.1 h2.2
          split at h
          · rename_i h3
            split at h
            · rename_i h4
              simp only [TResult.ok.injEq] at h
              refine ⟨[(t1.value, t3)], by simp, ?_, ?_, ?_⟩
              · intro a ha
                rw [List.mem_singleton.mp ha]
                exact h3
              · rw [← h.2, Token.eq_of_type_value h4.1 h4.2, e2]
                simp only [assignmentTokens, List.cons_append, List.nil_append]
                rw [← e1]
              · rw [← h.1]
                rfl
            · split at h
              · cases h
              · rename_i h4 h5
                simp only [not_or, not_not] at h5
                simp only [List.length_cons] at hlen
                obtain ⟨as, hne, hval, hts, hr⟩ := ih ts (by omega) _ _ _ h
                obtain ⟨a, more, rfl⟩ := List.exists_cons_of_ne_nil hne
                refine ⟨(t1.value, t3) :: a :: more, by simp, ?_, ?_, ?_⟩
                · intro x hx
                  rcases List.mem_cons.mp hx with rfl | hx
                  · exact h3
                  · exact hval x hx
                · rw [assignmentTokens_cons_cons, hts, Token.eq_of_type_value h5.1 h5.2, e2]
                  simp only [List.cons_append]
                  rw [← e1]
                · rw [hr]
                  simp [updateFieldNode]
          · cases h


theorem parseColumnsLoopT_of_columns (columns : List String) :
    ∀ (tail : List Token) (children : List ASTNode), columns ≠ [] →
      ¬ ((tail.headD Token.eof).type = TokenType.SYMBOL ∧ (tail.headD Token.eof).value = ",") →
      parseColumnsLoopT (columnListTokens columns ++ tail) children =
        TResult.ok (children ++ columns.map ASTNode.leaf, tail.headD Token.eof)
          (tail.headD Token.eof :: tail.tail) := by
  induction columns with
  | nil => intro _ _ h; exact absurd rfl h
  | cons c more ih =>
    intro tail children _ htail
    cases more with
    | nil =>
      cases tail with
      | nil => simp [columnListTokens, parseColumnsLoopT, columnsStep, Token.eof]
      | cons t ts =>
        simp only [List.headD_cons] at htail
        simp [columnListTokens, parseColumnsLoopT, columnsStep, htail]
    | cons a2 more2 =>
      rw [columnListTokens_cons_cons]
      simp only [List.cons_append, parseColumnsLoopT, columnsStep]
      simp only [ne_eq, not_true_eq_false, if_false, and_self, if_true]
      have := ih tail (children ++ [ASTNode.leaf c]) (by simp) htail
      simpa using this

theorem parseColumnsLoopT_inv (n : Nat) :
    ∀ (ts : List Token), ts.length ≤ n → ∀ (children : List ASTNode) (r : List ASTNode × Token)
      (rest : List Token),
      parseColumnsLoopT ts children = TResult.ok r rest →
      ∃ columns tail, columns ≠ [] ∧ ts = columnListTokens columns ++ tail ∧
        ¬ ((tail.headD Token.eof).type = TokenType.SYMBOL ∧ (tail.headD Token.eof).value = ",") ∧
        r = (children ++ columns.map ASTNode.leaf, tail.headD Token.eof) ∧
        rest = tail.headD Token.eof :: tail.tail := by
  induction n with
  | zero =>
    intro ts hlen children r rest h
    have : ts = [] := List.length_eq_zero.mp (Nat.le_zero.mp hlen)
    subst this
    simp [parseColumnsLoopT, columnsStep, Token.eof] at h
  | succ n ih =>
    intro ts hlen children r rest h
    rcases ts with _ | ⟨t1, _ | ⟨t2, ts⟩⟩
    · simp [parseColumnsLoopT, columnsStep, Token.eof] at h
    · simp only [parseColumnsLoopT, columnsStep, Token.eof] at h
      split at h
      · cases h
      · rename_i h1
        simp only [reduceCtorEq, false_and, if_false, TResult.ok.injEq] at h
        refine ⟨[t1.value], [], by simp, ?_, by simp [Token.eof], ?_, ?_⟩
        · simp only [columnListTokens, List.append_nil]
          rw [← Token.eq_of_type (not_not.mp h1)]
        · rw [← h.1]; rfl
        · rw [← h.2]; rfl
    · simp only [parseColumnsLoopT, columnsStep] at h
      split at h
      · cases h
      · rename_i h1
        have e1 := Token.eq_of_type (not_not.mp h1)
        split at h
        · rename_i h2
          simp only [List.length_cons] at hlen
          obtain ⟨cols, tail, hne, hts, htail, hr, hrest⟩ := ih ts (by omega) _ _ _ h
          obtain ⟨a, more, rfl⟩ := List.exists_cons_of_ne_nil hne
          refine ⟨t1.value :: a :: more, tail, by simp, ?_, htail, ?_, hrest⟩
          · rw [columnListTokens_cons_cons, hts, Token.eq_of_type_value h2.1 h2.2]
            simp only [List.cons_append]
            rw [← e1]
          · rw [hr]
            simp
        · rename_i h2
          simp only [TResult.ok.injEq] at h
          refine ⟨[t1.value], t2 :: ts, by simp, ?_, by simpa using h2, ?_, ?_⟩
          · simp only [columnListTokens, List.singleton_append]
            rw [← e1]
          · rw [← h.1]; rfl
          · rw [← h.2]; rfl

theorem tbind_eq_ok {α β : Type} (x : TParserM α) (f : α → TParserM β) (ts rest : List Token)
    (b : β) :
    (x >>= f) ts = TResult.ok b rest ↔
      ∃ a mid, x ts = TResult.ok a mid ∧ f a mid = TResult.ok b rest := by
  rw [tbind_apply]
  cases x ts with
  | ok a mid =>
    constructor
    · intro h
      exact ⟨a, mid, rfl, h⟩
    · rintro ⟨a2, mid2, h1, h2⟩
      cases h1
      exact h2
  | error e => simp

theorem eq_cons_of_headD_type {ts : List Token} {k : TokenType}
    (h : (ts.headD Token.eof).type = k) (hk : k ≠ TokenType.END) :
    ts = ⟨k, (ts.headD Token.eof).value⟩ :: ts.tail := by
  cases ts with
  | nil => exact absurd h.symm hk
  | cons t ts =>
    simp only [List.headD_cons, List.tail_cons] at h ⊢
    rw [← Token.eq_of_type h]

theorem expectKeywordT_ok_iff (keyword : String) (ts rest : List Token) (u : Unit) :
    expectKeywordT keyword ts = TResult.ok u rest ↔ ts = ⟨TokenType.KEYWORD, keyword⟩ :: rest := by
  rw [expectKeywordT_eq]
  constructor
  · intro h
    split at h
    · cases h
    · rename_i hc
      simp only [not_or, not_not] at hc
      simp only [TResult.ok.injEq, true_and] at h
      have := eq_cons_of_headD_type hc.1 (by decide)
      rw [hc.2, h] at this
      exact this
  · rintro rfl
    simp

theorem expectSymbolT_ok_iff (symbol : String) (ts rest : List Token) (u : Unit) :
    expectSymbolT symbol ts = TResult.ok u rest ↔ ts = ⟨TokenType.SYMBOL, symbol⟩ :: rest := by
  rw [expectSymbolT_eq]
  constructor
  · intro h
    split at h
    · cases h
    · rename_i hc
      simp only [not_or, not_not] at hc
      simp only [TResult.ok.injEq, true_and] at h
      have := eq_cons_of_headD_type hc.1 (by decide)
      rw [hc.2, h] at this
      exact this
  · rintro rfl
    simp

theorem parseIdentifierT_ok_iff (description : String) (ts rest : List Token) (node : ASTNode) :
    parseIdentifierT description ts = TResult.ok node rest ↔
      ∃ v, ts = ⟨TokenType.IDENTIFIER, v⟩ :: rest ∧ node = ASTNode.leaf v := by
  rw [parseIdentifierT_eq]
  constructor
  · intro h
    split at h
    · cases h
    · rename_i hc
      simp only [TResult.ok.injEq] at h
      have := eq_cons_of_headD_type (not_not.mp hc) (by decide)
      rw [h.2] at this
      exact ⟨_, this, h.1.symm⟩
  · rintro ⟨v, rfl, rfl⟩
    simp

theorem parseValueT_ok_iff (ts rest : List Token) (node : ASTNode) :
    parseValueT ts = TResult.ok node rest ↔
      ∃ t : Token, t.isValue ∧ ts = t :: rest ∧ node = ASTNode.leaf t.value := by
  rw [parseValueT_eq]
  constructor
  · intro h
    split at h
    · rename_i hc
      simp only [TResult.ok.injEq] at h
      cases ts with
      | nil => simp [Token.eof] at hc
      | cons t ts =>
        simp only [List.headD_cons, List.tail_cons] at hc h
        exact ⟨t, hc, by rw [h.2], h.1.symm⟩
    · cases h
  · rintro ⟨t, ht, rfl, rfl⟩
    have ht2 : t.type = TokenType.NUMBER ∨ t.type = TokenType.STRING := ht
    simp [ht2]

theorem parseConditionT_ok_iff (ts rest : List Token) (node : ASTNode) :
    parseConditionT ts = TResult.ok node rest ↔
      ∃ c : Condition, c.wellFormed ∧
        ts = ⟨TokenType.IDENTIFIER, c.column⟩ :: ⟨TokenType.SYMBOL, c.op⟩ :: c.value :: rest ∧
        node = c.toAST := by
  simp only [parseConditionT, tbind_eq_ok, parseIdentifierT_ok_iff, nextT_apply, TResult.ok.injEq,
    tparserIte_apply]
  constructor
  · rintro ⟨_, mid1, ⟨v, rfl, rfl⟩, t, mid2, ⟨rfl, rfl⟩, h⟩
    split at h
    · cases h
    · rename_i hc
      simp only [not_or, not_and, not_not] at hc
      rw [tbind_eq_ok] at h
      obtain ⟨vnode, mid3, hv, h⟩ := h
      obtain ⟨vt, hvt, hmid, rfl⟩ := (parseValueT_ok_iff _ _ _).mp hv
      simp only [tpure_apply, TResult.ok.injEq] at h
      have hop := eq_cons_of_headD_type hc.1 (by decide)
      refine ⟨⟨v, (mid1.headD Token.eof).value, vt⟩, ⟨?_, hvt⟩, ?_, ?_⟩
      · have h2 := hc.2
        simp only [comparisonOperators, List.mem_cons, List.mem_singleton, List.not_mem_nil,
          or_false]
        by_contra hcon
        simp only [not_or] at hcon
        exact hcon.2.2.2.2.2 (h2 hcon.1 hcon.2.1 hcon.2.2.1 hcon.2.2.2.1 hcon.2.2.2.2.1)
      · simp only
        rw [hop, hmid, h.2] at *
        simp
      · rw [← h.1]
        rfl
  · rintro ⟨c, ⟨hop, hv⟩, rfl, rfl⟩
    refine ⟨_, _, ⟨c.column, rfl, rfl⟩, _, _, ⟨rfl, rfl⟩, ?_⟩
    have hop2 : ¬ (c.op ≠ "=" ∧ c.op ≠ ">" ∧ c.op ≠ "<" ∧ c.op ≠ ">=" ∧ c.op ≠ "<=" ∧
        c.op ≠ "!=") := by
      simp only [comparisonOperators, List.mem_cons, List.mem_singleton, List.not_mem_nil,
        or_false] at hop
      rcases hop with h | h | h | h | h | h <;> rw [h] <;> decide
    have hv2 : c.value.type = TokenType.NUMBER ∨ c.value.type = TokenType.STRING := hv
    simp [hop2, parseValueT_eq, hv2, Condition.toAST]


theorem parseCreateT_inv {ts rest : List Token} {node : ASTNode}
    (h : parseCreateT ts = TResult.ok node rest) :
    ∃ t columns, columns ≠ [] ∧
      ts = ⟨TokenType.KEYWORD, "TABLE"⟩ :: ⟨TokenType.IDENTIFIER, t⟩ :: ⟨TokenType.SYMBOL, "("⟩ ::
        (columnDefTokens columns ++ ⟨TokenType.SYMBOL, ")"⟩ :: rest) ∧
      node = (Statement.create t columns).toAST := by
  simp only [parseCreateT, tbind_eq_ok, expectKeywordT_ok_iff, parseIdentifierT_ok_iff,
    expectSymbolT_ok_iff, tpure_apply, TResult.ok.injEq] at h
  obtain ⟨_, m1, rfl, _, m2, ⟨t, rfl, rfl⟩, _, m3, rfl, r, m4, hloop, rfl, rfl⟩ := h
  obtain ⟨cols, hne, rfl, rfl⟩ := parseCreateLoopT_inv _ _ (Nat.le_refl _) _ _ _ hloop
  exact ⟨t, cols, hne, rfl, rfl⟩

theorem parseInsertT_inv {ts rest : List Token} {node : ASTNode}
    (h : parseInsertT ts = TResult.ok node rest) :
    ∃ t values, values ≠ [] ∧ (∀ v ∈ values, v.isValue) ∧
      ts = ⟨TokenType.KEYWORD, "INTO"⟩ :: ⟨TokenType.IDENTIFIER, t⟩ ::
        ⟨TokenType.KEYWORD, "VALUES"⟩ :: ⟨TokenType.SYMBOL, "("⟩ ::
        (valueListTokens values ++ ⟨TokenType.SYMBOL, ")"⟩ :: rest) ∧
      node = (Statement.insert t values).toAST := by
  simp only [parseInsertT, tbind_eq_ok, expectKeywordT_ok_iff, parseIdentifierT_ok_iff,
    expectSymbolT_ok_iff, tpure_apply, TResult.ok.injEq] at h
  obtain ⟨_, m1, rfl, _, m2, ⟨t, rfl, rfl⟩, _, m3, rfl, _, m4, rfl, r, m5, hloop, rfl, rfl⟩ := h
  obtain ⟨vals, hne, hval, rfl, rfl⟩ := parseInsertLoopT_inv _ _ (Nat.le_refl _) _ _ _ hloop
  exact ⟨t, vals, hne, hval, rfl, by simp [Statement.toAST]⟩

theorem parseUpdateT_inv {ts rest : List Token} {node : ASTNode}
    (h : parseUpdateT ts = TResult.ok node rest) :
    ∃ t assignments c, assignments ≠ [] ∧ (∀ a ∈ assignments, a.2.isValue) ∧ c.wellFormed ∧
      ts = ⟨TokenType.IDENTIFIER, t⟩ :: ⟨TokenType.KEYWORD, "SET"⟩ ::
        (assignmentTokens assignments ++ (c.tokens ++ rest)) ∧
      node = (Statement.update t assignments c).toAST := by
  simp only [parseUpdateT, tbind_eq_ok, expectKeywordT_ok_iff, parseIdentifierT_ok_iff,
    parseConditionT_ok_iff, tpure_apply, TResult.ok.injEq] at h
  obtain ⟨_, m1, ⟨t, rfl, rfl⟩, _, m2, rfl, r, m3, hloop, _, m4, ⟨c, hc, rfl, rfl⟩, rfl, rfl⟩ := h
  obtain ⟨as, hne, hval, rfl, rfl⟩ := parseUpdateLoopT_inv _ _ (Nat.le_refl _) _ _ _ hloop
  exact ⟨t, as, c, hne, hval, hc, by simp [Condition.tokens], by simp [Statement.toAST]⟩

theorem parseDeleteT_inv {ts rest : List Token} {node : ASTNode}
    (h : parseDeleteT ts = TResult.ok node rest) :
    ∃ t c after, (∀ x ∈ c, Condition.wellFormed x) ∧
      (Statement.delete t c).endsBefore after ∧
      ts = ⟨TokenType.KEYWORD, "FROM"⟩ :: ⟨TokenType.IDENTIFIER, t⟩ :: (whereTokens c ++ after) ∧
      node = (Statement.delete t c).toAST := by
  simp only [parseDeleteT, tbind_eq_ok, expectKeywordT_ok_iff, parseIdentifierT_ok_iff,
    nextT_apply, tparserIte_apply, TResult.ok.injEq] at h
  obtain ⟨_, m1, rfl, _, m2, ⟨t, rfl, rfl⟩, tok, m3, ⟨rfl, rfl⟩, h⟩ := h
  split at h
  · rename_i hw
    rw [tbind_eq_ok] at h
    obtain ⟨_, m4, hcond, h⟩ := h
    obtain ⟨c, hc, hts, rfl⟩ := (parseConditionT_ok_iff _ _ _).mp hcond
    simp only [tpure_apply, TResult.ok.injEq] at h
    have hm2 := eq_cons_of_headD_type hw.1 (by decide)
    rw [hw.2, hts] at hm2
    refine ⟨t, some c, rest, ?_, trivial, ?_, ?_⟩
    · intro x hx
      cases hx
      exact hc
    · rw [hm2, ← h.2]
      simp [whereTokens, Condition.tokens]
    · rw [← h.1]
      rfl
  · rename_i hw
    simp only [tpure_apply, TResult.ok.injEq] at h
    refine ⟨t, none, m2, by simp, hw, by simp [whereTokens], ?_⟩
    rw [← h.1]
    rfl

theorem parseColumnsT_inv {ts rest : List Token} {node : ASTNode}
    (h : parseColumnsT ts = TResult.ok node rest) :
    (ts = ⟨TokenType.SYMBOL, "*"⟩ :: rest ∧
      node = ASTNode.mk "COLUMNS" [ASTNode.leaf "ALL_COLUMNS"]) ∨
    (∃ columns tail, columns ≠ [] ∧ ts = columnListTokens columns ++ tail ∧
      node = ASTNode.mk "COLUMNS" (columns.map ASTNode.leaf) ∧
      rest = tail.headD Token.eof :: tail.tail) := by
  simp only [parseColumnsT, tbind_eq_ok, nextT_apply, tparserIte_apply, TResult.ok.injEq] at h
  obtain ⟨tok, m1, ⟨rfl, rfl⟩, h⟩ := h
  split at h
  · rename_i hs
    simp only [tpure_apply, TResult.ok.injEq] at h
    left
    have := eq_cons_of_headD_type hs.1 (by decide)
    rw [hs.2, h.2] at this
    exact ⟨this, h.1.symm⟩
  · right
    simp only [tbind_eq_ok, unreadT_apply, TResult.ok.injEq, tpure_apply] at h
    obtain ⟨_, m2, ⟨_, rfl⟩, r, m3, hloop, rfl, rfl⟩ := h
    obtain ⟨cols, tail, hne, hts, _, hr, hrest⟩ :=
      parseColumnsLoopT_inv _ _ (Nat.le_refl _) _ _ _ hloop
    obtain ⟨c, more, rfl⟩ := List.exists_cons_of_ne_nil hne
    refine ⟨c :: more, tail, hne, ?_, ?_, hrest⟩
    · cases ts with
      | nil =>
        cases more <;> simp [columnListTokens, Token.eof] at hts
      | cons t ts => simpa using hts
    · rw [hr]
      simp

theorem parseSelectT_inv {ts rest : List Token} {node : ASTNode}
    (h : parseSelectT ts = TResult.ok node rest) :
    ∃ (s : Statement) (after : List Token), s.keyword = "SELECT" ∧ s.wellFormed ∧
      s.endsBefore after ∧
      ⟨TokenType.KEYWORD, "SELECT"⟩ :: ts = s.tokens ++ after ∧ node = s.toAST := by
  simp only [parseSelectT, tbind_eq_ok, expectKeywordT_ok_iff, parseIdentifierT_ok_iff,
    nextT_apply, tparserIte_apply, TResult.ok.injEq] at h
  obtain ⟨columns, m1, hcols, _, m2, hfrom, _, m3, ⟨t, rfl, rfl⟩, tok, m4, ⟨rfl, rfl⟩, h⟩ := h
  have hwhere : ∃ c after, (∀ x ∈ c, Condition.wellFormed x) ∧
      (c = none → ¬ (after.headD Token.eof).isWhere) ∧ m3 = whereTokens c ++ after ∧
      node = ASTNode.mk "SELECT" (columns :: ASTNode.leaf t :: whereNodes c) := by
    split at h
    · rename_i hw
      rw [tbind_eq_ok] at h
      obtain ⟨_, m5, hcond, h⟩ := h
      obtain ⟨c, hc, hts, rfl⟩ := (parseConditionT_ok_iff _ _ _).mp hcond
      simp only [tpure_apply, TResult.ok.injEq] at h
      have hm := eq_cons_of_headD_type hw.1 (by decide)
      rw [hw.2, hts] at hm
      refine ⟨some c, rest, ?_, by simp, ?_, ?_⟩
      · intro x hx
        cases hx
        exact hc
      · rw [hm, ← h.2]
        simp [whereTokens, Condition.tokens]
      · rw [← h.1]
        rfl
    · rename_i hw
      simp only [tbind_eq_ok, unreadT_apply, TResult.ok.injEq, tpure_apply] at h
      obtain ⟨_, _, _, h, _⟩ := h
      exact ⟨none, m3, by simp, fun _ => hw, by simp [whereTokens], by rw [← h]; rfl⟩
  obtain ⟨c, after, hc, hend, rfl, rfl⟩ := hwhere
  rcases parseColumnsT_inv hcols with ⟨rfl, rfl⟩ | ⟨cols, tail, hne, rfl, rfl, rfl⟩
  · subst hfrom
    refine ⟨Statement.selectAll t c, after, rfl, hc, ?_, rfl, rfl⟩
    cases c with
    | none => exact hend rfl
    | some c => trivial
  · have htail : tail = ⟨TokenType.KEYWORD, "FROM"⟩ :: ⟨TokenType.IDENTIFIER, t⟩ ::
        (whereTokens c ++ after) := by
      cases tail with
      | nil => simp [Token.eof] at hfrom
      | cons x xs => simpa using hfrom
    subst htail
    refine ⟨Statement.select cols t c, after, rfl, ⟨hne, hc⟩, ?_, ?_, rfl⟩
    · cases c with
      | none => exact hend rfl
      | some c => trivial
    · simp [Statement.tokens]


/-- Every token list that the parser on token lists accepts is a well-formed
statement followed by tokens that do not continue it, and the tree is the
tree of that statement. -/
theorem parseT_inv {ts rest : List Token} {node : ASTNode}
    (h : parseT ts = TResult.ok (some node) rest) :
    ∃ (s : Statement) (after : List Token), s.wellFormed ∧ s.endsBefore after ∧
      ts = s.tokens ++ after ∧ node = s.toAST := by
  simp only [parseT, tbind_eq_ok, nextT_apply, TResult.ok.injEq, tparserIte_apply] at h
  obtain ⟨tok, m1, ⟨rfl, rfl⟩, h⟩ := h
  split at h
  · rename_i hk
    have hts := eq_cons_of_headD_type hk (by decide)
    split at h
    · rename_i hv
      rw [hv] at hts
      simp only [tbind_eq_ok, tpure_apply, TResult.ok.injEq, Option.some.injEq] at h
      obtain ⟨n, m2, hrule, rfl, rfl⟩ := h
      obtain ⟨t, cols, hne, hrest, rfl⟩ := parseCreateT_inv hrule
      refine ⟨Statement.create t cols, m2, hne, trivial, ?_, rfl⟩
      rw [hts, hrest]
      simp [Statement.tokens]
    · split at h
      · rename_i hv
        rw [hv] at hts
        simp only [tbind_eq_ok, tpure_apply, TResult.ok.injEq, Option.some.injEq] at h
        obtain ⟨n, m2, hrule, rfl, rfl⟩ := h
        obtain ⟨s, after, _, hwf, hend, hrest, rfl⟩ := parseSelectT_inv hrule
        exact ⟨s, after, hwf, hend, by rw [hts, hrest], rfl⟩
      · split at h
        · rename_i hv
          rw [hv] at hts
          simp only [tbind_eq_ok, tpure_apply, TResult.ok.injEq, Option.some.injEq] at h
          obtain ⟨n, m2, hrule, rfl, rfl⟩ := h
          obtain ⟨t, vals, hne, hval, hrest, rfl⟩ := parseInsertT_inv hrule
          refine ⟨Statement.insert t vals, m2, ⟨hne, hval⟩, trivial, ?_, rfl⟩
          rw [hts, hrest]
          simp [Statement.tokens]
        · split at h
          · rename_i hv
            rw [hv] at hts
            simp only [tbind_eq_ok, tpure_apply, TResult.ok.injEq, Option.some.injEq] at h
            obtain ⟨n, m2, hrule, rfl, rfl⟩ := h
            obtain ⟨t, as, c, hne, hval, hc, hrest, rfl⟩ := parseUpdateT_inv hrule
            refine ⟨Statement.update t as c, m2, ⟨hne, hval, hc⟩, trivial, ?_, rfl⟩
            rw [hts, hrest]
            simp [Statement.tokens]
          · split at h
            · rename_i hv
              rw [hv] at hts
              simp only [tbind_eq_ok, tpure_apply, TResult.ok.injEq, Option.some.injEq] at h
              obtain ⟨n, m2, hrule, rfl, rfl⟩ := h
              obtain ⟨t, c, after, hc, hend, hrest, rfl⟩ := parseDeleteT_inv hrule
              refine ⟨Statement.delete t c, after, hc, hend, ?_, rfl⟩
              rw [hts, hrest]
              simp [Statement.tokens]
            · simp at h
  · simp at h

theorem parseColumnsT_of_columns (columns : List String) (t0 : Token) (tail : List Token)
    (hne : columns ≠ [])
    (hcomma : ¬ (t0.type = TokenType.SYMBOL ∧ t0.value = ",")) :
    parseColumnsT (columnListTokens columns ++ t0 :: tail) =
      TResult.ok (ASTNode.mk "COLUMNS" (columns.map ASTNode.leaf)) (t0 :: tail) := by
  obtain ⟨c1, more, rfl⟩ := List.exists_cons_of_ne_nil hne
  have hloop := parseColumnsLoopT_of_columns (c1 :: more) (t0 :: tail) [] hne
    (by simpa using hcomma)
  have hX : ∃ X, columnListTokens (c1 :: more) ++ t0 :: tail = ⟨TokenType.IDENTIFIER, c1⟩ :: X := by
    cases more <;> simp [columnListTokens]
  obtain ⟨X, hX⟩ := hX
  rw [hX] at hloop ⊢
  simp only [parseColumnsT, tbind_apply, nextT_apply, List.headD_cons, List.tail_cons,
    tparserIte_apply, unreadT_apply, hloop]
  simp

/-- Every well-formed statement, followed by tokens that do not continue it,
is accepted by the parser on token lists with the tree of the statement. -/
theorem parseT_of_statement (s : Statement) (after : List Token) (hwf : s.wellFormed)
    (hend : s.endsBefore after) :
    (parseT (s.tokens ++ after)).outcome = Outcome.returned (some s.toAST) := by
  cases s with
  | create t cols =>
    have hloop := parseCreateLoopT_of_columns cols after [ASTNode.leaf t] hwf
    simp [Statement.tokens, parseT, parseCreateT, expectKeywordT_eq, parseIdentifierT_eq,
      expectSymbolT_eq, tparserIte_apply, hloop, Statement.toAST, TResult.outcome]
  | insert t vals =>
    have hloop := parseInsertLoopT_of_values vals after [] hwf.1 hwf.2
    simp [Statement.tokens, parseT, parseInsertT, expectKeywordT_eq, parseIdentifierT_eq,
      expectSymbolT_eq, tparserIte_apply, hloop, Statement.toAST, TResult.outcome]
  | update t as c =>
    have hloop := parseUpdateLoopT_of_assignments as
      (⟨TokenType.IDENTIFIER, c.column⟩ :: ⟨TokenType.SYMBOL, c.op⟩ :: c.value :: after) []
      hwf.1 hwf.2.1
    have hcond := (parseConditionT_ok_iff
      (⟨TokenType.IDENTIFIER, c.column⟩ :: ⟨TokenType.SYMBOL, c.op⟩ :: c.value :: after) after
      c.toAST).mpr ⟨c, hwf.2.2, rfl, rfl⟩
    simp [Statement.tokens, parseT, parseUpdateT, expectKeywordT_eq, parseIdentifierT_eq,
      tparserIte_apply, Condition.tokens, hloop, hcond, Statement.toAST, TResult.outcome]
  | delete t c =>
    cases c with
    | none =>
      have hw : ¬ ((after.head?.getD Token.eof).type = TokenType.KEYWORD ∧
          (after.head?.getD Token.eof).value = "WHERE") := by
        simpa [Statement.endsBefore, Token.isWhere] using hend
      simp [Statement.tokens, parseT, parseDeleteT, expectKeywordT_eq, parseIdentifierT_eq,
        tparserIte_apply, whereTokens, whereNodes, hw, Statement.toAST, TResult.outcome]
    | some c =>
      have hcond := (parseConditionT_ok_iff
        (⟨TokenType.IDENTIFIER, c.column⟩ :: ⟨TokenType.SYMBOL, c.op⟩ :: c.value :: after) after
        c.toAST).mpr ⟨c, hwf c rfl, rfl, rfl⟩
      simp [Statement.tokens, parseT, parseDeleteT, expectKeywordT_eq, parseIdentifierT_eq,
        tparserIte_apply, whereTokens, whereNodes, Condition.tokens, hcond, Statement.toAST,
        TResult.outcome]
  | selectAll t c =>
    cases c with
    | none =>
      have hw : ¬ ((after.head?.getD Token.eof).type = TokenType.KEYWORD ∧
          (after.head?.getD Token.eof).value = "WHERE") := by
        simpa [Statement.endsBefore, Token.isWhere] using hend
      simp [Statement.tokens, parseT, parseSelectT, parseColumnsT, expectKeywordT_eq,
        parseIdentifierT_eq, tparserIte_apply, whereTokens, whereNodes, hw, Statement.toAST,
        TResult.outcome]
    | some c =>
      have hcond := (parseConditionT_ok_iff
        (⟨TokenType.IDENTIFIER, c.column⟩ :: ⟨TokenType.SYMBOL, c.op⟩ :: c.value :: after) after
        c.toAST).mpr ⟨c, hwf c rfl, rfl, rfl⟩
      simp [Statement.tokens, parseT, parseSelectT, parseColumnsT, expectKeywordT_eq,
        parseIdentifierT_eq, tparserIte_apply, whereTokens, whereNodes, Condition.tokens, hcond,
        Statement.toAST, TResult.outcome]
  | select cols t c =>
    have hsel : ∃ rest, parseSelectT (columnListTokens cols ++
        ⟨TokenType.KEYWORD, "FROM"⟩ :: ⟨TokenType.IDENTIFIER, t⟩ :: (whereTokens c ++ after)) =
        TResult.ok (Statement.select cols t c).toAST rest := by
      have hcols := parseColumnsT_of_columns cols ⟨TokenType.KEYWORD, "FROM"⟩
        (⟨TokenType.IDENTIFIER, t⟩ :: (whereTokens c ++ after)) hwf.1 (by simp)
      simp only [parseSelectT, tbind_apply, hcols, expectKeywordT_eq, parseIdentifierT_eq,
        List.headD_cons, List.tail_cons, nextT_apply, tparserIte_apply]
      cases c with
      | none =>
        have hw : ¬ ((after.head?.getD Token.eof).type = TokenType.KEYWORD ∧
            (after.head?.getD Token.eof).value = "WHERE") := by
          simpa [Statement.endsBefore, Token.isWhere] using hend
        simp [whereTokens, whereNodes, hw, Statement.toAST]
      | some c =>
        have hcond := (parseConditionT_ok_iff
          (⟨TokenType.IDENTIFIER, c.column⟩ :: ⟨TokenType.SYMBOL, c.op⟩ :: c.value :: after)
          after c.toAST).mpr ⟨c, hwf.2 c rfl, rfl, rfl⟩
        simp [whereTokens, whereNodes, Condition.tokens, hcond, Statement.toAST]
    obtain ⟨rest, hsel⟩ := hsel
    simp only [Statement.tokens, List.cons_append, List.append_assoc, parseT, tbind_apply,
      nextT_apply, List.headD_cons, List.tail_cons, tparserIte_apply, hsel]
    simp [TResult.outcome]

/-! ## Lemmas on the flattening pass -/

theorem labelsAt_zero (type : String) (children : List ASTNode) :
    labelsAt 0 (ASTNode.mk type children) = [type] := by
  rw [labelsAt]

theorem labelsAt_succ (d : Nat) (type : String) (children : List ASTNode) :
    labelsAt (d + 1) (ASTNode.mk type children) = labelsAtList d children := by
  rw [labelsAt]

theorem labelsAtList_nil (d : Nat) : labelsAtList d [] = [] := by
  rw [labelsAtList]

theorem labelsAtList_cons (d : Nat) (child : ASTNode) (rest : List ASTNode) :
    labelsAtList d (child :: rest) = labelsAt d child ++ labelsAtList d rest := by
  rw [labelsAtList]

theorem printAST_step (type : String) (children : List ASTNode) (depth : Nat) (tree : DepthTree)
    (h : printASTChildren children (depth + 1) (tree.push depth type) =
      fun d => if depth + 1 ≤ d then (tree.push depth type) d ++ labelsAtList (d - (depth + 1)) children
        else (tree.push depth type) d) :
    printAST (ASTNode.mk type children) depth tree =
      fun d => if depth ≤ d then tree d ++ labelsAt (d - depth) (ASTNode.mk type children)
        else tree d := by
  rw [printAST, h]
  funext d
  by_cases h1 : depth + 1 ≤ d
  · have h2 : depth ≤ d := by omega
    have h3 : d ≠ depth := by omega
    have h4 : d - depth = (d - (depth + 1)) + 1 := by omega
    rw [if_pos h1, if_pos h2, h4, labelsAt_succ]
    simp [h3, DepthTree.push]
  · by_cases h2 : depth ≤ d
    · have h3 : d = depth := by omega
      subst h3
      rw [if_neg h1, if_pos h2, Nat.sub_self, labelsAt_zero]
      simp [DepthTree.push]
    · have h3 : d ≠ depth := by omega
      simp [h1, h2, h3, DepthTree.push]

theorem printASTChildren_step (child : ASTNode) (rest : List ASTNode) (depth : Nat)
    (tree : DepthTree)
    (h1 : printAST child depth tree =
      fun d => if depth ≤ d then tree d ++ labelsAt (d - depth) child else tree d)
    (h2 : printASTChildren rest depth (printAST child depth tree) =
      fun d => if depth ≤ d then (printAST child depth tree) d ++ labelsAtList (d - depth) rest
        else (printAST child depth tree) d) :
    printASTChildren (child :: rest) depth tree =
      fun d => if depth ≤ d then tree d ++ labelsAtList (d - depth) (child :: rest)
        else tree d := by
  rw [printASTChildren, h2, h1]
  funext d
  by_cases h : depth ≤ d <;> simp [h, labelsAtList_cons]

mutual
theorem printAST_eq : ∀ (node : ASTNode) (depth : Nat) (tree : DepthTree),
    printAST node depth tree =
      fun d => if depth ≤ d then tree d ++ labelsAt (d - depth) node else tree d
  | .mk type children, depth, tree =>
    printAST_step type children depth tree
      (printASTChildren_eq children (depth + 1) (tree.push depth type))
theorem printASTChildren_eq : ∀ (nodes : List ASTNode) (depth : Nat) (tree : DepthTree),
    printASTChildren nodes depth tree =
      fun d => if depth ≤ d then tree d ++ labelsAtList (d - depth) nodes else tree d
  | [], depth, tree => by
    rw [printASTChildren]
    funext d
    simp [labelsAtList_nil]
  | child :: rest, depth, tree =>
    printASTChildren_step child rest depth tree (printAST_eq child depth tree)
      (printASTChildren_eq rest depth (printAST child depth tree))
end

/-- The tree that `SQL_Parser` walks holds, at each depth, the labels of the
nodes of that depth. -/
theorem printAST_root (node : ASTNode) (d : Nat) :
    printAST node 0 DepthTree.empty d = labelsAt d node := by
  rw [printAST_eq]
  simp [DepthTree.empty]

theorem labelsAtList_zero (nodes : List ASTNode) :
    labelsAtList 0 nodes = nodes.map ASTNode.type := by
  induction nodes with
  | nil => simp [labelsAtList_nil]
  | cons n ns ih =>
    cases n
    simp [labelsAtList_cons, labelsAt_zero, ih, ASTNode.type]

theorem labelsAtList_append (d : Nat) (xs ys : List ASTNode) :
    labelsAtList d (xs ++ ys) = labelsAtList d xs ++ labelsAtList d ys := by
  induction xs with
  | nil => simp [labelsAtList_nil]
  | cons n ns ih => simp [labelsAtList_cons, ih]

theorem labelsAtList_leaves (d : Nat) (labels : List String) :
    labelsAtList (d + 1) (labels.map ASTNode.leaf) = [] := by
  induction labels with
  | nil => simp [labelsAtList_nil]
  | cons n ns ih =>
    simp only [List.map_cons, labelsAtList_cons, ih, ASTNode.leaf, labelsAt_succ, labelsAtList_nil,
      List.append_nil]

theorem readAt_of_drop {v : List String} {j : Nat} {x : String} {rest : List String}
    (h : v.drop j = x :: rest) : readAt v j = Walk.ok x := by
  have h1 : (v.drop j)[0]? = some x := by rw [h]; simp
  rw [List.getElem?_drop] at h1
  simp only [Nat.add_zero] at h1
  simp [readAt, h1]

theorem drop_succ_of_drop {v : List String} {j : Nat} {x : String} {rest : List String}
    (h : v.drop j = x :: rest) : v.drop (j + 1) = rest := by
  have h1 : v.drop (j + 1) = (v.drop j).drop 1 := by
    rw [List.drop_drop, Nat.add_comm]
  rw [h1, h]
  rfl

theorem readAt_of_drop_nil {v : List String} {j : Nat} (h : v.drop j = []) :
    readAt v j = Walk.pastEnd := by
  have h1 : v.length ≤ j := List.drop_eq_nil_iff.mp h
  have h2 : v[j]? = none := List.getElem?_eq_none h1
  simp [readAt, h2]

theorem walk_bind_ok {α β : Type} (a : α) (f : α → Walk β) : (Walk.ok a >>= f) = f a := rfl

theorem walk_pure {α : Type} (a : α) : (pure a : Walk α) = Walk.ok a := rfl

theorem walk_bind_pastEnd {α β : Type} (f : α → Walk β) :
    ((Walk.pastEnd : Walk α) >>= f) = Walk.pastEnd := rfl

/-- The column run of lines 524-529 started before the labels `columns`,
which the three labels of a condition follow, stops right after them. -/
theorem columnsRun_stops (tree2 : List String) (c op v : String) (tail : List String)
    (hop : isComparison op = true) (hc : isComparison c = false) :
    ∀ (columns : List String) (budget j : Nat) (out : List String),
      tree2.drop j = columns ++ c :: op :: v :: tail →
      (∀ x ∈ columns, isComparison x = false) →
      columns.length < budget →
      columnsRun tree2 budget j out = Walk.ok (j + columns.length, out ++ columns) := by
  intro columns
  induction columns with
  | nil =>
    intro budget j out hdrop _ hb
    obtain ⟨b, rfl⟩ : ∃ b, budget = b + 1 := ⟨budget - 1, by simp at hb; omega⟩
    have h1 := drop_succ_of_drop hdrop
    simp [columnsRun, readAt_of_drop h1, walk_bind_ok, hop, walk_pure]
  | cons x xs ih =>
    intro budget j out hdrop hcols hb
    obtain ⟨b, rfl⟩ : ∃ b, budget = b + 1 := ⟨budget - 1, by simp at hb; omega⟩
    have h1 : tree2.drop (j + 1) = xs ++ c :: op :: v :: tail := drop_succ_of_drop hdrop
    have hx : readAt tree2 j = Walk.ok x := readAt_of_drop hdrop
    have hnext : ∃ y rest, tree2.drop (j + 1) = y :: rest ∧ isComparison y = false := by
      cases xs with
      | nil => exact ⟨c, _, h1, hc⟩
      | cons y ys => exact ⟨y, _, h1, hcols y (by simp)⟩
    obtain ⟨y, rest, hy, hyc⟩ := hnext
    have hrec := ih b (j + 1) (out ++ [x]) h1 (fun z hz => hcols z (by simp [hz]))
      (by simp at hb; omega)
    simp only [columnsRun, readAt_of_drop hy, walk_bind_ok, hyc, hx, hrec]
    simp [Nat.add_assoc, Nat.add_comm 1]

/-- The column run of lines 524-529 started before labels that no comparison
operator follows reads `tree[2]` past its end. -/
theorem columnsRun_pastEnd (tree2 : List String) :
    ∀ (columns : List String) (budget j : Nat) (out : List String),
      tree2.drop j = columns →
      (∀ x ∈ columns, isComparison x = false) →
      columns.length < budget →
      columnsRun tree2 budget j out = Walk.pastEnd := by
  intro columns
  induction columns with
  | nil =>
    intro budget j out hdrop _ hb
    obtain ⟨b, rfl⟩ : ∃ b, budget = b + 1 := ⟨budget - 1, by simp at hb; omega⟩
    have h1 : tree2.drop (j + 1) = [] := by
      have : tree2.length ≤ j := List.drop_eq_nil_iff.mp hdrop
      exact List.drop_eq_nil_iff.mpr (by omega)
    simp [columnsRun, readAt_of_drop_nil h1, walk_bind_pastEnd]
  | cons x xs ih =>
    intro budget j out hdrop hcols hb
    obtain ⟨b, rfl⟩ : ∃ b, budget = b + 1 := ⟨budget - 1, by simp at hb; omega⟩
    have h1 : tree2.drop (j + 1) = xs := drop_succ_of_drop hdrop
    have hx : readAt tree2 j = Walk.ok x := readAt_of_drop hdrop
    have hrec := ih b (j + 1) (out ++ [x]) h1 (fun z hz => hcols z (by simp [hz]))
      (by simp at hb; omega)
    cases xs with
    | nil =>
      simp [columnsRun, readAt_of_drop_nil h1, walk_bind_pastEnd]
    | cons y ys =>
      have hyc : isComparison y = false := hcols y (by simp)
      simp only [columnsRun, readAt_of_drop h1, walk_bind_ok, hyc, hx, hrec]
      simp

theorem labelsAtList_updateFields_zero (assignments : List (String × Token)) :
    labelsAtList 0 (assignments.map updateFieldNode) = assignments.map (fun _ => "UPDATE_FIELD") := by
  rw [labelsAtList_zero]
  simp [updateFieldNode, ASTNode.type, Function.comp_def]

theorem labelsAtList_updateFields_one (a : String × Token) (rest : List (String × Token)) :
    labelsAtList 1 ((a :: rest).map updateFieldNode) =
      a.1 :: a.2.value :: labelsAtList 1 (rest.map updateFieldNode) := by
  simp only [List.map_cons, labelsAtList_cons, updateFieldNode, labelsAt_succ, ASTNode.leaf,
    labelsAt_zero, labelsAtList_nil]
  rfl

/-- The loop of lines 555-560 started before the `UPDATE_FIELD` labels of the
assignments, which a label other than `UPDATE_FIELD` follows, pairs every
assignment. -/
theorem updatesRun_pairs (tree2 tree3 : List String) (c : String) (tail : List String)
    (hc : c ≠ "UPDATE_FIELD") :
    ∀ (assignments : List (String × Token)) (budget j k : Nat) (out : List String),
      tree2.drop j = assignments.map (fun _ => "UPDATE_FIELD") ++ c :: tail →
      tree3.drop k = labelsAtList 1 (assignments.map updateFieldNode) →
      assignments.length < budget →
      updatesRun tree2 tree3 budget j k out =
        Walk.ok (j + assignments.length, k + 2 * assignments.length,
          out ++ assignments.map (fun a => a.1 ++ "-" ++ a.2.value)) := by
  intro assignments
  induction assignments with
  | nil =>
    intro budget j k out h2 _ hb
    obtain ⟨b, rfl⟩ : ∃ b, budget = b + 1 := ⟨budget - 1, by simp at hb; omega⟩
    simp only [List.map_nil, List.nil_append] at h2
    simp [updatesRun, readAt_of_drop h2, walk_bind_ok, hc, walk_pure]
  | cons a rest ih =>
    intro budget j k out h2 h3 hb
    obtain ⟨b, rfl⟩ : ∃ b, budget = b + 1 := ⟨budget - 1, by simp at hb; omega⟩
    simp only [List.map_cons, List.cons_append] at h2
    rw [labelsAtList_updateFields_one] at h3
    have h2n := drop_succ_of_drop h2
    have h3a := drop_succ_of_drop h3
    have h3b := drop_succ_of_drop h3a
    have hrec := ih b (j + 1) (k + 2) (out ++ [a.1 ++ "-" ++ a.2.value]) h2n h3b
      (by simp at hb; omega)
    simp only [updatesRun, readAt_of_drop h2, walk_bind_ok, if_true, readAt_of_drop h3,
      readAt_of_drop h3a, hrec]
    simp [Nat.add_assoc, Nat.add_comm 1, Nat.mul_add]
    omega

theorem isComparison_of_mem {op : String} (h : op ∈ comparisonOperators) :
    isComparison op = true := by
  simp only [comparisonOperators, List.mem_cons, List.mem_singleton, List.not_mem_nil,
    or_false] at h
  rcases h with rfl | rfl | rfl | rfl | rfl | rfl <;> decide

theorem labelsAt_zero_toAST (s : Statement) : labelsAt 0 s.toAST = [s.keyword] := by
  cases s <;> simp [Statement.toAST, labelsAt_zero, Statement.keyword]

theorem labelsAt_condition_zero (c : Condition) : labelsAt 0 c.toAST = ["CONDITION"] := by
  simp [Condition.toAST, labelsAt_zero]

theorem labelsAt_condition_one (c : Condition) :
    labelsAt 1 c.toAST = [c.column, c.op, c.value.value] := by
  simp [Condition.toAST, labelsAt_succ, labelsAtList_cons, labelsAtList_nil, labelsAt_zero,
    ASTNode.leaf]

theorem labelsAt_leaf_zero (label : String) : labelsAt 0 (ASTNode.leaf label) = [label] := by
  simp [ASTNode.leaf, labelsAt_zero]

theorem labelsAt_leaf_succ (d : Nat) (label : String) : labelsAt (d + 1) (ASTNode.leaf label) = [] := by
  simp [ASTNode.leaf, labelsAt_succ, labelsAtList_nil]

theorem labelsAtList_leaves_zero (labels : List String) :
    labelsAtList 0 (labels.map ASTNode.leaf) = labels := by
  rw [labelsAtList_zero]
  simp [ASTNode.leaf, ASTNode.type, Function.comp_def]

/-- The header that lines 497-511 read from the tree of a statement. -/
theorem readHeader_toAST (s : Statement) :
    readHeader (printAST s.toAST 0 DepthTree.empty) =
      Walk.ok (s.keyword, s.table, if s.keyword = "SELECT" then 0 else 1) := by
  cases s <;>
    simp [readHeader, printAST_root, Statement.toAST, labelsAt_zero, labelsAt_succ,
      labelsAtList_cons, labelsAt_leaf_zero, readAt, walk_bind_ok, walk_pure,
      Statement.keyword, Statement.table]

theorem readAt_cons_zero (x : String) (v : List String) : readAt (x :: v) 0 = Walk.ok x := by
  simp [readAt]

theorem readAt_cons_succ (x : String) (v : List String) (n : Nat) :
    readAt (x :: v) (n + 1) = readAt v n := by
  simp [readAt]

theorem walkEntry_other (tree : DepthTree) (label : String) (s : WalkState)
    (h : label ∉ ["COLUMNS", "CONDITION", "COLUMN", "VALUES", "UPDATES"]) :
    walkEntry tree label s = Walk.ok s := by
  simp only [List.mem_cons, List.mem_singleton, List.not_mem_nil, or_false, not_or] at h
  obtain ⟨h1, h2, h3, h4, h5⟩ := h
  simp [walkEntry, h1, h2, h3, h4, h5, walk_pure]

/-- The walk of lines 513-564 over the tree of `INSERT INTO t VALUES (...)`. -/
theorem extract_insert (t : String) (values : List Token) :
    extract (printAST (Statement.insert t values).toAST 0 DepthTree.empty) =
      Walk.ok { sql_type := "INSERT", table_name := t,
                results := { Results.empty with VALUES := values.map Token.value } } := by
  have h1 : printAST (Statement.insert t values).toAST 0 DepthTree.empty 1 = [t, "VALUES"] := by
    simp [printAST_root, Statement.toAST, labelsAt_succ, labelsAtList_cons, labelsAt_leaf_zero,
      labelsAt_zero, labelsAtList_nil]
  have h2 : printAST (Statement.insert t values).toAST 0 DepthTree.empty 2 =
      values.map Token.value := by
    have := labelsAtList_leaves_zero (values.map Token.value)
    simp only [List.map_map] at this
    simp [printAST_root, Statement.toAST, labelsAt_succ, labelsAtList_cons, labelsAt_leaf_succ,
      labelsAtList_nil, Function.comp_def] at this ⊢
    exact this
  simp [extract, readHeader_toAST, Statement.keyword, Statement.table, walk_bind_ok, h1,
    walkLoop, readAt, walkEntry, h2, walk_pure, Results.empty]

/-- The walk of lines 513-564 over the tree of `DELETE FROM t WHERE c op v`. -/
theorem extract_delete_where (t : String) (c : Condition) (hc : c.wellFormed) :
    extract (printAST (Statement.delete t (some c)).toAST 0 DepthTree.empty) =
      Walk.ok { sql_type := "DELETE", table_name := t,
                results := { Results.empty with CONDITION := [c.joined] } } := by
  have hop := isComparison_of_mem hc.1
  have h1 : printAST (Statement.delete t (some c)).toAST 0 DepthTree.empty 1 =
      [t, "CONDITION"] := by
    simp [printAST_root, Statement.toAST, labelsAt_succ, labelsAtList_cons, labelsAt_leaf_zero,
      labelsAtList_nil, whereNodes, labelsAt_condition_zero]
  have h2 : printAST (Statement.delete t (some c)).toAST 0 DepthTree.empty 2 =
      [c.column, c.op, c.value.value] := by
    simp [printAST_root, Statement.toAST, labelsAt_succ, labelsAtList_cons, labelsAt_leaf_succ,
      labelsAtList_nil, whereNodes, labelsAt_condition_one]
  simp [extract, readHeader_toAST, Statement.keyword, Statement.table, walk_bind_ok, h1,
    walkLoop, readAt, walkEntry, h2, walk_pure, Results.empty, hop, Condition.joined]

/-- The walk of lines 513-564 over the tree of `SELECT * FROM t WHERE c op v`
when `t` is not spelled like a label that the walk branches on. -/
theorem extract_selectAll_where (t : String) (c : Condition) (hc : c.wellFormed)
    (ht : t ∉ ["COLUMNS", "CONDITION", "COLUMN", "VALUES", "UPDATES"]) :
    extract (printAST (Statement.selectAll t (some c)).toAST 0 DepthTree.empty) =
      Walk.ok { sql_type := "SELECT", table_name := t,
                results := { Results.empty with ALL_COLUMNS := ["*"], CONDITION := [c.joined] } } := by
  have hop := isComparison_of_mem hc.1
  have h1 : printAST (Statement.selectAll t (some c)).toAST 0 DepthTree.empty 1 =
      ["COLUMNS", t, "CONDITION"] := by
    simp [printAST_root, Statement.toAST, labelsAt_succ, labelsAtList_cons, labelsAt_leaf_zero,
      labelsAtList_nil, whereNodes, labelsAt_condition_zero, labelsAt_zero]
  have h2 : printAST (Statement.selectAll t (some c)).toAST 0 DepthTree.empty 2 =
      ["ALL_COLUMNS", c.column, c.op, c.value.value] := by
    simp [printAST_root, Statement.toAST, labelsAt_succ, labelsAtList_cons, labelsAt_leaf_succ,
      labelsAtList_nil, whereNodes, labelsAt_condition_one, labelsAt_leaf_zero]
  simp only [extract, readHeader_toAST, Statement.keyword, Statement.table, walk_bind_ok, h1,
    walkLoop, if_true, List.length_cons, List.length_nil]
  simp [readAt, walk_bind_ok, walkEntry_other _ t _ ht]
  simp [walkEntry, h2, readAt, walk_bind_ok, walk_pure, Results.empty, hop, Condition.joined]

theorem walkLoop_step (tree : DepthTree) (budget i : Nat) (s s1 : WalkState) (label : String)
    (tail : List String) (hi : (tree 1).drop i = label :: tail)
    (he : walkEntry tree label s = Walk.ok s1) :
    walkLoop tree (budget + 1) i s = walkLoop tree budget (i + 1) s1 := by
  have hlt : i < (tree 1).length := by
    by_contra hge
    have : (tree 1).drop i = [] := List.drop_eq_nil_iff.mpr (by omega)
    rw [this] at hi
    cases hi
  simp [walkLoop, hlt, readAt_of_drop hi, walk_bind_ok, he]

theorem walkLoop_done (tree : DepthTree) (budget i : Nat) (s : WalkState)
    (hi : (tree 1).length ≤ i) :
    walkLoop tree (budget + 1) i s = Walk.ok s := by
  have hlt : ¬ i < (tree 1).length := by omega
  simp [walkLoop, hlt, walk_pure]

/-- The `CONDITION` branch of lines 532-542 with the cursor `j` before the
three labels of a condition. -/
theorem walkEntry_condition (tree : DepthTree) (s : WalkState) (c op v : String)
    (tail : List String) (hop : isComparison op = true)
    (h2 : (tree 2).drop s.j = c :: op :: v :: tail) :
    walkEntry tree "CONDITION" s =
      Walk.ok { s with j := s.j + 3,
                       results := { s.results with
                         CONDITION := s.results.CONDITION ++ [c ++ op ++ v] } } := by
  have hlt : s.j + 1 < (tree 2).length := by
    by_contra hge
    have : (tree 2).drop (s.j + 1) = [] := List.drop_eq_nil_iff.mpr (by omega)
    rw [drop_succ_of_drop h2] at this
    cases this
  have hr0 := readAt_of_drop h2
  have hr1 := readAt_of_drop (drop_succ_of_drop h2)
  have hr2 := readAt_of_drop (drop_succ_of_drop (drop_succ_of_drop h2))
  simp [walkEntry, hlt, hr0, hr1, hr2, walk_bind_ok, walk_pure, hop]

/-- The `COLUMNS` branch of lines 515-531 on an explicit column list that a
condition follows. -/
theorem walkEntry_columns (tree : DepthTree) (s : WalkState) (columns : List String)
    (c op v : String) (tail : List String) (hne : columns ≠ [])
    (hop : isComparison op = true) (hc : isComparison c = false)
    (hcols : ∀ x ∈ columns, isComparison x = false)
    (hfirst : columns.head? ≠ some "ALL_COLUMNS")
    (h2 : (tree 2).drop s.j = columns ++ c :: op :: v :: tail) :
    walkEntry tree "COLUMNS" s =
      Walk.ok { s with j := s.j + columns.length,
                       results := { s.results with
                         ALL_COLUMNS := s.results.ALL_COLUMNS ++ columns } } := by
  have hrun := columnsRun_stops (tree 2) c op v tail hop hc columns ((tree 2).length + 1) s.j
    s.results.ALL_COLUMNS h2 hcols (by
      have h := congrArg List.length h2
      simp at h
      omega)
  obtain ⟨c1, more, rfl⟩ := List.exists_cons_of_ne_nil hne
  have hc1 : c1 ≠ "ALL_COLUMNS" := by simpa using hfirst
  have hr0 : readAt (tree 2) s.j = Walk.ok c1 := readAt_of_drop h2
  simp [walkEntry, hr0, walk_bind_ok, hc1, hrun, walk_pure]

/-- The walk of lines 513-564 over the tree of
`SELECT c1, ..., ck FROM t WHERE c op v` when no name is spelled like a
comparison operator, the first column is not spelled `ALL_COLUMNS` and `t` is
not spelled like a label that the walk branches on. -/
theorem extract_select_where (columns : List String) (t : String) (c : Condition)
    (hne : columns ≠ []) (hc : c.wellFormed)
    (hcols : ∀ x ∈ columns, isComparison x = false) (hcc : isComparison c.column = false)
    (hfirst : columns.head? ≠ some "ALL_COLUMNS")
    (ht : t ∉ ["COLUMNS", "CONDITION", "COLUMN", "VALUES", "UPDATES"]) :
    extract (printAST (Statement.select columns t (some c)).toAST 0 DepthTree.empty) =
      Walk.ok { sql_type := "SELECT", table_name := t,
                results := { Results.empty with ALL_COLUMNS := columns,
                                                CONDITION := [c.joined] } } := by
  have hop := isComparison_of_mem hc.1
  have h1 : printAST (Statement.select columns t (some c)).toAST 0 DepthTree.empty 1 =
      ["COLUMNS", t, "CONDITION"] := by
    simp [printAST_root, Statement.toAST, labelsAt_succ, labelsAtList_cons, labelsAt_leaf_zero,
      labelsAtList_nil, whereNodes, labelsAt_condition_zero, labelsAt_zero]
  have h2 : printAST (Statement.select columns t (some c)).toAST 0 DepthTree.empty 2 =
      columns ++ [c.column, c.op, c.value.value] := by
    simp [printAST_root, Statement.toAST, labelsAt_succ, labelsAtList_cons, labelsAt_leaf_succ,
      labelsAtList_nil, whereNodes, labelsAt_condition_one, labelsAtList_leaves_zero]
  have hh := readHeader_toAST (Statement.select columns t (some c))
  generalize printAST (Statement.select columns t (some c)).toAST 0 DepthTree.empty = tree
    at h1 h2 hh ⊢
  have he0 := walkEntry_columns tree { j := 0, k := 0, results := Results.empty } columns
    c.column c.op c.value.value [] hne hop hcc hcols hfirst (by simp [h2])
  have he2 := walkEntry_condition tree
    { j := 0 + columns.length, k := 0,
      results := { Results.empty with ALL_COLUMNS := Results.empty.ALL_COLUMNS ++ columns } }
    c.column c.op c.value.value [] hop (by simp [h2])
  have hlen : (tree 1).length + 1 = 0 + 1 + 1 + 1 + 1 := by simp [h1]
  simp only [extract, hh, walk_bind_ok, Statement.keyword, Statement.table, if_true, hlen]
  rw [walkLoop_step tree _ 0 _ _ "COLUMNS" [t, "CONDITION"] (by simp [h1]) he0,
    walkLoop_step tree _ (0 + 1) _ _ t ["CONDITION"] (by simp [h1]) (walkEntry_other _ t _ ht),
    walkLoop_step tree _ (0 + 1 + 1) _ _ "CONDITION" [] (by simp [h1]) he2,
    walkLoop_done tree _ _ _ (by simp [h1])]
  simp [walk_pure, Results.empty, Condition.joined]
  rfl

/-- The `UPDATES` branch of lines 553-561 with the cursors before the labels
of the assignments. -/
theorem walkEntry_updates (tree : DepthTree) (s : WalkState) (assignments : List (String × Token))
    (c : String) (tail : List String) (hc : c ≠ "UPDATE_FIELD")
    (h2 : (tree 2).drop s.j = assignments.map (fun _ => "UPDATE_FIELD") ++ c :: tail)
    (h3 : (tree 3).drop s.k = labelsAtList 1 (assignments.map updateFieldNode)) :
    walkEntry tree "UPDATES" s =
      Walk.ok { s with j := s.j + assignments.length, k := s.k + 2 * assignments.length,
                       results := { s.results with
                         UPDATE_FIELD := s.results.UPDATE_FIELD ++
                           assignments.map (fun a => a.1 ++ "-" ++ a.2.value) } } := by
  have hrun := updatesRun_pairs (tree 2) (tree 3) c tail hc assignments ((tree 2).length + 1)
    s.j s.k s.results.UPDATE_FIELD h2 h3 (by
      have h := congrArg List.length h2
      simp at h
      omega)
  simp [walkEntry, hrun, walk_bind_ok, walk_pure]

theorem labelsAt_condition_two (c : Condition) : labelsAt 2 c.toAST = [] := by
  simp [Condition.toAST, labelsAt_succ, labelsAtList_cons, labelsAtList_nil, labelsAt_leaf_succ]

/-- The walk of lines 513-564 over the tree of
`UPDATE t SET c1 = v1, ..., ck = vk WHERE c op v` when `c` is not spelled
`UPDATE_FIELD`. -/
theorem extract_update (t : String) (assignments : List (String × Token)) (c : Condition)
    (hc : c.wellFormed) (hcc : c.column ≠ "UPDATE_FIELD") :
    extract (printAST (Statement.update t assignments c).toAST 0 DepthTree.empty) =
      Walk.ok { sql_type := "UPDATE", table_name := t,
                results := { Results.empty with
                  UPDATE_FIELD := assignments.map (fun a => a.1 ++ "-" ++ a.2.value),
                  CONDITION := [c.joined] } } := by
  have hop := isComparison_of_mem hc.1
  have h1 : printAST (Statement.update t assignments c).toAST 0 DepthTree.empty 1 =
      [t, "UPDATES", "CONDITION"] := by
    simp [printAST_root, Statement.toAST, labelsAt_succ, labelsAtList_cons, labelsAt_leaf_zero,
      labelsAtList_nil, labelsAt_condition_zero, labelsAt_zero]
  have h2 : printAST (Statement.update t assignments c).toAST 0 DepthTree.empty 2 =
      assignments.map (fun _ => "UPDATE_FIELD") ++ [c.column, c.op, c.value.value] := by
    simp [printAST_root, Statement.toAST, labelsAt_succ, labelsAtList_cons, labelsAt_leaf_succ,
      labelsAtList_nil, labelsAt_condition_one, labelsAtList_updateFields_zero]
  have h3 : printAST (Statement.update t assignments c).toAST 0 DepthTree.empty 3 =
      labelsAtList 1 (assignments.map updateFieldNode) := by
    simp [printAST_root, Statement.toAST, labelsAt_succ, labelsAtList_cons, labelsAt_leaf_succ,
      labelsAtList_nil, labelsAt_condition_two]
  have hh := readHeader_toAST (Statement.update t assignments c)
  generalize printAST (Statement.update t assignments c).toAST 0 DepthTree.empty = tree
    at h1 h2 h3 hh ⊢
  have he1 := walkEntry_updates tree { j := 0, k := 0, results := Results.empty } assignments
    c.column [c.op, c.value.value] hcc (by simp [h2]) (by simp [h3])
  have he2 := walkEntry_condition tree
    { j := 0 + assignments.length, k := 0 + 2 * assignments.length,
      results := { Results.empty with
        UPDATE_FIELD := Results.empty.UPDATE_FIELD ++
          assignments.map (fun a => a.1 ++ "-" ++ a.2.value) } }
    c.column c.op c.value.value [] hop (by
      have := List.drop_left (assignments.map (fun _ => "UPDATE_FIELD"))
        [c.column, c.op, c.value.value]
      simp [h2])
  have hlen : (tree 1).length + 1 = 0 + 1 + 1 + 1 + 1 := by simp [h1]
  have hkw : ¬ ("UPDATE" = "SELECT") := by decide
  simp only [extract, hh, walk_bind_ok, Statement.keyword, Statement.table, hkw, if_false, hlen]
  rw [walkLoop_step tree _ 1 _ _ "UPDATES" ["CONDITION"] (by simp [h1]) he1,
    walkLoop_step tree _ (1 + 1) _ _ "CONDITION" [] (by simp [h1]) he2,
    walkLoop_done tree _ _ _ (by simp [h1])]
  simp [walk_pure, Results.empty, Condition.joined]
  rfl

/-- The walk of lines 513-564 over the tree of `SELECT c1, ..., ck FROM t`:
the column run of lines 524-529 reads `tree[2]` past its end. -/
theorem extract_select_pastEnd (columns : List String) (t : String)
    (hne : columns ≠ []) (hcols : ∀ x ∈ columns, isComparison x = false)
    (hfirst : columns.head? ≠ some "ALL_COLUMNS") :
    extract (printAST (Statement.select columns t none).toAST 0 DepthTree.empty) =
      Walk.pastEnd := by
  have h1 : printAST (Statement.select columns t none).toAST 0 DepthTree.empty 1 =
      ["COLUMNS", t] := by
    simp [printAST_root, Statement.toAST, labelsAt_succ, labelsAtList_cons, labelsAt_leaf_zero,
      labelsAtList_nil, whereNodes, labelsAt_zero]
  have h2 : printAST (Statement.select columns t none).toAST 0 DepthTree.empty 2 = columns := by
    simp [printAST_root, Statement.toAST, labelsAt_succ, labelsAtList_cons, labelsAt_leaf_succ,
      labelsAtList_nil, whereNodes, labelsAtList_leaves_zero]
  have hh := readHeader_toAST (Statement.select columns t none)
  generalize printAST (Statement.select columns t none).toAST 0 DepthTree.empty = tree
    at h1 h2 hh ⊢
  have hrun := columnsRun_pastEnd (tree 2) columns ((tree 2).length + 1) 0 [] (by simp [h2])
    hcols (by simp [h2])
  obtain ⟨c1, more, rfl⟩ := List.exists_cons_of_ne_nil hne
  have hc1 : c1 ≠ "ALL_COLUMNS" := by simpa using hfirst
  have hr0 : readAt (tree 2) 0 = Walk.ok c1 :=
    @readAt_of_drop (tree 2) 0 c1 more (by simp [h2])
  have he0 : walkEntry tree "COLUMNS" { j := 0, k := 0, results := Results.empty } =
      Walk.pastEnd := by
    simp [walkEntry, hr0, walk_bind_ok, hc1, Results.empty, hrun, walk_bind_pastEnd]
  have hr1 : readAt (tree 1) 0 = Walk.ok "COLUMNS" :=
    @readAt_of_drop (tree 1) 0 "COLUMNS" [t] (by simp [h1])
  have hlen : (tree 1).length + 1 = 0 + 1 + 1 + 1 := by simp [h1]
  have hlt : 0 < (tree 1).length := by simp [h1]
  simp only [extract, hh, walk_bind_ok, Statement.keyword, Statement.table, if_true, hlen,
    walkLoop, hlt, hr1, he0, walk_bind_pastEnd]

/-! ## Identifier tokens -/

theorem scanToken_identifier (cs : List Char) (h : (scanToken cs).1.type = TokenType.IDENTIFIER) :
    (scanToken cs).1.value ∉ keywords ∧
      ∃ c w, isalpha c = true ∧ (scanToken cs).1.value = String.mk (c :: w) := by
  cases cs with
  | nil => simp [scanToken] at h
  | cons c cs =>
    simp only [scanToken] at h ⊢
    split at h
    · rename_i ha
      split at h
      · simp at h
      · rename_i hk
        rw [if_pos ha, if_neg hk]
        refine ⟨hk, c, collectWhile isWordChar cs, ha, ?_⟩
        simp [collectWhile, isalpha_isWordChar ha]
    · exfalso
      split at h
      · simp at h
      · split at h
        · simp at h
        · split at h
          · split at h <;> simp at h
          · simp at h

theorem isComparison_of_alpha (c : Char) (w : List Char) (h : isalpha c = true) :
    isComparison (String.mk (c :: w)) = false := by
  have hne : ∀ d : Char, isalpha d = false → String.mk (c :: w) ≠ String.mk [d] ∧
      ∀ e : Char, String.mk (c :: w) ≠ String.mk [d, e] := by
    intro d hd
    constructor
    · intro he
      have := congrArg String.data he
      simp at this
      rw [this.1, hd] at h
      cases h
    · intro e he
      have := congrArg String.data he
      simp at this
      rw [this.1, hd] at h
      cases h
  have h1 := (hne '>' (by decide)).1
  have h2 := (hne '<' (by decide)).1
  have h3 := (hne '=' (by decide)).1
  have h4 := (hne '>' (by decide)).2 '='
  have h5 := (hne '<' (by decide)).2 '='
  have h6 := (hne '!' (by decide)).2 '='
  have e1 : String.mk ['>'] = ">" := rfl
  have e2 : String.mk ['<'] = "<" := rfl
  have e3 : String.mk ['='] = "=" := rfl
  have e4 : String.mk ['>', '='] = ">=" := rfl
  have e5 : String.mk ['<', '='] = "<=" := rfl
  have e6 : String.mk ['!', '='] = "!=" := rfl
  rw [e1] at h1; rw [e2] at h2; rw [e3] at h3; rw [e4] at h4; rw [e5] at h5; rw [e6] at h6
  simp [isComparison, h1, h2, h3, h4, h5, h6]

theorem tokensFrom_mem (n : Nat) (cs : List Char) (tok : Token) (h : tok ∈ tokensFrom n cs) :
    ∃ cs1, tok = (readToken cs1).1 := by
  induction n generalizing cs with
  | zero => simp [tokensFrom] at h
  | succ n ih =>
    simp only [tokensFrom] at h
    split at h
    · simp at h
    · rcases List.mem_cons.mp h with h1 | h1
      · exact ⟨cs, h1⟩
      · exact ih _ h1

/-- An identifier token of a text is not a keyword and is not spelled like a
comparison operator. -/
theorem tokens_identifier (input : String) (v : String)
    (h : ⟨TokenType.IDENTIFIER, v⟩ ∈ tokens input) :
    v ∉ keywords ∧ isComparison v = false := by
  obtain ⟨cs1, h1⟩ := tokensFrom_mem _ _ _ h
  have h2 : (scanToken (cs1.drop (collectWhile isspace cs1).length)).1 =
      ⟨TokenType.IDENTIFIER, v⟩ := by
    rw [h1]; rfl
  have h3 := scanToken_identifier (cs1.drop (collectWhile isspace cs1).length) (by rw [h2])
  rw [h2] at h3
  obtain ⟨hk, c, w, hc, hv⟩ := h3
  simp only at hk hv
  exact ⟨hk, by rw [hv]; exact isComparison_of_alpha c w hc⟩

/-! ## From a statement text to the outcome of `SQL_Parser` -/

/-- On a text whose tokens begin with a well-formed statement, `SQL_Parser`
walks the tree of that statement. -/
theorem SQL_Parser_of_statement (p : Parser) (input : String) (s : Statement) (rest : List Token)
    (hpb : p.hasPutBack = false) (htok : tokens input = s.tokens ++ rest)
    (hwf : s.wellFormed) (hend : s.endsBefore rest) :
    SQL_Parser p input = (extract (printAST s.toAST 0 DepthTree.empty)).toExtraction := by
  have h := parse_eq_parseTokens p input hpb
  rw [parseTokens, htok, parseT_of_statement s rest hwf hend] at h
  unfold SQL_Parser
  cases hp : p.parse input with
  | ok a lx =>
    rw [hp] at h
    simp only [Result.outcome, Outcome.returned.injEq] at h
    subst h
    rfl
  | error e lx =>
    rw [hp] at h
    simp [Result.outcome] at h
  | exhausted lx =>
    rw [hp] at h
    simp [Result.outcome] at h

theorem columnDefTokens_mem (columns : List (String × String)) (col : String × String)
    (h : col ∈ columns) :
    ⟨TokenType.IDENTIFIER, col.1⟩ ∈ columnDefTokens columns ∧
      ⟨TokenType.IDENTIFIER, col.2⟩ ∈ columnDefTokens columns := by
  induction columns with
  | nil => cases h
  | cons a more ih =>
    cases more with
    | nil =>
      have : col = a := by simpa using h
      subst this
      simp [columnDefTokens]
    | cons a2 more2 =>
      obtain ⟨n, ty⟩ := a
      rw [columnDefTokens_cons_cons]
      rcases List.mem_cons.mp h with h1 | h1
      · subst h1
        simp
      · have := ih h1
        simp [this.1, this.2]

theorem columnListTokens_mem (columns : List String) (col : String) (h : col ∈ columns) :
    ⟨TokenType.IDENTIFIER, col⟩ ∈ columnListTokens columns := by
  induction columns with
  | nil => cases h
  | cons a more ih =>
    cases more with
    | nil =>
      have : col = a := by simpa using h
      subst this
      simp [columnListTokens]
    | cons a2 more2 =>
      rw [columnListTokens_cons_cons]
      rcases List.mem_cons.mp h with h1 | h1
      · subst h1
        simp
      · have := ih h1
        simp [this]

theorem assignmentTokens_mem (assignments : List (String × Token)) (a : String × Token)
    (h : a ∈ assignments) :
    ⟨TokenType.IDENTIFIER, a.1⟩ ∈ assignmentTokens assignments := by
  induction assignments with
  | nil => cases h
  | cons b more ih =>
    cases more with
    | nil =>
      have : a = b := by simpa using h
      subst this
      obtain ⟨c, v⟩ := a
      simp [assignmentTokens]
    | cons a2 more2 =>
      obtain ⟨c, v⟩ := b
      rw [assignmentTokens_cons_cons]
      rcases List.mem_cons.mp h with h1 | h1
      · subst h1
        simp
      · have := ih h1
        simp [this]

/-- Every name of a statement is an identifier token of it. -/
theorem Statement.identifier_mem_tokens (s : Statement) (x : String) (h : x ∈ s.identifiers) :
    ⟨TokenType.IDENTIFIER, x⟩ ∈ s.tokens := by
  cases s with
  | create t columns =>
    simp only [Statement.identifiers, List.mem_cons, List.mem_append, List.mem_map] at h
    rcases h with rfl | ⟨col, hcol, rfl⟩ | ⟨col, hcol, rfl⟩
    · simp [Statement.tokens]
    · have := (columnDefTokens_mem columns col hcol).1
      simp [Statement.tokens, this]
    · have := (columnDefTokens_mem columns col hcol).2
      simp [Statement.tokens, this]
  | selectAll t c =>
    cases c with
    | none =>
      have : x = t := by simpa [Statement.identifiers] using h
      subst this
      simp [Statement.tokens]
    | some c =>
      simp only [Statement.identifiers, Option.toList, List.map_cons, List.map_nil, List.mem_cons,
        List.not_mem_nil, or_false] at h
      rcases h with rfl | rfl <;> simp [Statement.tokens, whereTokens, Condition.tokens]
  | select columns t c =>
    simp only [Statement.identifiers, List.mem_cons, List.mem_append] at h
    rcases h with rfl | hcol | hc
    · simp [Statement.tokens]
    · have := columnListTokens_mem columns x hcol
      simp [Statement.tokens, this]
    · cases c with
      | none => simp at hc
      | some c =>
        have : x = c.column := by simpa using hc
        subst this
        simp [Statement.tokens, whereTokens, Condition.tokens]
  | insert t values =>
    have : x = t := by simpa [Statement.identifiers] using h
    subst this
    simp [Statement.tokens]
  | update t assignments c =>
    simp only [Statement.identifiers, List.mem_cons, List.mem_append, List.mem_map,
      List.not_mem_nil, or_false] at h
    rcases h with rfl | ⟨a, ha, rfl⟩ | rfl
    · simp [Statement.tokens]
    · have := assignmentTokens_mem assignments a ha
      simp [Statement.tokens, this]
    · simp [Statement.tokens, Condition.tokens]
  | delete t c =>
    cases c with
    | none =>
      have : x = t := by simpa [Statement.identifiers] using h
      subst this
      simp [Statement.tokens]
    | some c =>
      simp only [Statement.identifiers, Option.toList, List.map_cons, List.map_nil, List.mem_cons,
        List.not_mem_nil, or_false] at h
      rcases h with rfl | rfl <;> simp [Statement.tokens, whereTokens, Condition.tokens]

/-- The names of a statement that a text holds are not keywords and are not
spelled like comparison operators. -/
theorem identifiers_of_tokens (s : Statement) (input : String) (rest : List Token)
    (htok : tokens input = s.tokens ++ rest) (x : String) (h : x ∈ s.identifiers) :
    x ∉ keywords ∧ isComparison x = false :=
  tokens_identifier input x (by rw [htok]; simp [s.identifier_mem_tokens x h])

/-! ## Lexing the text of an `INSERT` statement -/

theorem literalsText_cons_cons (v a : Literal) (rest : List Literal) :
    literalsText (v :: a :: rest) = v.text ++ ", " ++ literalsText (a :: rest) := rfl

theorem literalsText_lex (values : List Literal) :
    ∀ (rest : List Char), values ≠ [] →
      (∀ v ∈ values, v.wellFormed = true) →
      (∀ c ∈ rest.head?, isdigit c = false) →
      lexAll ((literalsText values).data ++ rest) =
        valueListTokens (values.map Literal.token) ++ lexAll rest := by
  induction values with
  | nil => intro _ h; exact absurd rfl h
  | cons v more ih =>
    intro rest _ hwf hrest
    have hv := hwf v (by simp)
    cases more with
    | nil =>
      simp only [literalsText, List.map_cons, List.map_nil, valueListTokens]
      rw [lexAll_literal v rest hv hrest]
      rfl
    | cons a more2 =>
      have hdata : (literalsText (v :: a :: more2)).data ++ rest =
          v.text.data ++ (',' :: ' ' :: ((literalsText (a :: more2)).data ++ rest)) := by
        rw [literalsText_cons_cons]
        simp only [String.data_append, List.append_assoc]
        rfl
      rw [hdata, lexAll_literal v _ hv (head_cons_false _ _ _ (by decide)),
        lexAll_symbol1 ',' _ (by decide) (by decide) (by decide) (by decide)
          (no_two_char_symbol ',' (by decide) _),
        lexAll_space, ih rest (by simp) (fun x hx => hwf x (by simp [hx])) hrest]
      simp only [List.map_cons, valueListTokens_cons_cons]
      rfl

theorem tokens_insertText (t : String) (values : List Literal)
    (ht : isIdentifierText t = true) (hne : values ≠ [])
    (hwf : ∀ v ∈ values, v.wellFormed = true) :
    tokens (insertText t values) =
      (Statement.insert t (values.map Literal.token)).tokens ++ [⟨TokenType.SYMBOL, ";"⟩] := by
  have hdata : (insertText t values).data =
      "INSERT".data ++ (' ' :: ("INTO".data ++ (' ' :: (t.data ++ (' ' :: ("VALUES".data ++
        (' ' :: '(' :: ((literalsText values).data ++ [')', ';'])))))))) := by
    simp only [insertText, String.data_append, List.append_assoc]
    rfl
  unfold tokens
  rw [hdata, lexAll_keyword "INSERT" _ (by decide) (head_cons_false _ _ _ (by decide)),
    lexAll_space,
    lexAll_keyword "INTO" _ (by decide) (head_cons_false _ _ _ (by decide)), lexAll_space,
    lexAll_identifier t _ ht (head_cons_false _ _ _ (by decide)), lexAll_space,
    lexAll_keyword "VALUES" _ (by decide) (head_cons_false _ _ _ (by decide)), lexAll_space,
    lexAll_symbol1 '(' _ (by decide) (by decide) (by decide) (by decide)
      (no_two_char_symbol '(' (by decide) _),
    literalsText_lex values _ hne hwf (head_cons_false _ _ _ (by decide)),
    lexAll_symbol1 ')' _ (by decide) (by decide) (by decide) (by decide)
      (no_two_char_symbol ')' (by decide) _),
    lexAll_symbol1 ';' [] (by decide) (by decide) (by decide) (by decide)
      (no_two_char_symbol ';' (by decide) _)]
  simp [Statement.tokens]
  rfl

theorem Literal.token_isValue (v : Literal) : v.token.isValue := by
  cases v <;> simp [Literal.token, Token.isValue]

/-- A parse that returns a tree returns the tree of a well-formed statement
whose tokens lie ahead of the lexer. -/
theorem parse_returned_inv (p : Parser) (input : String) (ts : List Token) (node : ASTNode)
    (hA : (p.Initial input).Ahead ts)
    (h : (p.parse input).outcome = Outcome.returned (some node)) :
    ∃ (s : Statement) (after : List Token), s.wellFormed ∧ s.endsBefore after ∧
      ts = s.tokens ++ after ∧ node = s.toAST := by
  rw [parse_eq_parseT p input ts hA] at h
  cases hp : parseT ts with
  | ok a rest =>
    rw [hp] at h
    simp only [TResult.outcome, Outcome.returned.injEq] at h
    subst h
    exact parseT_inv hp
  | error e =>
    rw [hp] at h
    simp [TResult.outcome] at h

/-! ## Lemmas on the table registry -/

theorem lookup_pushRow_self (tables : List (String × TableData)) (name : String)
    (values : List String) (table : TableData) (h : tables.lookup name = some table) :
    (pushRow tables name values).lookup name =
      some { table with rows := table.rows ++ [values] } := by
  induction tables with
  | nil => simp at h
  | cons e es ih =>
    obtain ⟨k, b⟩ := e
    by_cases hk : k = name
    · subst hk
      simp only [List.lookup_cons, beq_self_eq_true] at h
      cases h
      simp [pushRow, List.lookup_cons]
    · have hkb : (name == k) = false := by simpa using fun h => hk h.symm
      simp only [List.lookup_cons, hkb] at h
      simp [pushRow, hk, List.lookup_cons, hkb, ih h]

theorem lookup_pushRow_other (tables : List (String × TableData)) (name other : String)
    (values : List String) (h : other ≠ name) :
    (pushRow tables name values).lookup other = tables.lookup other := by
  induction tables with
  | nil => simp [pushRow]
  | cons e es ih =>
    obtain ⟨k, b⟩ := e
    by_cases hk : k = name
    · subst hk
      have hkb : (other == k) = false := by simpa using h
      simp [pushRow, List.lookup_cons, hkb]
    · cases hob : other == k <;> simp [pushRow, hk, List.lookup_cons, hob, ih]

/-- A table name that the lexer reads and that is not spelled like a node
label is none of the labels that the walk of lines 513-564 branches on. -/
theorem not_branch_label {t : String} (hk : t ∉ keywords) (hl : t ∉ nodeLabels) :
    t ∉ ["COLUMNS", "CONDITION", "COLUMN", "VALUES", "UPDATES"] := by
  intro h
  simp only [List.mem_cons, List.mem_singleton, List.not_mem_nil, or_false] at h
  rcases h with rfl | rfl | rfl | rfl | rfl
  · exact hl (by decide)
  · exact hl (by decide)
  · exact hl (by decide)
  · exact hk (by decide)
  · exact hl (by decide)

/-! ## A text followed by `;` -/

theorem collectWhile_append_stop (p : Char → Bool) (cs : List Char) (x : Char)
    (hx : p x = false) : collectWhile p (cs ++ [x]) = collectWhile p cs := by
  induction cs with
  | nil => simp [collectWhile, hx]
  | cons c cs ih => by_cases h : p c <;> simp [collectWhile, h, ih]

theorem collectWhile_append_of_lt (p : Char → Bool) (cs ys : List Char)
    (h : (collectWhile p cs).length < cs.length) :
    collectWhile p (cs ++ ys) = collectWhile p cs := by
  induction cs with
  | nil => simp [collectWhile] at h
  | cons c cs ih =>
    by_cases hc : p c
    · simp only [collectWhile, hc, if_true, List.length_cons, Nat.add_lt_add_iff_right] at h
      simp [collectWhile, hc, ih h]
    · simp [collectWhile, hc]

theorem collectWhile_all (p : Char → Bool) (cs : List Char) :
    ∀ c ∈ collectWhile p cs, p c = true := by
  rw [collectWhile_eq_takeWhile]
  intro c hc
  exact List.mem_takeWhile_imp hc

theorem collectWhile_split (p : Char → Bool) (cs : List Char) :
    collectWhile p cs ++ cs.drop (collectWhile p cs).length = cs := by
  induction cs with
  | nil => simp [collectWhile]
  | cons c cs ih => by_cases hc : p c <;> simp [collectWhile, hc, ih]

theorem quotesClosedFrom_skip (w rest : List Char)
    (hw : ∀ c ∈ w, ¬ (c = Char.ofNat 39 ∨ c = Char.ofNat 34)) :
    quotesClosedFrom none (w ++ rest) = quotesClosedFrom none rest := by
  induction w with
  | nil => rfl
  | cons c cs ih =>
    have hc := hw c (by simp)
    simp only [List.cons_append, quotesClosedFrom, hc, if_false]
    exact ih (fun d hd => hw d (by simp [hd]))

theorem quotesClosedFrom_drop (cs : List Char) (n : Nat)
    (hw : ∀ c ∈ cs.take n, ¬ (c = Char.ofNat 39 ∨ c = Char.ofNat 34)) :
    quotesClosedFrom none (cs.drop n) = quotesClosedFrom none cs := by
  have h := quotesClosedFrom_skip (cs.take n) (cs.drop n) hw
  rw [List.take_append_drop] at h
  exact h.symm

theorem quotesClosedFrom_string (q : Char) (cs : List Char)
    (h : quotesClosedFrom (some q) cs = true) :
    (collectWhile (fun d => d != q) cs).length < cs.length ∧
      quotesClosedFrom none (cs.drop ((collectWhile (fun d => d != q) cs).length + 1)) = true := by
  induction cs with
  | nil => simp [quotesClosedFrom] at h
  | cons c cs ih =>
    by_cases hc : c = q
    · subst hc
      simp only [quotesClosedFrom, if_true] at h
      simp [collectWhile, h]
    · simp only [quotesClosedFrom, hc, if_false] at h
      have := ih h
      simp [collectWhile, hc, this.1, this.2]

theorem not_quote_of_isWordChar {c : Char} (h : isWordChar c = true) :
    ¬ (c = Char.ofNat 39 ∨ c = Char.ofNat 34) := by
  rintro (rfl | rfl) <;> revert h <;> decide

theorem not_quote_of_isdigit {c : Char} (h : isdigit c = true) :
    ¬ (c = Char.ofNat 39 ∨ c = Char.ofNat 34) := by
  rintro (rfl | rfl) <;> revert h <;> decide

theorem not_quote_of_isspace {c : Char} (h : isspace c = true) :
    ¬ (c = Char.ofNat 39 ∨ c = Char.ofNat 34) := by
  rintro (rfl | rfl) <;> revert h <;> decide

theorem quotesClosedFrom_collect (p : Char → Bool) (cs : List Char)
    (hp : ∀ c, p c = true → ¬ (c = Char.ofNat 39 ∨ c = Char.ofNat 34)) :
    quotesClosedFrom none (cs.drop (collectWhile p cs).length) = quotesClosedFrom none cs := by
  have h := quotesClosedFrom_skip (collectWhile p cs) (cs.drop (collectWhile p cs).length)
    (fun c hc => hp c (collectWhile_all p cs c hc))
  rw [collectWhile_split] at h
  exact h.symm

/-- A token scanned from characters that close their quotes ends inside them,
leaves characters that close their quotes, and is scanned the same when `;`
follows the characters. -/
theorem scanToken_closed (cs : List Char) (hne : cs ≠ [])
    (h : quotesClosedFrom none cs = true) :
    (scanToken cs).2 ≤ cs.length ∧
      quotesClosedFrom none (cs.drop (scanToken cs).2) = true ∧
      scanToken (cs ++ [';']) = scanToken cs := by
  obtain ⟨c, cs, rfl⟩ := List.exists_cons_of_ne_nil hne
  by_cases ha : isalpha c = true
  · have hrun := collectWhile_append_stop isWordChar (c :: cs) ';' (by decide)
    have hq := quotesClosedFrom_collect isWordChar (c :: cs) (fun d hd => not_quote_of_isWordChar hd)
    have hlen := collectWhile_length_le isWordChar (c :: cs)
    simp only [List.cons_append] at hrun
    simp only [scanToken, List.cons_append, ha, if_true, hrun]
    split
    · exact ⟨hlen, by rw [hq]; exact h, trivial⟩
    · exact ⟨hlen, by rw [hq]; exact h, trivial⟩
  · have ha2 : isalpha c = false := by simpa using ha
    by_cases hd : isdigit c = true
    · have hrun := collectWhile_append_stop isdigit (c :: cs) ';' (by decide)
      have hq := quotesClosedFrom_collect isdigit (c :: cs) (fun d hd => not_quote_of_isdigit hd)
      have hlen := collectWhile_length_le isdigit (c :: cs)
      simp only [List.cons_append] at hrun
      simp only [scanToken, List.cons_append, ha2, Bool.false_eq_true, if_false, hd, if_true, hrun]
      exact ⟨hlen, by rw [hq]; exact h, trivial⟩
    · have hd2 : isdigit c = false := by simpa using hd
      by_cases hquote : c = Char.ofNat 39 ∨ c = Char.ofNat 34
      · simp only [quotesClosedFrom, hquote, if_true] at h
        obtain ⟨h1, h2⟩ := quotesClosedFrom_string c cs h
        have hrun := collectWhile_append_of_lt (fun d => d != c) cs [';'] h1
        simp only [scanToken, List.cons_append, ha2, Bool.false_eq_true, if_false, hd2, hquote,
          if_true, hrun]
        refine ⟨by simp only [List.length_cons]; omega, ?_, trivial⟩
        have e : 1 + (collectWhile (fun d => d != c) cs).length + 1 =
            ((collectWhile (fun d => d != c) cs).length + 1) + 1 := by omega
        rw [e, List.drop_succ_cons]
        exact h2
      · simp only [quotesClosedFrom, hquote, if_false] at h
        cases cs with
        | nil =>
          have h2 : ¬ (String.mk [c, ';'] = "!=" ∨ String.mk [c, ';'] = "<=" ∨
              String.mk [c, ';'] = ">=") := by
            rintro (h2 | h2 | h2) <;>
              · have := congrArg String.data h2
                simp at this
          simp [scanToken, ha2, hd2, hquote, h2, quotesClosedFrom]
        | cons d ds =>
          simp only [scanToken, List.cons_append, ha2, Bool.false_eq_true, if_false, hd2, hquote]
          split
          · rename_i h2
            have hdq : ¬ (d = Char.ofNat 39 ∨ d = Char.ofNat 34) := by
              have hd3 : d = '=' := by
                rcases h2 with h2 | h2 | h2 <;>
                  · have := congrArg String.data h2
                    simp at this
                    exact this.2
              subst hd3
              decide
            simp only [quotesClosedFrom, hdq, if_false] at h
            exact ⟨by simp, by simpa using h, trivial⟩
          · exact ⟨by simp, by simpa using h, trivial⟩

theorem readToken_closed (cs : List Char) (hne : (readToken cs).1.type ≠ TokenType.END)
    (h : quotesClosedFrom none cs = true) :
    (readToken cs).2 ≤ cs.length ∧
      quotesClosedFrom none (cs.drop (readToken cs).2) = true ∧
      readToken (cs ++ [';']) = readToken cs := by
  have hws := collectWhile_length_le isspace cs
  have hq := quotesClosedFrom_collect isspace cs (fun d hd => not_quote_of_isspace hd)
  have hrest : cs.drop (collectWhile isspace cs).length ≠ [] := by
    intro he
    apply hne
    simp [readToken, he, scanToken]
  obtain ⟨h1, h2, h3⟩ := scanToken_closed _ hrest (by rw [hq]; exact h)
  have hrun := collectWhile_append_stop isspace cs ';' (by decide)
  have hdrop : (cs ++ [';']).drop (collectWhile isspace cs).length =
      cs.drop (collectWhile isspace cs).length ++ [';'] :=
    List.drop_append_of_le_length hws
  refine ⟨?_, ?_, ?_⟩
  · simp only [readToken, List.length_drop] at h1 ⊢
    omega
  · simp only [readToken]
    rw [← List.drop_drop]
    exact h2
  · simp only [readToken, hrun, hdrop, h3]

/-- The tokens of characters that close their quotes, followed by `;`, are the
tokens of the characters followed by the symbol `;`. -/
theorem lexAll_append_semicolon (n : Nat) :
    ∀ cs : List Char, cs.length ≤ n → quotesClosedFrom none cs = true →
      lexAll (cs ++ [';']) = lexAll cs ++ [⟨TokenType.SYMBOL, ";"⟩] := by
  induction n with
  | zero =>
    intro cs hlen _
    have : cs = [] := List.length_eq_zero.mp (Nat.le_zero.mp hlen)
    subst this
    decide
  | succ n ih =>
    intro cs hlen h
    by_cases hend : (readToken cs).1.type = TokenType.END
    · have hall : collectWhile isspace cs = cs := by
        have hd : cs.drop (collectWhile isspace cs).length = [] := by
          have := (scanToken_spec (cs.drop (collectWhile isspace cs).length)).1 hend
          exact this.1
        have := collectWhile_split isspace cs
        rw [hd, List.append_nil] at this
        exact this
      have hsp : ∀ c ∈ cs, isspace c = true := by
        intro c hc
        rw [← hall] at hc
        exact collectWhile_all isspace cs c hc
      rw [lexAll_nil_of_end cs hend, lexAll_append_space cs [';'] hsp]
      decide
    · obtain ⟨h1, h2, h3⟩ := readToken_closed cs hend h
      have hpos := (readToken_pos cs hend).1
      have hend2 : (readToken (cs ++ [';'])).1.type ≠ TokenType.END := by rw [h3]; exact hend
      rw [lexAll_cons cs hend, lexAll_cons _ hend2, h3, List.drop_append_of_le_length h1,
        ih (cs.drop (readToken cs).2) (by simp only [List.length_drop]; omega) h2]
      rfl

theorem tokens_append_semicolon (s : String) (h : quotesClosed s = true) :
    tokens (s ++ ";") = tokens s ++ [⟨TokenType.SYMBOL, ";"⟩] := by
  have := lexAll_append_semicolon s.data.length s.data (Nat.le_refl _) h
  simpa [tokens] using this

/-! ## Statements followed by `;` -/

/-- The last token of a well-formed statement is not the symbol `;`. -/
theorem Statement.tokens_last (s : Statement) (hwf : s.wellFormed) :
    ∃ (front : List Token) (last : Token), s.tokens = front ++ [last] ∧
      last ≠ ⟨TokenType.SYMBOL, ";"⟩ := by
  have hvalue : ∀ v : Token, v.isValue → v ≠ ⟨TokenType.SYMBOL, ";"⟩ := by
    rintro v (hv | hv) rfl <;> cases hv
  cases s with
  | create t columns =>
    exact ⟨_, ⟨TokenType.SYMBOL, ")"⟩, by
      simp only [Statement.tokens]
      rw [← List.cons_append, ← List.cons_append, ← List.cons_append, ← List.cons_append],
      by decide⟩
  | selectAll t c =>
    cases c with
    | none =>
      exact ⟨[⟨TokenType.KEYWORD, "SELECT"⟩, ⟨TokenType.SYMBOL, "*"⟩, ⟨TokenType.KEYWORD, "FROM"⟩],
        ⟨TokenType.IDENTIFIER, t⟩, rfl, by simp⟩
    | some c =>
      exact ⟨[⟨TokenType.KEYWORD, "SELECT"⟩, ⟨TokenType.SYMBOL, "*"⟩, ⟨TokenType.KEYWORD, "FROM"⟩,
        ⟨TokenType.IDENTIFIER, t⟩, ⟨TokenType.KEYWORD, "WHERE"⟩, ⟨TokenType.IDENTIFIER, c.column⟩,
        ⟨TokenType.SYMBOL, c.op⟩], c.value, rfl, hvalue _ (hwf c rfl).2⟩
  | select columns t c =>
    cases c with
    | none =>
      exact ⟨⟨TokenType.KEYWORD, "SELECT"⟩ :: (columnListTokens columns ++
        [⟨TokenType.KEYWORD, "FROM"⟩]), ⟨TokenType.IDENTIFIER, t⟩,
        by simp [Statement.tokens, whereTokens], by simp⟩
    | some c =>
      exact ⟨⟨TokenType.KEYWORD, "SELECT"⟩ :: (columnListTokens columns ++
        [⟨TokenType.KEYWORD, "FROM"⟩, ⟨TokenType.IDENTIFIER, t⟩, ⟨TokenType.KEYWORD, "WHERE"⟩,
          ⟨TokenType.IDENTIFIER, c.column⟩, ⟨TokenType.SYMBOL, c.op⟩]), c.value,
        by simp [Statement.tokens, whereTokens, Condition.tokens], hvalue _ (hwf.2 c rfl).2⟩
  | insert t values =>
    exact ⟨_, ⟨TokenType.SYMBOL, ")"⟩, by
      simp only [Statement.tokens]
      rw [← List.cons_append, ← List.cons_append, ← List.cons_append, ← List.cons_append,
        ← List.cons_append],
      by decide⟩
  | update t assignments c =>
    exact ⟨⟨TokenType.KEYWORD, "UPDATE"⟩ :: ⟨TokenType.IDENTIFIER, t⟩ ::
      ⟨TokenType.KEYWORD, "SET"⟩ :: (assignmentTokens assignments ++
        [⟨TokenType.KEYWORD, "WHERE"⟩, ⟨TokenType.IDENTIFIER, c.column⟩,
          ⟨TokenType.SYMBOL, c.op⟩]), c.value,
      by simp [Statement.tokens, Condition.tokens], hvalue _ hwf.2.2.2⟩
  | delete t c =>
    cases c with
    | none =>
      exact ⟨[⟨TokenType.KEYWORD, "DELETE"⟩, ⟨TokenType.KEYWORD, "FROM"⟩],
        ⟨TokenType.IDENTIFIER, t⟩, rfl, by simp⟩
    | some c =>
      exact ⟨[⟨TokenType.KEYWORD, "DELETE"⟩, ⟨TokenType.KEYWORD, "FROM"⟩,
        ⟨TokenType.IDENTIFIER, t⟩, ⟨TokenType.KEYWORD, "WHERE"⟩, ⟨TokenType.IDENTIFIER, c.column⟩,
        ⟨TokenType.SYMBOL, c.op⟩], c.value, rfl, hvalue _ (hwf c rfl).2⟩

/-- When a well-formed statement and the tokens after it end in `;`, the `;`
is among the tokens after the statement. -/
theorem Statement.tokens_before_semicolon (s : Statement) (hwf : s.wellFormed)
    (ts after : List Token) (h : ts ++ [⟨TokenType.SYMBOL, ";"⟩] = s.tokens ++ after) :
    ∃ before, after = before ++ [⟨TokenType.SYMBOL, ";"⟩] ∧ ts = s.tokens ++ before := by
  rcases List.eq_nil_or_concat after with rfl | ⟨before, x, rfl⟩
  · obtain ⟨front, last, hs, hlast⟩ := s.tokens_last hwf
    rw [List.append_nil, hs] at h
    have := List.append_inj' h rfl
    exact absurd (by simpa using this.2.symm) hlast
  · rw [List.concat_eq_append] at h ⊢
    rw [← List.append_assoc] at h
    have := List.append_inj' h rfl
    refine ⟨before, ?_, this.1⟩
    have hx : x = ⟨TokenType.SYMBOL, ";"⟩ := by simpa using this.2.symm
    rw [hx]

theorem headD_append_semicolon_isWhere (after : List Token) :
    ((after ++ [(⟨TokenType.SYMBOL, ";"⟩ : Token)]).headD Token.eof).isWhere ↔
      (after.headD Token.eof).isWhere := by
  cases after with
  | nil => simp [Token.isWhere, Token.eof]
  | cons a as => rfl

theorem Statement.endsBefore_append_semicolon (s : Statement) (after : List Token) :
    s.endsBefore (after ++ [⟨TokenType.SYMBOL, ";"⟩]) ↔ s.endsBefore after := by
  cases s with
  | create t columns => rfl
  | insert t values => rfl
  | update t assignments c => rfl
  | selectAll t c =>
    cases c with
    | none => exact not_congr (headD_append_semicolon_isWhere after)
    | some c => rfl
  | select columns t c =>
    cases c with
    | none => exact not_congr (headD_append_semicolon_isWhere after)
    | some c => rfl
  | delete t c =>
    cases c with
    | none => exact not_congr (headD_append_semicolon_isWhere after)
    | some c => rfl

theorem tbind_some_ne_none (x : TParserM ASTNode) (ts rest : List Token) :
    (x >>= fun node => (pure (some node) : TParserM (Option ASTNode))) ts ≠
      TResult.ok none rest := by
  intro h
  simp only [tbind_eq_ok, tpure_apply, TResult.ok.injEq] at h
  obtain ⟨_, _, _, h0, _⟩ := h
  cases h0

/-- The method `parse` on a token list returns the null node exactly for a
first token that is a keyword other than the five statement keywords. -/
theorem parseT_none_iff (ts : List Token) :
    (∃ rest, parseT ts = TResult.ok none rest) ↔
      ((ts.headD Token.eof).type = TokenType.KEYWORD ∧
        (ts.headD Token.eof).value ∉ ["CREATE", "SELECT", "INSERT", "UPDATE", "DELETE"]) := by
  constructor
  · rintro ⟨rest, h⟩
    simp only [parseT, tbind_eq_ok, nextT_apply, TResult.ok.injEq, tparserIte_apply] at h
    obtain ⟨tok, m1, ⟨rfl, rfl⟩, h⟩ := h
    split at h
    · rename_i hk
      refine ⟨hk, ?_⟩
      split at h
      · exact absurd h (tbind_some_ne_none _ _ _)
      · split at h
        · exact absurd h (tbind_some_ne_none _ _ _)
        · split at h
          · exact absurd h (tbind_some_ne_none _ _ _)
          · split at h
            · exact absurd h (tbind_some_ne_none _ _ _)
            · split at h
              · exact absurd h (tbind_some_ne_none _ _ _)
              · simp only [List.mem_cons, List.mem_singleton, List.not_mem_nil, or_false, not_or]
                rename_i h1 h2 h3 h4 h5
                exact ⟨h1, h2, h3, h4, h5⟩
    · simp at h
  · rintro ⟨hk, hv⟩
    simp only [List.mem_cons, List.mem_singleton, List.not_mem_nil, or_false, not_or] at hv
    obtain ⟨h1, h2, h3, h4, h5⟩ := hv
    refine ⟨ts.tail, ?_⟩
    simp only [parseT, tbind_apply, nextT_apply, tparserIte_apply, hk, h1, h2, h3, h4, h5,
      if_true, if_false, tpure_apply]

theorem headD_append_semicolon_keyword (ts : List Token) :
    (((ts ++ [(⟨TokenType.SYMBOL, ";"⟩ : Token)]).headD Token.eof).type = TokenType.KEYWORD ∧
      ((ts ++ [(⟨TokenType.SYMBOL, ";"⟩ : Token)]).headD Token.eof).value ∉
        ["CREATE", "SELECT", "INSERT", "UPDATE", "DELETE"]) ↔
    ((ts.headD Token.eof).type = TokenType.KEYWORD ∧
      (ts.headD Token.eof).value ∉ ["CREATE", "SELECT", "INSERT", "UPDATE", "DELETE"]) := by
  cases ts with
  | nil => simp [Token.eof]
  | cons a as => rfl

/-- On tokens followed by the symbol `;`, `parse` returns what it returns on
the tokens, or throws on both. -/
theorem parseT_append_semicolon (ts : List Token) :
    (∃ v, (parseT ts).outcome = Outcome.returned v ∧
      (parseT (ts ++ [⟨TokenType.SYMBOL, ";"⟩])).outcome = Outcome.returned v) ∨
    (∃ e1 e2, (parseT ts).outcome = Outcome.thrown e1 ∧
      (parseT (ts ++ [⟨TokenType.SYMBOL, ";"⟩])).outcome = Outcome.thrown e2) := by
  cases h1 : parseT ts with
  | ok v rest =>
    left
    refine ⟨v, rfl, ?_⟩
    cases v with
    | none =>
      obtain ⟨rest2, h2⟩ := (parseT_none_iff _).mpr
        ((headD_append_semicolon_keyword ts).mpr ((parseT_none_iff ts).mp ⟨rest, h1⟩))
      rw [h2]
      rfl
    | some node =>
      obtain ⟨s, after, hwf, hend, rfl, rfl⟩ := parseT_inv h1
      rw [List.append_assoc]
      exact parseT_of_statement s _ hwf ((s.endsBefore_append_semicolon after).mpr hend)
  | error e =>
    right
    cases h2 : parseT (ts ++ [⟨TokenType.SYMBOL, ";"⟩]) with
    | error e2 => exact ⟨e, e2, rfl, rfl⟩
    | ok v rest =>
      exfalso
      cases v with
      | none =>
        obtain ⟨rest1, h3⟩ := (parseT_none_iff ts).mpr
          ((headD_append_semicolon_keyword ts).mp ((parseT_none_iff _).mp ⟨rest, h2⟩))
        rw [h3] at h1
        cases h1
      | some node =>
        obtain ⟨s, after, hwf, hend, htok, rfl⟩ := parseT_inv h2
        obtain ⟨before, rfl, rfl⟩ := s.tokens_before_semicolon hwf ts after htok
        have := parseT_of_statement s before hwf ((s.endsBefore_append_semicolon before).mp hend)
        rw [h1] at this
        cases this

/-! ## The entry of a condition -/

theorem scanToken_identifier_chars (cs : List Char)
    (h : (scanToken cs).1.type = TokenType.IDENTIFIER) :
    ∀ c ∈ (scanToken cs).1.value.data, isWordChar c = true := by
  cases cs with
  | nil => simp [scanToken] at h
  | cons c cs =>
    simp only [scanToken] at h ⊢
    split at h
    · rename_i ha
      split at h
      · simp at h
      · rename_i hk
        rw [if_pos ha, if_neg hk]
        exact collectWhile_all isWordChar (c :: cs)
    · exfalso
      split at h
      · simp at h
      · split at h
        · simp at h
        · split at h
          · split at h <;> simp at h
          · simp at h

/-- An identifier token of a text is made of letters, digits and
underscores. -/
theorem tokens_identifier_chars (input : String) (v : String)
    (h : ⟨TokenType.IDENTIFIER, v⟩ ∈ tokens input) :
    ∀ c ∈ v.data, isWordChar c = true := by
  obtain ⟨cs1, h1⟩ := tokensFrom_mem _ _ _ h
  have h2 : (scanToken (cs1.drop (collectWhile isspace cs1).length)).1 =
      ⟨TokenType.IDENTIFIER, v⟩ := by
    rw [h1]; rfl
  have h3 := scanToken_identifier_chars (cs1.drop (collectWhile isspace cs1).length)
    (by rw [h2])
  rw [h2] at h3
  exact h3

theorem comparison_data {op : String} (h : op ∈ comparisonOperators) :
    op.data = ['='] ∨ op.data = ['>'] ∨ op.data = ['<'] ∨ op.data = ['>', '='] ∨
      op.data = ['<', '='] ∨ op.data = ['!', '='] := by
  simp only [comparisonOperators, List.mem_cons, List.mem_singleton, List.not_mem_nil,
    or_false] at h
  rcases h with rfl | rfl | rfl | rfl | rfl | rfl
  · exact Or.inl rfl
  · exact Or.inr (Or.inl rfl)
  · exact Or.inr (Or.inr (Or.inl rfl))
  · exact Or.inr (Or.inr (Or.inr (Or.inl rfl)))
  · exact Or.inr (Or.inr (Or.inr (Or.inr (Or.inl rfl))))
  · exact Or.inr (Or.inr (Or.inr (Or.inr (Or.inr rfl))))

/-- After a comparison operator and before a text that does not begin with
`=`, the operator and the text are determined by their concatenation. -/
theorem operator_value_unique (o1 o2 v1 v2 : List Char)
    (ho1 : o1 = ['='] ∨ o1 = ['>'] ∨ o1 = ['<'] ∨ o1 = ['>', '='] ∨ o1 = ['<', '='] ∨
      o1 = ['!', '='])
    (ho2 : o2 = ['='] ∨ o2 = ['>'] ∨ o2 = ['<'] ∨ o2 = ['>', '='] ∨ o2 = ['<', '='] ∨
      o2 = ['!', '='])
    (hv1 : v1.head? ≠ some '=') (hv2 : v2.head? ≠ some '=')
    (h : o1 ++ v1 = o2 ++ v2) : o1 = o2 ∧ v1 = v2 := by
  rcases ho1 with rfl | rfl | rfl | rfl | rfl | rfl <;>
    rcases ho2 with rfl | rfl | rfl | rfl | rfl | rfl <;>
      simp only [List.cons_append, List.nil_append, List.cons.injEq, true_and] at h <;>
      first
        | exact ⟨rfl, h⟩
        | exact absurd h.1 (by decide)
        | (exfalso; rw [h] at hv1; exact hv1 rfl)
        | (exfalso; rw [← h] at hv2; exact hv2 rfl)

theorem wordChars_prefix_unique (a1 a2 r1 r2 : List Char)
    (ha1 : ∀ c ∈ a1, isWordChar c = true) (ha2 : ∀ c ∈ a2, isWordChar c = true)
    (hr1 : ∀ c ∈ r1.head?, isWordChar c = false) (hr2 : ∀ c ∈ r2.head?, isWordChar c = false)
    (h : a1 ++ r1 = a2 ++ r2) : a1 = a2 ∧ r1 = r2 := by
  have e1 := collectWhile_run isWordChar a1 r1 ha1 hr1
  have e2 := collectWhile_run isWordChar a2 r2 ha2 hr2
  rw [h, e2] at e1
  subst e1
  exact ⟨rfl, List.append_cancel_left h⟩

/-- The entry `column ++ op ++ value` of line 538 determines the column, the
operator and the value text, for columns made of letters, digits and
underscores and value texts that do not begin with `=`. -/
theorem joined_injective (c1 c2 : Condition)
    (hcol1 : ∀ c ∈ c1.column.data, isWordChar c = true)
    (hcol2 : ∀ c ∈ c2.column.data, isWordChar c = true)
    (hop1 : c1.op ∈ comparisonOperators) (hop2 : c2.op ∈ comparisonOperators)
    (hv1 : c1.value.value.data.head? ≠ some '=') (hv2 : c2.value.value.data.head? ≠ some '=')
    (h : c1.column ++ c1.op ++ c1.value.value = c2.column ++ c2.op ++ c2.value.value) :
    c1.column = c2.column ∧ c1.op = c2.op ∧ c1.value.value = c2.value.value := by
  have hd := congrArg String.data h
  simp only [String.data_append, List.append_assoc] at hd
  have ho1 := comparison_data hop1
  have ho2 := comparison_data hop2
  have hhead : ∀ (o v : List Char),
      (o = ['='] ∨ o = ['>'] ∨ o = ['<'] ∨ o = ['>', '='] ∨ o = ['<', '='] ∨ o = ['!', '=']) →
      ∀ c ∈ (o ++ v).head?, isWordChar c = false := by
    intro o v ho c hc
    rcases ho with rfl | rfl | rfl | rfl | rfl | rfl <;>
      · simp only [List.cons_append, List.head?_cons, Option.mem_def, Option.some.injEq] at hc
        subst hc
        decide
  obtain ⟨hcol, hrest⟩ := wordChars_prefix_unique _ _ _ _ hcol1 hcol2
    (hhead _ _ ho1) (hhead _ _ ho2) hd
  obtain ⟨hop, hval⟩ := operator_value_unique _ _ _ _ ho1 ho2 hv1 hv2 hrest
  exact ⟨String.ext hcol, String.ext hop, String.ext hval⟩

theorem Statement.condition_column_mem (s : Statement) (c : Condition)
    (h : s.condition = some c) : c.column ∈ s.identifiers := by
  cases s with
  | create t columns => cases h
  | insert t values => cases h
  | selectAll t c0 =>
    cases h
    simp [Statement.identifiers]
  | select columns t c0 =>
    cases h
    simp [Statement.identifiers]
  | update t assignments c0 =>
    cases h
    simp [Statement.identifiers]
  | delete t c0 =>
    cases h
    simp [Statement.identifiers]

theorem Statement.condition_wellFormed (s : Statement) (c : Condition) (hwf : s.wellFormed)
    (h : s.condition = some c) : c.wellFormed := by
  cases s with
  | create t columns => cases h
  | insert t values => cases h
  | selectAll t c0 => exact hwf c h
  | select columns t c0 => exact hwf.2 c h
  | update t assignments c0 =>
    cases h
    exact hwf.2.2
  | delete t c0 => exact hwf c h

/-- On a text whose tokens begin with a well-formed statement that has a
`WHERE` clause and none of whose names is spelled like a node label,
`SQL_Parser` completes and the `CONDITION` result is the single entry of the
clause. -/
theorem SQL_Parser_condition (p : Parser) (input : String) (s : Statement) (c : Condition)
    (rest : List Token) (hpb : p.hasPutBack = false) (htok : tokens input = s.tokens ++ rest)
    (hwf : s.wellFormed) (hcond : s.condition = some c)
    (hlabels : ∀ x ∈ s.identifiers, x ∉ nodeLabels) :
    ∃ d : Descriptor, SQL_Parser p input = Extraction.done d ∧
      d.results.CONDITION = [c.column ++ c.op ++ c.value.value] := by
  have hid := identifiers_of_tokens s input rest htok
  cases s with
  | create t columns => simp [Statement.condition] at hcond
  | insert t values => simp [Statement.condition] at hcond
  | selectAll t c0 =>
    simp only [Statement.condition] at hcond
    subst hcond
    have hcw : c.wellFormed := hwf c rfl
    rw [SQL_Parser_of_statement p input _ rest hpb htok hwf trivial,
      extract_selectAll_where t c hcw
        (not_branch_label (hid t (by simp [Statement.identifiers])).1
          (hlabels t (by simp [Statement.identifiers])))]
    exact ⟨_, rfl, rfl⟩
  | select columns t c0 =>
    simp only [Statement.condition] at hcond
    subst hcond
    have hcw : c.wellFormed := hwf.2 c rfl
    have hfirst : columns.head? ≠ some "ALL_COLUMNS" := by
      intro hh
      have hmem : "ALL_COLUMNS" ∈ columns := List.mem_of_mem_head? (by rw [hh]; rfl)
      exact hlabels "ALL_COLUMNS" (by simp [Statement.identifiers, hmem]) (by decide)
    rw [SQL_Parser_of_statement p input _ rest hpb htok hwf trivial,
      extract_select_where columns t c hwf.1 hcw
        (fun x hx => (hid x (by simp [Statement.identifiers, hx])).2)
        (hid c.column (by simp [Statement.identifiers])).2 hfirst
        (not_branch_label (hid t (by simp [Statement.identifiers])).1
          (hlabels t (by simp [Statement.identifiers])))]
    exact ⟨_, rfl, rfl⟩
  | update t assignments c0 =>
    simp only [Statement.condition, Option.some.injEq] at hcond
    subst hcond
    have hcc : c0.column ≠ "UPDATE_FIELD" := by
      intro hh
      exact hlabels c0.column (by simp [Statement.identifiers]) (by rw [hh]; decide)
    rw [SQL_Parser_of_statement p input _ rest hpb htok hwf trivial,
      extract_update t assignments c0 hwf.2.2 hcc]
    exact ⟨_, rfl, rfl⟩
  | delete t c0 =>
    simp only [Statement.condition] at hcond
    subst hcond
    have hcw : c.wellFormed := hwf c rfl
    rw [SQL_Parser_of_statement p input _ rest hpb htok hwf trivial,
      extract_delete_where t c hcw]
    exact ⟨_, rfl, rfl⟩

/-- The column of the `WHERE` clause of a statement that a text holds is made
of letters, digits and underscores. -/
theorem condition_column_chars (s : Statement) (c : Condition) (input : String)
    (rest : List Token) (htok : tokens input = s.tokens ++ rest)
    (hcond : s.condition = some c) :
    ∀ x ∈ c.column.data, isWordChar x = true :=
  tokens_identifier_chars input c.column (by
    rw [htok]
    simp [s.identifier_mem_tokens c.column (s.condition_column_mem c hcond)])

/-! ## The claims -/

/-- C1, evaluated where it fails.  The claim is that a second `parse` on the
same parser gives the outcome of a fresh parser.  `SetZero` and `Initial`
reset `input` and `pos` only: `"SELECT * FROM t;"` is accepted and leaves the
token `;`, which `parseSelect` put back at line 263, pending with
`hasPutBack = true`; the next `parse` on that parser reads this `;` as the
first token of `"DELETE FROM t;"` and throws `Invalid SQL statement`, while a
fresh parser returns the tree `DELETE[t]`. -/
theorem C1_pending_pushback_survives_reset :
    (Parser.fresh.parse "SELECT * FROM t;").outcome =
        Outcome.returned (some (ASTNode.mk "SELECT"
          [ASTNode.mk "COLUMNS" [ASTNode.mk "ALL_COLUMNS" []], ASTNode.mk "t" []])) ∧
      (Parser.fresh.parse "SELECT * FROM t;").parser =
        { input := "", pos := 0, lastToken := ⟨TokenType.SYMBOL, ";"⟩, hasPutBack := true } ∧
      ((Parser.fresh.parse "SELECT * FROM t;").parser.parse "DELETE FROM t;").outcome =
        Outcome.thrown "Invalid SQL statement" ∧
      (Parser.fresh.parse "DELETE FROM t;").outcome =
        Outcome.returned (some (ASTNode.mk "DELETE" [ASTNode.mk "t" []])) := by
  decide

/-- C2: for every lexer state `lx` and every token `t`, after
`putBackToken(t)` the next `nextToken` returns exactly `t`, leaves `pos` and
`input` unchanged and clears the pushback flag; the call after that is a
fresh read of the unread input at `lx.pos`.  When a token `a` was already
pending, `putBackToken(t)` overwrites it: `t` is returned and the call after
that is the same fresh read, so `a` is never seen. -/
theorem C2_pushback_last_write_wins (lx : Lexer) (a t : Token) :
    (lx.putBackToken t).nextToken.1 = t ∧
    (lx.putBackToken t).nextToken.2.pos = lx.pos ∧
    (lx.putBackToken t).nextToken.2.input = lx.input ∧
    (lx.putBackToken t).nextToken.2.hasPutBack = false ∧
    (lx.putBackToken t).nextToken.2.nextToken.1 = (readToken lx.unread).1 ∧
    (lx.putBackToken t).nextToken.2.nextToken.2.pos = lx.pos + (readToken lx.unread).2 ∧
    ((lx.putBackToken a).putBackToken t).nextToken.1 = t ∧
    ((lx.putBackToken a).putBackToken t).nextToken.2.nextToken =
      (lx.putBackToken t).nextToken.2.nextToken := by
  simp [Lexer.putBackToken, Lexer.nextToken, Lexer.unread]

/-- C3, evaluated where it fails.  The claim is that `parse` fails with a
parse error whenever the first token is not one of the five statement
keywords.  For a first token that is one of the other keywords (`TABLE`,
`WHERE`, `INTO`, `AND`) the chain of `if`/`else if` at lines 149-176 matches
nothing and line 177 returns the null `node` without throwing; for a first
token that is not a keyword line 179 throws. -/
theorem C3_other_keyword_returns_null :
    (Parser.fresh.parse "TABLE t;").outcome = Outcome.returned none ∧
      (Parser.fresh.parse "WHERE a = 1").outcome = Outcome.returned none ∧
      (Parser.fresh.parse "INTO t VALUES (1)").outcome = Outcome.returned none ∧
      (Parser.fresh.parse "AND").outcome = Outcome.returned none ∧
      (Parser.fresh.parse "table t;").outcome = Outcome.thrown "Invalid SQL statement" ∧
      (Parser.fresh.parse "").outcome = Outcome.thrown "Invalid SQL statement" := by
  decide

/-- C4: when the first token of the text is the keyword `K` and `parse`
returns a node, the label of that node is `K` (a node is returned only when
`K` is one of `CREATE`, `SELECT`, `INSERT`, `UPDATE`, `DELETE`). -/
theorem C4_root_label_is_keyword (p p2 : Parser) (input K : String) (node : ASTNode)
    (hpb : p.hasPutBack = false)
    (hfirst : (tokens input).head? = some ⟨TokenType.KEYWORD, K⟩)
    (hparse : p.parse input = Result.ok (some node) p2) :
    node.type = K := by
  have hsees := Lexer.sees_initial p input hpb
  cases hts : tokens input with
  | nil => rw [hts] at hfirst; cases hfirst
  | cons t ts =>
    rw [hts] at hfirst hsees
    simp only [List.head?_cons, Option.some.injEq] at hfirst
    subst hfirst
    have hfirst2 := hsees.next_cons.1
    rcases parseM_ok_of_keyword hfirst2 hparse with ⟨hk, lx3, h⟩ | ⟨hk, lx3, h⟩ | ⟨hk, lx3, h⟩ |
      ⟨hk, lx3, h⟩ | ⟨hk, lx3, h⟩
    · rw [hk]; exact parseCreate_type _ _ _ h
    · rw [hk]; exact parseSelect_type _ _ _ h
    · rw [hk]; exact parseInsert_type _ _ _ h
    · rw [hk]; exact parseUpdate_type _ _ _ h
    · rw [hk]; exact parseDelete_type _ _ _ h

/-- Instance of C4 at `DELETE FROM users WHERE id < 1;`. -/
theorem C4_root_label_is_keyword_witness :
    Parser.fresh.parse "DELETE FROM users WHERE id < 1;" =
        Result.ok (some (ASTNode.mk "DELETE" [ASTNode.mk "users" [],
          ASTNode.mk "CONDITION" [ASTNode.mk "id" [], ASTNode.mk "<" [], ASTNode.mk "1" []]]))
          { input := "", pos := 0, lastToken := ⟨TokenType.END, ""⟩, hasPutBack := false } ∧
      (ASTNode.mk "DELETE" [ASTNode.mk "users" [],
        ASTNode.mk "CONDITION" [ASTNode.mk "id" [], ASTNode.mk "<" [], ASTNode.mk "1" []]]).type =
        "DELETE" :=
  ⟨by decide,
    C4_root_label_is_keyword Parser.fresh
      { input := "", pos := 0, lastToken := ⟨TokenType.END, ""⟩, hasPutBack := false }
      "DELETE FROM users WHERE id < 1;" "DELETE"
      (ASTNode.mk "DELETE" [ASTNode.mk "users" [],
        ASTNode.mk "CONDITION" [ASTNode.mk "id" [], ASTNode.mk "<" [], ASTNode.mk "1" []]])
      (by decide) (by decide) (by decide)⟩

/-- C5: a text whose tokens are `UPDATE <table> SET c1 = v1 , ... , ck = vk`
(`k ≥ 1`, every `vi` a number or a string) followed by the end of the input or
by a token that is neither `,` nor the keyword `WHERE` is rejected: `parse`
throws `Expected ',' or 'WHERE'`. -/
theorem C5_update_without_where_fails (p : Parser) (input table : String)
    (as : List (String × Token)) (tail : List Token)
    (hpb : p.hasPutBack = false)
    (hne : as ≠ [])
    (hlit : ∀ a ∈ as, a.2.type = TokenType.NUMBER ∨ a.2.type = TokenType.STRING)
    (htokens : tokens input =
      ⟨TokenType.KEYWORD, "UPDATE"⟩ :: ⟨TokenType.IDENTIFIER, table⟩ ::
        ⟨TokenType.KEYWORD, "SET"⟩ :: (assignmentTokens as ++ tail))
    (htail : ∀ x ∈ tail.head?, x ≠ ⟨TokenType.SYMBOL, ","⟩ ∧ x ≠ ⟨TokenType.KEYWORD, "WHERE"⟩) :
    (p.parse input).outcome = Outcome.thrown "Expected ',' or 'WHERE'" := by
  have hsees := Lexer.sees_initial p input hpb
  rw [htokens] at hsees
  obtain ⟨lx1, h1, s1, i1⟩ := nextToken_ok hsees
  obtain ⟨lx2, h2, s2, i2⟩ := parseIdentifier_ok "table name" s1
  obtain ⟨lx3, h3, s3, i3⟩ := expectKeyword_ok s2
  have hlen := s3.length_le
  obtain ⟨lx4, h4⟩ := parseUpdateLoop_no_where as tail (lx3.input.length + 1) [] lx3 hne hlit htail s3
    (by omega)
  have : p.parse input = Result.error "Expected ',' or 'WHERE'" lx4 := by
    simp only [Parser.parse, parseM, bind_apply, initial_apply, h1, parserIte_apply, if_true]
    simp only [bind_apply, parseUpdate, h2, h3, loopBudget_apply, h4]
    rw [if_neg (by decide), if_neg (by decide), if_neg (by decide)]
  rw [this]
  rfl

/-- Instance of C5 at `UPDATE t SET a = 1, b = 'x';`. -/
theorem C5_update_without_where_fails_witness :
    (Parser.fresh.parse "UPDATE t SET a = 1, b = 'x';").outcome =
      Outcome.thrown "Expected ',' or 'WHERE'" :=
  C5_update_without_where_fails Parser.fresh "UPDATE t SET a = 1, b = 'x';" "t"
    [("a", ⟨TokenType.NUMBER, "1"⟩), ("b", ⟨TokenType.STRING, "x"⟩)] [⟨TokenType.SYMBOL, ";"⟩]
    (by decide) (by decide) (by decide) (by decide) (by decide)

/-- C6: with no pending pushback and the unread input being whitespace `ws`,
then a non-empty run `w` of letters, digits and underscores that starts with a
letter, then `rest` that does not start with such a character, `nextToken`
returns a token with text `w` that is a `KEYWORD` exactly when `w` is, in this
exact spelling, one of the thirteen keywords and an `IDENTIFIER` exactly when
it is not, and advances `pos` past `ws` and `w`. -/
theorem C6_word_token (lx : Lexer) (ws w rest : List Char)
    (hpb : lx.hasPutBack = false)
    (hu : lx.unread = ws ++ (w ++ rest))
    (hws : ∀ c ∈ ws, isspace c = true)
    (hne : w ≠ [])
    (hhead : ∀ c ∈ w.head?, isalpha c = true)
    (hw : ∀ c ∈ w, isalpha c = true ∨ isdigit c = true ∨ c = '_')
    (hrest : ∀ c ∈ rest.head?, ¬ (isalpha c = true ∨ isdigit c = true ∨ c = '_')) :
    lx.nextToken.1.value = String.mk w ∧
    (lx.nextToken.1.type = TokenType.KEYWORD ↔
      String.mk w ∈ ["CREATE", "TABLE", "SELECT", "INSERT", "INTO", "VALUES", "UPDATE", "SET",
        "DELETE", "FROM", "WHERE", "AND", "OR"]) ∧
    (lx.nextToken.1.type = TokenType.IDENTIFIER ↔
      String.mk w ∉ ["CREATE", "TABLE", "SELECT", "INSERT", "INTO", "VALUES", "UPDATE", "SET",
        "DELETE", "FROM", "WHERE", "AND", "OR"]) ∧
    lx.nextToken.2.pos = lx.pos + ws.length + w.length ∧
    lx.nextToken.2.unread = rest := by
  have hw' : ∀ c ∈ w, isWordChar c = true := by
    intro c hc
    rcases hw c hc with h | h | h <;> simp [isWordChar, isalnum, h]
  have hrest' : ∀ c ∈ rest.head?, isWordChar c = false := by
    intro c hc
    have := hrest c hc
    simp only [not_or] at this
    simp [isWordChar, isalnum, this]
  have hsp : ∀ c ∈ (w ++ rest).head?, isspace c = false := by
    cases w with
    | nil => exact absurd rfl hne
    | cons a as =>
      intro c hc
      have hca : a = c := by simpa using hc
      exact not_isspace_of_isalpha (hhead c (by simp [hca]))
  have hread := readToken_skip ws (w ++ rest) hws hsp
  rw [scanToken_word w rest hne hhead hw' hrest'] at hread
  rw [Lexer.nextToken_of_not_hasPutBack lx hpb, Lexer.unread_advance, hu, hread]
  refine ⟨rfl, ?_, ?_, ?_, ?_⟩
  · show (if String.mk w ∈ keywords then TokenType.KEYWORD else TokenType.IDENTIFIER) = _ ↔ _
    split <;> simp_all [keywords]
  · show (if String.mk w ∈ keywords then TokenType.KEYWORD else TokenType.IDENTIFIER) = _ ↔ _
    split <;> simp_all [keywords]
  · simp [Nat.add_assoc]
  · simp [← List.append_assoc]

/-- Instance of C6 at a lower-case spelling of a keyword followed by `_1`. -/
theorem C6_word_token_witness :
    (Lexer.fresh.Initial "  select_1 FROM t").nextToken.1 = ⟨TokenType.IDENTIFIER, "select_1"⟩ ∧
      (Lexer.fresh.Initial "  select_1 FROM t").nextToken.2.pos = 10 :=
  have h := C6_word_token (Lexer.fresh.Initial "  select_1 FROM t") [' ', ' ']
    ['s', 'e', 'l', 'e', 'c', 't', '_', '1'] [' ', 'F', 'R', 'O', 'M', ' ', 't']
    (by decide) (by decide) (by decide) (by decide) (by decide) (by decide) (by decide)
  ⟨by decide, h.2.2.2.1⟩

/-- C7: with no pending pushback and the unread input being whitespace, a
quote `q` (`'` or `"`) and a body without `q`: when the body is followed by
`q`, `nextToken` returns the `STRING` token with the body as its text and
`pos` just past the closing quote; when the input ends after the body,
`nextToken` returns the same token, `pos` is one past the end of the input,
and the following `nextToken` returns `END`. -/
theorem C7_string_token (lx : Lexer) (ws body : List Char) (q : Char)
    (hpb : lx.hasPutBack = false)
    (hws : ∀ c ∈ ws, isspace c = true)
    (hq : q = Char.ofNat 39 ∨ q = Char.ofNat 34)
    (hbody : q ∉ body) :
    (∀ rest : List Char, lx.unread = ws ++ q :: (body ++ q :: rest) →
      lx.nextToken.1 = ⟨TokenType.STRING, String.mk body⟩ ∧
      lx.nextToken.2.pos = lx.pos + ws.length + 1 + body.length + 1 ∧
      lx.nextToken.2.unread = rest) ∧
    (lx.unread = ws ++ q :: body →
      lx.nextToken.1 = ⟨TokenType.STRING, String.mk body⟩ ∧
      lx.nextToken.2.pos = lx.input.length + 1 ∧
      lx.nextToken.2.nextToken.1 = ⟨TokenType.END, ""⟩) := by
  have hsp : ∀ (r : List Char), ∀ c ∈ (q :: r).head?, isspace c = false := by
    intro r c hc
    have : q = c := by simpa using hc
    exact this ▸ (quote_not_alnum hq).2.2
  constructor
  · intro rest hu
    have hread := readToken_skip ws (q :: (body ++ q :: rest)) hws (hsp _)
    rw [scanToken_string q body rest hq hbody] at hread
    rw [Lexer.nextToken_of_not_hasPutBack lx hpb, Lexer.unread_advance, hu, hread]
    refine ⟨rfl, ?_, ?_⟩
    · show lx.pos + (ws.length + (1 + body.length + 1)) = _
      omega
    · show List.drop (ws.length + (1 + body.length + 1)) _ = rest
      rw [← List.drop_drop, List.drop_left, show 1 + body.length + 1 = (body.length + 1) + 1 by omega,
        List.drop_succ_cons, ← List.drop_drop, List.drop_left]
      rfl
  · intro hu
    have hread := readToken_skip ws (q :: body) hws (hsp _)
    rw [scanToken_string_open q body hq hbody] at hread
    have hlen : lx.pos + (ws.length + (1 + body.length)) = lx.input.length := by
      have h1 : lx.unread.length = ws.length + (1 + body.length) := by
        rw [hu, List.length_append, List.length_cons]
        omega
      have h2 : lx.unread.length = lx.input.length - lx.pos := by
        unfold Lexer.unread; rw [List.length_drop]; rfl
      omega
    have hnext : lx.nextToken = (⟨TokenType.STRING, String.mk body⟩,
        { lx with pos := lx.pos + (ws.length + (1 + body.length + 1)) }) := by
      rw [Lexer.nextToken_of_not_hasPutBack lx hpb, hu, hread]
    rw [hnext]
    refine ⟨rfl, ?_, ?_⟩
    · show lx.pos + (ws.length + (1 + body.length + 1)) = _
      omega
    · show (Lexer.nextToken
          { lx with pos := lx.pos + (ws.length + (1 + body.length + 1)) }).1 = _
      rw [Lexer.nextToken_of_not_hasPutBack
        { lx with pos := lx.pos + (ws.length + (1 + body.length + 1)) } hpb, Lexer.unread_advance]
      have : List.drop (ws.length + (1 + body.length + 1)) lx.unread = [] := by
        apply List.drop_eq_nil_of_le
        rw [hu, List.length_append, List.length_cons]
        omega
      rw [this]
      rfl

/-- Instance of C7 at a closed string that holds the other quote and at an open string. -/
theorem C7_string_token_witness :
    (Lexer.fresh.Initial " 'it\"s', 2").nextToken.1 = ⟨TokenType.STRING, "it\"s"⟩ ∧
      (Lexer.fresh.Initial " 'it\"s', 2").nextToken.2.pos = 7 ∧
      (Lexer.fresh.Initial " 'Alice").nextToken.1 = ⟨TokenType.STRING, "Alice"⟩ ∧
      (Lexer.fresh.Initial " 'Alice").nextToken.2.nextToken.1 = ⟨TokenType.END, ""⟩ :=
  have h1 := (C7_string_token (Lexer.fresh.Initial " 'it\"s', 2") [' ']
    ['i', 't', Char.ofNat 34, 's'] (Char.ofNat 39) (by decide) (by decide) (by decide)
    (by decide)).1 [',', ' ', '2'] (by decide)
  have h2 := (C7_string_token (Lexer.fresh.Initial " 'Alice") [' ']
    ['A', 'l', 'i', 'c', 'e'] (Char.ofNat 39) (by decide) (by decide) (by decide)
    (by decide)).2 (by decide)
  ⟨h1.1, h1.2.1, h2.1, h2.2.2⟩

/-- C8: with no pending pushback and the unread input being whitespace and
then a character `c` that is no whitespace, letter, digit or quote: when `c`
and the next character spell `!=`, `<=` or `>=`, `nextToken` returns that
two-character `SYMBOL` and advances by two (also when nothing follows them);
otherwise it returns the `SYMBOL` with the single character `c` and advances
by one. -/
theorem C8_symbol_token (lx : Lexer) (ws rest : List Char) (c : Char)
    (hpb : lx.hasPutBack = false)
    (hu : lx.unread = ws ++ c :: rest)
    (hws : ∀ d ∈ ws, isspace d = true)
    (hsp : isspace c = false) (ha : isalpha c = false) (hd : isdigit c = false)
    (hq : ¬ (c = Char.ofNat 39 ∨ c = Char.ofNat 34)) :
    (∀ (d : Char) (rest2 : List Char), rest = d :: rest2 →
      (String.mk [c, d] = "!=" ∨ String.mk [c, d] = "<=" ∨ String.mk [c, d] = ">=") →
      lx.nextToken.1 = ⟨TokenType.SYMBOL, String.mk [c, d]⟩ ∧
      lx.nextToken.2.pos = lx.pos + ws.length + 2 ∧
      lx.nextToken.2.unread = rest2) ∧
    ((∀ d ∈ rest.head?,
        ¬ (String.mk [c, d] = "!=" ∨ String.mk [c, d] = "<=" ∨ String.mk [c, d] = ">=")) →
      lx.nextToken.1 = ⟨TokenType.SYMBOL, String.mk [c]⟩ ∧
      lx.nextToken.2.pos = lx.pos + ws.length + 1 ∧
      lx.nextToken.2.unread = rest) := by
  have hhead : ∀ e ∈ (c :: rest).head?, isspace e = false := by
    intro e he
    have : c = e := by simpa using he
    exact this ▸ hsp
  have hread := readToken_skip ws (c :: rest) hws hhead
  constructor
  · intro d rest2 hrest h2
    subst hrest
    rw [scanToken_symbol2 c d rest2 ha hd hq h2] at hread
    rw [Lexer.nextToken_of_not_hasPutBack lx hpb, Lexer.unread_advance, hu, hread]
    refine ⟨rfl, ?_, ?_⟩
    · show lx.pos + (ws.length + 2) = _
      omega
    · show List.drop (ws.length + 2) _ = rest2
      rw [← List.drop_drop, List.drop_left]
      rfl
  · intro h2
    rw [scanToken_symbol1 c rest ha hd hq h2] at hread
    rw [Lexer.nextToken_of_not_hasPutBack lx hpb, Lexer.unread_advance, hu, hread]
    refine ⟨rfl, ?_, ?_⟩
    · show lx.pos + (ws.length + 1) = _
      omega
    · show List.drop (ws.length + 1) _ = rest
      rw [← List.drop_drop, List.drop_left]
      rfl

/-- Instance of C8 at `<=` ending the input and at `<` followed by a space. -/
theorem C8_symbol_token_witness :
    (Lexer.fresh.Initial "a <=").unread = ['a', ' ', '<', '='] ∧
      ({ Lexer.fresh.Initial "a <=" with pos := 1 } : Lexer).nextToken.1 =
        ⟨TokenType.SYMBOL, "<="⟩ ∧
      ({ Lexer.fresh.Initial "a <=" with pos := 1 } : Lexer).nextToken.2.pos = 4 ∧
      (Lexer.fresh.Initial "< =").nextToken.1 = ⟨TokenType.SYMBOL, "<"⟩ ∧
      (Lexer.fresh.Initial "< =").nextToken.2.pos = 1 :=
  have h1 := (C8_symbol_token { Lexer.fresh.Initial "a <=" with pos := 1 } [' '] ['='] '<'
    (by decide) (by decide) (by decide) (by decide) (by decide) (by decide) (by decide)).1
    '=' [] rfl (by decide)
  have h2 := (C8_symbol_token (Lexer.fresh.Initial "< =") [] [' ', '='] '<'
    (by decide) (by decide) (by decide) (by decide) (by decide) (by decide) (by decide)).2
    (by decide)
  ⟨by decide, h1.1, h1.2.1, h2.1, h2.2.1⟩

/-- C9: for identifiers `t` and `c`, a comparison operator `op` and a
well-formed literal `v`, parsing `SELECT * FROM t WHERE c op v;` returns
`SELECT[COLUMNS[ALL_COLUMNS], t, CONDITION[c, op, v]]`, the literal leaf being
the text of the literal token (a string without its quotes). -/
theorem C9_select_all_where_tree (p : Parser) (t c op : String) (v : Literal)
    (hpb : p.hasPutBack = false)
    (ht : isIdentifierText t = true) (hc : isIdentifierText c = true)
    (hop : op ∈ ["=", ">", "<", ">=", "<=", "!="]) (hv : v.wellFormed = true) :
    (p.parse ("SELECT * FROM " ++ t ++ " WHERE " ++ c ++ " " ++ op ++ " " ++ v.text ++ ";")).outcome =
      Outcome.returned (some (ASTNode.mk "SELECT"
        [ASTNode.mk "COLUMNS" [ASTNode.mk "ALL_COLUMNS" []],
         ASTNode.mk t [],
         ASTNode.mk "CONDITION" [ASTNode.mk c [], ASTNode.mk op [], ASTNode.mk v.token.value []]])) := by
  have hlit : v.token.type = TokenType.NUMBER ∨ v.token.type = TokenType.STRING := by
    cases v <;> simp [Literal.token]
  obtain ⟨p2, h⟩ := parse_select_all_where p (selectAllWhereText t c op v) t c op v.token
    [⟨TokenType.SYMBOL, ";"⟩] hpb (tokens_selectAllWhereText t c op v ht hc hop hv) hop hlit
  show (p.parse (selectAllWhereText t c op v)).outcome = _
  rw [h]
  rfl

/-- Instance of C9 at `SELECT * FROM t WHERE a > 5;`. -/
theorem C9_select_all_where_tree_witness :
    (Parser.fresh.parse "SELECT * FROM t WHERE a > 5;").outcome =
      Outcome.returned (some (ASTNode.mk "SELECT"
        [ASTNode.mk "COLUMNS" [ASTNode.mk "ALL_COLUMNS" []],
         ASTNode.mk "t" [],
         ASTNode.mk "CONDITION" [ASTNode.mk "a" [], ASTNode.mk ">" [], ASTNode.mk "5" []]])) :=
  C9_select_all_where_tree Parser.fresh "t" "a" ">" (Literal.number "5") rfl (by decide) (by decide)
    (by decide) (by decide)

/-- C10: for an identifier `t` and a non-empty list of pairs of identifiers,
parsing `CREATE TABLE t (n1 ty1, ..., nk tyk);` returns the node `CREATE`
whose children are the leaf `t` followed by the nodes `COLUMN[ni, tyi]` in the
order written. -/
theorem C10_create_table_tree (p : Parser) (t : String) (columns : List (String × String))
    (hpb : p.hasPutBack = false)
    (ht : isIdentifierText t = true) (hne : columns ≠ [])
    (hid : ∀ col ∈ columns, isIdentifierText col.1 = true ∧ isIdentifierText col.2 = true) :
    (p.parse ("CREATE TABLE " ++ t ++ " (" ++ columnDefsText columns ++ ");")).outcome =
      Outcome.returned (some (ASTNode.mk "CREATE"
        (ASTNode.mk t [] ::
          columns.map (fun col => ASTNode.mk "COLUMN" [ASTNode.mk col.1 [], ASTNode.mk col.2 []])))) := by
  obtain ⟨p2, h⟩ := parse_create_table p (createTableText t columns) t columns
    [⟨TokenType.SYMBOL, ";"⟩] hpb hne (tokens_createTableText t columns ht hne hid)
  show (p.parse (createTableText t columns)).outcome = _
  rw [h]
  rfl

/-- Instance of C10 at `CREATE TABLE t (id INT, name VARCHAR);`. -/
theorem C10_create_table_tree_witness :
    (Parser.fresh.parse "CREATE TABLE t (id INT, name VARCHAR);").outcome =
      Outcome.returned (some (ASTNode.mk "CREATE"
        [ASTNode.mk "t" [],
         ASTNode.mk "COLUMN" [ASTNode.mk "id" [], ASTNode.mk "INT" []],
         ASTNode.mk "COLUMN" [ASTNode.mk "name" [], ASTNode.mk "VARCHAR" []]])) :=
  C10_create_table_tree Parser.fresh "t" [("id", "INT"), ("name", "VARCHAR")] rfl (by decide)
    (by decide) (by decide)

/-- C11: for an identifier `t` and a non-empty list of well-formed literals
(runs of digits, or quoted strings whose body does not hold their quote
character), `SQL_Parser` on the text `INSERT INTO t VALUES (l1, ..., lk);`
reports the statement kind `INSERT`, the table name `t`, and as `VALUES`
result the texts of the literals in the order written, strings without their
quotes; the other results are empty. -/
theorem C11_insert_values_extracted (p : Parser) (t : String) (values : List Literal)
    (hpb : p.hasPutBack = false)
    (ht : isIdentifierText t = true) (hne : values ≠ [])
    (hwf : ∀ v ∈ values, v.wellFormed = true) :
    SQL_Parser p ("INSERT INTO " ++ t ++ " VALUES (" ++ literalsText values ++ ");") =
      Extraction.done
        { sql_type := "INSERT", table_name := t,
          results := { VALUES := values.map (fun v => v.token.value), COLUMN := [], COLUMNS := [],
                       UPDATE_FIELD := [], CONDITION := [], ALL_COLUMNS := [] } } := by
  have hs : (Statement.insert t (values.map Literal.token)).wellFormed := by
    refine ⟨by simpa using hne, ?_⟩
    intro v hv
    obtain ⟨l, _, rfl⟩ := List.mem_map.mp hv
    exact l.token_isValue
  show SQL_Parser p (insertText t values) = _
  rw [SQL_Parser_of_statement p _ _ _ hpb (tokens_insertText t values ht hne hwf) hs trivial,
    extract_insert]
  simp [Walk.toExtraction, Results.empty, Function.comp_def]

/-- Instance of C11 at `INSERT INTO t VALUES (1, 'Alice');`. -/
theorem C11_insert_values_extracted_witness :
    SQL_Parser Parser.fresh "INSERT INTO t VALUES (1, 'Alice');" =
      Extraction.done
        { sql_type := "INSERT", table_name := "t",
          results := { VALUES := ["1", "Alice"], COLUMN := [], COLUMNS := [],
                       UPDATE_FIELD := [], CONDITION := [], ALL_COLUMNS := [] } } :=
  C11_insert_values_extracted Parser.fresh "t"
    [Literal.number "1", Literal.quoted (Char.ofNat 39) "Alice"] rfl (by decide) (by decide)
    (by decide)

/-- C12: when the tokens of the text are
`UPDATE t SET c1 = v1 , ... , ck = vk WHERE c op v` (k at least 1, every `vi`
and `v` a number or a string, `op` a comparison operator), followed by any
tokens, and `c` is not spelled `UPDATE_FIELD`, `SQL_Parser` reports the kind
`UPDATE`, the table name `t`, the `UPDATE_FIELD` result with the k entries
`ci-vi` in the order written and the `CONDITION` result with the single entry
`c`, `op`, `v` joined. -/
theorem C12_update_fields_and_condition (p : Parser) (input t : String)
    (assignments : List (String × Token)) (c op : String) (v : Token) (rest : List Token)
    (hpb : p.hasPutBack = false)
    (htok : tokens input =
      ⟨TokenType.KEYWORD, "UPDATE"⟩ :: ⟨TokenType.IDENTIFIER, t⟩ :: ⟨TokenType.KEYWORD, "SET"⟩ ::
        (assignmentTokens assignments ++
          ⟨TokenType.KEYWORD, "WHERE"⟩ :: ⟨TokenType.IDENTIFIER, c⟩ :: ⟨TokenType.SYMBOL, op⟩ ::
            v :: rest))
    (hne : assignments ≠ [])
    (hvalues : ∀ a ∈ assignments, a.2.type = TokenType.NUMBER ∨ a.2.type = TokenType.STRING)
    (hop : op ∈ ["=", ">", "<", ">=", "<=", "!="])
    (hv : v.type = TokenType.NUMBER ∨ v.type = TokenType.STRING)
    (hc : c ≠ "UPDATE_FIELD") :
    SQL_Parser p input =
      Extraction.done
        { sql_type := "UPDATE", table_name := t,
          results := { VALUES := [], COLUMN := [], COLUMNS := [],
                       UPDATE_FIELD := assignments.map (fun a => a.1 ++ "-" ++ a.2.value),
                       CONDITION := [c ++ op ++ v.value], ALL_COLUMNS := [] } } := by
  have hcw : (Condition.mk c op v).wellFormed := ⟨hop, hv⟩
  have hs : (Statement.update t assignments ⟨c, op, v⟩).wellFormed := ⟨hne, hvalues, hcw⟩
  have htok2 : tokens input = (Statement.update t assignments ⟨c, op, v⟩).tokens ++ rest := by
    rw [htok]
    simp [Statement.tokens, Condition.tokens]
  rw [SQL_Parser_of_statement p input _ rest hpb htok2 hs trivial,
    extract_update t assignments ⟨c, op, v⟩ hcw hc]
  simp [Walk.toExtraction, Results.empty, Condition.joined]

/-- Instance of C12 at `UPDATE t SET a = 1, b = 2 WHERE id <= 2;`. -/
theorem C12_update_fields_and_condition_witness :
    SQL_Parser Parser.fresh "UPDATE t SET a = 1, b = 2 WHERE id <= 2;" =
      Extraction.done
        { sql_type := "UPDATE", table_name := "t",
          results := { VALUES := [], COLUMN := [], COLUMNS := [],
                       UPDATE_FIELD := ["a-1", "b-2"],
                       CONDITION := ["id<=2"], ALL_COLUMNS := [] } } :=
  C12_update_fields_and_condition Parser.fresh "UPDATE t SET a = 1, b = 2 WHERE id <= 2;" "t"
    [("a", ⟨TokenType.NUMBER, "1"⟩), ("b", ⟨TokenType.NUMBER, "2"⟩)] "id" "<="
    ⟨TokenType.NUMBER, "2"⟩ [⟨TokenType.SYMBOL, ";"⟩] rfl (by decide) (by decide) (by decide)
    (by decide) (by decide) (by decide)

/-- C13: when `parse` returns a tree, it is the tree of a well-formed
statement `s` whose tokens are the first tokens ahead of the lexer (the
pending token, if there is one, and then the tokens of the text); the entry
of the depth-1 labels at index 1 when the root is `SELECT` and at index 0
otherwise exists and is the table name of `s`, which is an identifier token
of `s`; and lines 497-511 report the root label as statement kind together
with that table name. -/
theorem C13_table_name_position (p : Parser) (input : String) (node : ASTNode)
    (h : (p.parse input).outcome = Outcome.returned (some node)) :
    ∃ (s : Statement) (rest : List Token),
      s.wellFormed ∧
      (if p.hasPutBack then p.lastToken :: tokens input else tokens input) = s.tokens ++ rest ∧
      node = s.toAST ∧
      ⟨TokenType.IDENTIFIER, s.table⟩ ∈ s.tokens ∧
      (printAST node 0 DepthTree.empty 1)[if node.type = "SELECT" then 1 else 0]? = some s.table ∧
      readHeader (printAST node 0 DepthTree.empty) =
        Walk.ok (node.type, s.table, if node.type = "SELECT" then 0 else 1) := by
  obtain ⟨s, rest, hwf, _, htok, rfl⟩ :=
    parse_returned_inv p input _ node (Lexer.ahead_initial p input) h
  have hty : s.toAST.type = s.keyword := by
    cases s <;> rfl
  have hmem : ⟨TokenType.IDENTIFIER, s.table⟩ ∈ s.tokens :=
    s.identifier_mem_tokens s.table (by cases s <;> simp [Statement.identifiers, Statement.table])
  refine ⟨s, rest, hwf, htok, rfl, hmem, ?_, ?_⟩
  · rw [hty]
    cases s <;>
      simp [printAST_root, Statement.toAST, labelsAt_succ, labelsAtList_cons, labelsAt_leaf_zero,
        labelsAt_zero, Statement.keyword, Statement.table]
  · rw [hty]
    exact readHeader_toAST s

/-- Instance of C13 at `DELETE FROM users;`. -/
theorem C13_table_name_position_witness :
    ∃ (s : Statement) (rest : List Token),
      s.wellFormed ∧
      (if Parser.fresh.hasPutBack then Parser.fresh.lastToken :: tokens "DELETE FROM users;"
        else tokens "DELETE FROM users;") = s.tokens ++ rest ∧
      ASTNode.mk "DELETE" [ASTNode.mk "users" []] = s.toAST ∧
      ⟨TokenType.IDENTIFIER, s.table⟩ ∈ s.tokens ∧
      (printAST (ASTNode.mk "DELETE" [ASTNode.mk "users" []]) 0 DepthTree.empty 1)[
        if (ASTNode.mk "DELETE" [ASTNode.mk "users" []]).type = "SELECT" then 1 else 0]? =
          some s.table ∧
      readHeader (printAST (ASTNode.mk "DELETE" [ASTNode.mk "users" []]) 0 DepthTree.empty) =
        Walk.ok ((ASTNode.mk "DELETE" [ASTNode.mk "users" []]).type, s.table,
          if (ASTNode.mk "DELETE" [ASTNode.mk "users" []]).type = "SELECT" then 0 else 1) :=
  C13_table_name_position Parser.fresh "DELETE FROM users;"
    (ASTNode.mk "DELETE" [ASTNode.mk "users" []]) (by decide)

/-- C14, where it fails.  The claim is that extraction of an accepted
`SELECT c1, ..., ck FROM t` without `WHERE` clause completes without reading
a depth sequence past its end.  When the tokens of the text are
`SELECT c1 , ... , ck FROM t` (k at least 1, `c1` not spelled `ALL_COLUMNS`),
followed by tokens that do not begin with `WHERE`, the column run of lines
524-529 reads `tree[2]` at an index that is not below its size. -/
theorem C14_select_list_without_where_reads_past_end (p : Parser) (input : String)
    (columns : List String) (t : String) (rest : List Token)
    (hpb : p.hasPutBack = false)
    (htok : tokens input =
      ⟨TokenType.KEYWORD, "SELECT"⟩ :: (columnListTokens columns ++
        ⟨TokenType.KEYWORD, "FROM"⟩ :: ⟨TokenType.IDENTIFIER, t⟩ :: rest))
    (hne : columns ≠ [])
    (hfirst : columns.head? ≠ some "ALL_COLUMNS")
    (hrest : ¬ ((rest.headD Token.eof).type = TokenType.KEYWORD ∧
      (rest.headD Token.eof).value = "WHERE")) :
    SQL_Parser p input = Extraction.pastEnd := by
  have htok2 : tokens input = (Statement.select columns t none).tokens ++ rest := by
    rw [htok]
    simp [Statement.tokens, whereTokens]
  have hid := identifiers_of_tokens (Statement.select columns t none) input rest htok2
  rw [SQL_Parser_of_statement p input _ rest hpb htok2 ⟨hne, by simp⟩ hrest,
    extract_select_pastEnd columns t hne
      (fun x hx => (hid x (by simp [Statement.identifiers, hx])).2) hfirst]
  rfl

/-- Instance of C14 at `SELECT id, name FROM users;`. -/
theorem C14_select_list_without_where_reads_past_end_witness :
    SQL_Parser Parser.fresh "SELECT id, name FROM users;" = Extraction.pastEnd :=
  C14_select_list_without_where_reads_past_end Parser.fresh "SELECT id, name FROM users;"
    ["id", "name"] "users" [⟨TokenType.SYMBOL, ";"⟩] rfl (by decide) (by decide) (by decide)
    (by decide)

/-- C15: for a text `s` in which every quote character that opens a string
is closed, and a parser with no pending pushback, `parse` on `s` followed by
`;` returns what `parse` on `s` returns, or both throw. -/
theorem C15_trailing_semicolon (p : Parser) (s : String)
    (hpb : p.hasPutBack = false) (hq : quotesClosed s = true) :
    (∃ v, (p.parse s).outcome = Outcome.returned v ∧
      (p.parse (s ++ ";")).outcome = Outcome.returned v) ∨
    (∃ e1 e2, (p.parse s).outcome = Outcome.thrown e1 ∧
      (p.parse (s ++ ";")).outcome = Outcome.thrown e2) := by
  rw [parse_eq_parseTokens p s hpb, parse_eq_parseTokens p (s ++ ";") hpb,
    tokens_append_semicolon s hq]
  exact parseT_append_semicolon (tokens s)

/-- Instance of C15 at `DELETE FROM t WHERE name = 'a;b'`. -/
theorem C15_trailing_semicolon_witness :
    (∃ v, (Parser.fresh.parse "DELETE FROM t WHERE name = 'a;b'").outcome = Outcome.returned v ∧
      (Parser.fresh.parse ("DELETE FROM t WHERE name = 'a;b'" ++ ";")).outcome =
        Outcome.returned v) ∨
    (∃ e1 e2, (Parser.fresh.parse "DELETE FROM t WHERE name = 'a;b'").outcome =
        Outcome.thrown e1 ∧
      (Parser.fresh.parse ("DELETE FROM t WHERE name = 'a;b'" ++ ";")).outcome =
        Outcome.thrown e2) :=
  C15_trailing_semicolon Parser.fresh "DELETE FROM t WHERE name = 'a;b'" rfl (by decide)

/-- C16: `createTable` throws exactly when a table of that name exists;
`insertIntoTable` throws exactly when no table of that name exists or the
number of values differs from the number of its declared columns; a call that
throws leaves the registry as it was; an `insertIntoTable` that does not throw
appends the values as last row of that table, keeps its name and columns and
leaves every other table as it was. -/
theorem C16_registry_rejections (db : DatabaseManager) (name : String)
    (colNames colTypes values : List String) :
    (((db.createTable name colNames colTypes).thrown.isSome = true ↔
        db.tableExists name = true) ∧
      ((db.createTable name colNames colTypes).thrown.isSome = true →
        (db.createTable name colNames colTypes).db = db)) ∧
    (((db.insertIntoTable name values).thrown.isSome = true ↔
        (db.find name = none ∨
          ∃ table, db.find name = some table ∧ values.length ≠ table.columnNames.length)) ∧
      ((db.insertIntoTable name values).thrown.isSome = true →
        (db.insertIntoTable name values).db = db) ∧
      ((db.insertIntoTable name values).thrown = none →
        ∃ table, db.find name = some table ∧
          (db.insertIntoTable name values).db.find name =
            some { name := table.name, columnNames := table.columnNames,
                   columnTypes := table.columnTypes, rows := table.rows ++ [values] } ∧
          ∀ other, other ≠ name →
            (db.insertIntoTable name values).db.find other = db.find other)) := by
  refine ⟨⟨?_, ?_⟩, ?_, ?_, ?_⟩
  · unfold DatabaseManager.createTable DatabaseManager.tableExists
    split <;> simp_all
  · unfold DatabaseManager.createTable
    split <;> simp
  · unfold DatabaseManager.insertIntoTable
    cases hf : db.find name with
    | none => simp
    | some table =>
      by_cases hl : values.length = table.columnNames.length <;> simp [hl]
  · unfold DatabaseManager.insertIntoTable
    cases hf : db.find name with
    | none => simp
    | some table =>
      by_cases hl : values.length = table.columnNames.length <;> simp [hl]
  · unfold DatabaseManager.insertIntoTable
    cases hf : db.find name with
    | none => simp
    | some table =>
      by_cases hl : values.length = table.columnNames.length
      · simp only [hl, ne_eq, not_true_eq_false, if_false, forall_const]
        refine ⟨table, rfl, ?_, ?_⟩
        · exact lookup_pushRow_self db.tables name values table hf
        · intro other ho
          exact lookup_pushRow_other db.tables name other values ho
      · simp [hl]

/-- Instance of C16 on a registry with the table `users (id, name)` and no
rows: the insertion of the row `1, Alice`, and the calls `createTable` on
`users` and `insertIntoTable` of one value. -/
theorem C16_registry_rejections_witness :
    (DatabaseManager.insertIntoTable
        ⟨[("users", { name := "users", columnNames := ["id", "name"],
                      columnTypes := ["INT", "VARCHAR"], rows := [] })]⟩
        "users" ["1", "Alice"]).thrown = none ∧
    ∃ table,
      DatabaseManager.find
        ⟨[("users", { name := "users", columnNames := ["id", "name"],
                      columnTypes := ["INT", "VARCHAR"], rows := [] })]⟩ "users" = some table ∧
      (DatabaseManager.insertIntoTable
        ⟨[("users", { name := "users", columnNames := ["id", "name"],
                      columnTypes := ["INT", "VARCHAR"], rows := [] })]⟩
        "users" ["1", "Alice"]).db.find "users" =
          some { name := table.name, columnNames := table.columnNames,
                 columnTypes := table.columnTypes, rows := table.rows ++ [["1", "Alice"]] } ∧
      ∀ other, other ≠ "users" →
        (DatabaseManager.insertIntoTable
          ⟨[("users", { name := "users", columnNames := ["id", "name"],
                        columnTypes := ["INT", "VARCHAR"], rows := [] })]⟩
          "users" ["1", "Alice"]).db.find other =
        DatabaseManager.find
          ⟨[("users", { name := "users", columnNames := ["id", "name"],
                        columnTypes := ["INT", "VARCHAR"], rows := [] })]⟩ other :=
  ⟨by decide,
    (C16_registry_rejections
      ⟨[("users", { name := "users", columnNames := ["id", "name"],
                    columnTypes := ["INT", "VARCHAR"], rows := [] })]⟩
      "users" [] [] ["1", "Alice"]).2.2.2 (by decide)⟩

/-- C17: a tree that `parse` returns with root `CREATE` is the leaf of the
table name followed by at least one node `COLUMN`, each with exactly two
leaves as children; a tree that `parse` returns with root `INSERT` is the leaf
of the table name and a node `VALUES` with at least one leaf as child.  The
texts `CREATE TABLE t ()` and `INSERT INTO t VALUES ()` make `parse` throw. -/
theorem C17_create_and_insert_lists_nonempty (p : Parser) (input : String) (node : ASTNode)
    (h : (p.parse input).outcome = Outcome.returned (some node)) :
    (node.type = "CREATE" →
      ∃ (t : String) (columns : List (String × String)), columns ≠ [] ∧
        node = ASTNode.mk "CREATE" (ASTNode.mk t [] ::
          columns.map (fun col => ASTNode.mk "COLUMN" [ASTNode.mk col.1 [], ASTNode.mk col.2 []]))) ∧
    (node.type = "INSERT" →
      ∃ (t : String) (values : List String), values ≠ [] ∧
        node = ASTNode.mk "INSERT"
          [ASTNode.mk t [], ASTNode.mk "VALUES" (values.map (fun v => ASTNode.mk v []))]) ∧
    (∀ q : Parser, q.hasPutBack = false →
      (q.parse "CREATE TABLE t ()").outcome = Outcome.thrown "Expected column name" ∧
      (q.parse "INSERT INTO t VALUES ()").outcome = Outcome.thrown "Expected a value") := by
  obtain ⟨s, rest, hwf, _, _, rfl⟩ :=
    parse_returned_inv p input _ node (Lexer.ahead_initial p input) h
  refine ⟨?_, ?_, ?_⟩
  · intro hty
    cases s with
    | create t columns => exact ⟨t, columns, hwf, rfl⟩
    | selectAll t c => simp [Statement.toAST, ASTNode.type] at hty
    | select columns t c => simp [Statement.toAST, ASTNode.type] at hty
    | insert t values => simp [Statement.toAST, ASTNode.type] at hty
    | update t assignments c => simp [Statement.toAST, ASTNode.type] at hty
    | delete t c => simp [Statement.toAST, ASTNode.type] at hty
  · intro hty
    cases s with
    | create t columns => simp [Statement.toAST, ASTNode.type] at hty
    | selectAll t c => simp [Statement.toAST, ASTNode.type] at hty
    | select columns t c => simp [Statement.toAST, ASTNode.type] at hty
    | insert t values =>
      refine ⟨t, values.map Token.value, by simpa using hwf.1, ?_⟩
      simp [Statement.toAST, ASTNode.leaf, Function.comp_def]
    | update t assignments c => simp [Statement.toAST, ASTNode.type] at hty
    | delete t c => simp [Statement.toAST, ASTNode.type] at hty
  · intro q hq
    constructor
    · rw [parse_eq_parseTokens q _ hq]
      decide
    · rw [parse_eq_parseTokens q _ hq]
      decide

/-- Instance of C17 at `INSERT INTO t VALUES (1);`. -/
theorem C17_create_and_insert_lists_nonempty_witness :
    ((ASTNode.mk "INSERT" [ASTNode.mk "t" [], ASTNode.mk "VALUES" [ASTNode.mk "1" []]]).type =
        "INSERT" →
      ∃ (t : String) (values : List String), values ≠ [] ∧
        ASTNode.mk "INSERT" [ASTNode.mk "t" [], ASTNode.mk "VALUES" [ASTNode.mk "1" []]] =
          ASTNode.mk "INSERT"
            [ASTNode.mk t [], ASTNode.mk "VALUES" (values.map (fun v => ASTNode.mk v []))]) ∧
    (∀ q : Parser, q.hasPutBack = false →
      (q.parse "CREATE TABLE t ()").outcome = Outcome.thrown "Expected column name" ∧
      (q.parse "INSERT INTO t VALUES ()").outcome = Outcome.thrown "Expected a value") :=
  (C17_create_and_insert_lists_nonempty Parser.fresh "INSERT INTO t VALUES (1);"
    (ASTNode.mk "INSERT" [ASTNode.mk "t" [], ASTNode.mk "VALUES" [ASTNode.mk "1" []]])
    (by decide)).2

/-- C18: a fresh read returns `END` or advances the position; a text has at
most as many tokens before `END` as it has characters; `parse` never runs out
of the loop budget taken from the length of the text, whatever the state of
the parser; and its outcome is that of `parseTokens`, a recursion on the
token list with no budget, on the tokens ahead of the lexer. -/
theorem C18_parse_terminates (p : Parser) (input : String) :
    (∀ cs : List Char, (readToken cs).1.type = TokenType.END ∨ 0 < (readToken cs).2) ∧
    (tokens input).length ≤ input.length ∧
    (p.parse input).outcome ≠ Outcome.exhausted ∧
    (p.parse input).outcome =
      parseTokens (if p.hasPutBack then p.lastToken :: tokens input else tokens input) := by
  have h := parse_eq_parseT p input _ (Lexer.ahead_initial p input)
  refine ⟨?_, lexAll_length_le _, ?_, h⟩
  · intro cs
    by_cases hc : (readToken cs).1.type = TokenType.END
    · exact Or.inl hc
    · exact Or.inr (readToken_pos cs hc).1
  · rw [h]
    exact TResult.outcome_ne_exhausted _

/-- C19: when the tokens of the text are
`SELECT c1 , ... , ck FROM t WHERE c op v` (k at least 1, `op` a comparison
operator, `v` a number or a string), followed by any tokens, and none of `t`,
`c`, `c1`, ..., `ck` is spelled like a node label, `SQL_Parser` reports the
kind `SELECT`, the table name `t`, the column result `c1, ..., ck` in order
and without `c`, and the `CONDITION` result with the single entry `c`, `op`,
`v` joined; the other results are empty. -/
theorem C19_column_run_stops_at_condition (p : Parser) (input : String)
    (columns : List String) (t c op : String) (v : Token) (rest : List Token)
    (hpb : p.hasPutBack = false)
    (htok : tokens input =
      ⟨TokenType.KEYWORD, "SELECT"⟩ :: (columnListTokens columns ++
        ⟨TokenType.KEYWORD, "FROM"⟩ :: ⟨TokenType.IDENTIFIER, t⟩ ::
          ⟨TokenType.KEYWORD, "WHERE"⟩ :: ⟨TokenType.IDENTIFIER, c⟩ :: ⟨TokenType.SYMBOL, op⟩ ::
            v :: rest))
    (hne : columns ≠ [])
    (hop : op ∈ ["=", ">", "<", ">=", "<=", "!="])
    (hv : v.type = TokenType.NUMBER ∨ v.type = TokenType.STRING)
    (hlabels : ∀ x ∈ t :: c :: columns,
      x ∉ ["ALL_COLUMNS", "COLUMN", "COLUMNS", "CONDITION", "UPDATES", "UPDATE_FIELD"]) :
    SQL_Parser p input =
      Extraction.done
        { sql_type := "SELECT", table_name := t,
          results := { VALUES := [], COLUMN := [], COLUMNS := [], UPDATE_FIELD := [],
                       CONDITION := [c ++ op ++ v.value], ALL_COLUMNS := columns } } := by
  have hcw : (Condition.mk c op v).wellFormed := ⟨hop, hv⟩
  have htok2 : tokens input =
      (Statement.select columns t (some ⟨c, op, v⟩)).tokens ++ rest := by
    rw [htok]
    simp [Statement.tokens, whereTokens, Condition.tokens]
  have hid := identifiers_of_tokens (Statement.select columns t (some ⟨c, op, v⟩)) input rest
    htok2
  have hfirst : columns.head? ≠ some "ALL_COLUMNS" := by
    intro hh
    have hmem : "ALL_COLUMNS" ∈ columns := List.mem_of_mem_head? (by rw [hh]; rfl)
    exact hlabels "ALL_COLUMNS" (by simp [hmem]) (by decide)
  rw [SQL_Parser_of_statement p input _ rest hpb htok2
      ⟨hne, fun x hx => by cases hx; exact hcw⟩ trivial,
    extract_select_where columns t ⟨c, op, v⟩ hne hcw
      (fun x hx => (hid x (by simp [Statement.identifiers, hx])).2)
      (hid c (by simp [Statement.identifiers])).2 hfirst
      (not_branch_label (hid t (by simp [Statement.identifiers])).1 (hlabels t (by simp)))]
  simp [Walk.toExtraction, Results.empty, Condition.joined]

/-- Instance of C19 at `SELECT id, name FROM table WHERE age > 25;`. -/
theorem C19_column_run_stops_at_condition_witness :
    SQL_Parser Parser.fresh "SELECT id, name FROM table WHERE age > 25;" =
      Extraction.done
        { sql_type := "SELECT", table_name := "table",
          results := { VALUES := [], COLUMN := [], COLUMNS := [], UPDATE_FIELD := [],
                       CONDITION := ["age>25"], ALL_COLUMNS := ["id", "name"] } } :=
  C19_column_run_stops_at_condition Parser.fresh "SELECT id, name FROM table WHERE age > 25;"
    ["id", "name"] "table" "age" ">" ⟨TokenType.NUMBER, "25"⟩ [⟨TokenType.SYMBOL, ";"⟩]
    rfl (by decide) (by decide) (by decide) (by decide) (by decide)

/-- C20, where it fails.  The claim is that for every accepted statement with
a `WHERE` clause, whatever its names are, the `CONDITION` result is the
single entry `c`, `op`, `v` joined.  On `SELECT * FROM COLUMN WHERE a = 1;`
the walk takes the table name `COLUMN` for the label of a column definition:
the `CONDITION` result is empty and the `COLUMN` result is `a-=`. -/
theorem C20_table_named_like_label :
    SQL_Parser Parser.fresh "SELECT * FROM COLUMN WHERE a = 1;" =
      Extraction.done
        { sql_type := "SELECT", table_name := "COLUMN",
          results := { VALUES := [], COLUMN := ["a-="], COLUMNS := [], UPDATE_FIELD := [],
                       CONDITION := [], ALL_COLUMNS := ["*"] } } ∧
    (Parser.fresh.parse "SELECT * FROM COLUMN WHERE a = 1;").outcome =
      Outcome.returned (some (ASTNode.mk "SELECT"
        [ASTNode.mk "COLUMNS" [ASTNode.mk "ALL_COLUMNS" []], ASTNode.mk "COLUMN" [],
         ASTNode.mk "CONDITION" [ASTNode.mk "a" [], ASTNode.mk "=" [], ASTNode.mk "1" []]])) := by
  constructor <;> decide

/-- C20, amended: when the tokens of the text begin with a well-formed
statement that has a `WHERE` clause `c op v` (a `SELECT`, an `UPDATE` or a
`DELETE`) and none of whose names is spelled like a node label (`ALL_COLUMNS`,
`COLUMN`, `COLUMNS`, `CONDITION`, `UPDATES`, `UPDATE_FIELD`), `SQL_Parser`
completes without reading a depth sequence past its end, reports the keyword
and the table name of the statement, and the `CONDITION` result is the single
entry `c`, `op`, `v` joined. -/
theorem C20_condition_of_statement_without_label_names (p : Parser) (input : String)
    (s : Statement) (c : Condition) (rest : List Token)
    (hpb : p.hasPutBack = false)
    (htok : tokens input = s.tokens ++ rest)
    (hwf : s.wellFormed)
    (hcond : s.condition = some c)
    (hlabels : ∀ x ∈ s.identifiers, x ∉ nodeLabels) :
    ∃ d : Descriptor, SQL_Parser p input = Extraction.done d ∧
      d.sql_type = s.keyword ∧ d.table_name = s.table ∧
      d.results.CONDITION = [c.column ++ c.op ++ c.value.value] := by
  have hid := identifiers_of_tokens s input rest htok
  cases s with
  | create t columns => simp [Statement.condition] at hcond
  | insert t values => simp [Statement.condition] at hcond
  | selectAll t c0 =>
    simp only [Statement.condition] at hcond
    subst hcond
    have hcw : c.wellFormed := hwf c rfl
    rw [SQL_Parser_of_statement p input _ rest hpb htok hwf trivial,
      extract_selectAll_where t c hcw
        (not_branch_label (hid t (by simp [Statement.identifiers])).1
          (hlabels t (by simp [Statement.identifiers])))]
    exact ⟨_, rfl, rfl, rfl, rfl⟩
  | select columns t c0 =>
    simp only [Statement.condition] at hcond
    subst hcond
    have hcw : c.wellFormed := hwf.2 c rfl
    have hfirst : columns.head? ≠ some "ALL_COLUMNS" := by
      intro hh
      have hmem : "ALL_COLUMNS" ∈ columns := List.mem_of_mem_head? (by rw [hh]; rfl)
      exact hlabels "ALL_COLUMNS" (by simp [Statement.identifiers, hmem]) (by decide)
    rw [SQL_Parser_of_statement p input _ rest hpb htok hwf trivial,
      extract_select_where columns t c hwf.1 hcw
        (fun x hx => (hid x (by simp [Statement.identifiers, hx])).2)
        (hid c.column (by simp [Statement.identifiers])).2 hfirst
        (not_branch_label (hid t (by simp [Statement.identifiers])).1
          (hlabels t (by simp [Statement.identifiers])))]
    exact ⟨_, rfl, rfl, rfl, rfl⟩
  | update t assignments c0 =>
    simp only [Statement.condition, Option.some.injEq] at hcond
    subst hcond
    have hcc : c0.column ≠ "UPDATE_FIELD" := by
      intro hh
      exact hlabels c0.column (by simp [Statement.identifiers]) (by rw [hh]; decide)
    rw [SQL_Parser_of_statement p input _ rest hpb htok hwf trivial,
      extract_update t assignments c0 hwf.2.2 hcc]
    exact ⟨_, rfl, rfl, rfl, rfl⟩
  | delete t c0 =>
    simp only [Statement.condition] at hcond
    subst hcond
    have hcw : c.wellFormed := hwf c rfl
    rw [SQL_Parser_of_statement p input _ rest hpb htok hwf trivial,
      extract_delete_where t c hcw]
    exact ⟨_, rfl, rfl, rfl, rfl⟩

/-- Instance of the amended C20 at `UPDATE t SET a = 1 WHERE id <= 2;`. -/
theorem C20_condition_of_statement_without_label_names_witness :
    ∃ d : Descriptor,
      SQL_Parser Parser.fresh "UPDATE t SET a = 1 WHERE id <= 2;" = Extraction.done d ∧
      d.sql_type = "UPDATE" ∧ d.table_name = "t" ∧ d.results.CONDITION = ["id" ++ "<=" ++ "2"] :=
  C20_condition_of_statement_without_label_names Parser.fresh
    "UPDATE t SET a = 1 WHERE id <= 2;"
    (Statement.update "t" [("a", ⟨TokenType.NUMBER, "1"⟩)] ⟨"id", "<=", ⟨TokenType.NUMBER, "2"⟩⟩)
    ⟨"id", "<=", ⟨TokenType.NUMBER, "2"⟩⟩ [⟨TokenType.SYMBOL, ";"⟩]
    rfl (by decide)
    (by simp [Statement.wellFormed, Condition.wellFormed, Token.isValue, comparisonOperators])
    rfl (by decide)

/-- C21, where it fails.  The claim is that two accepted statements whose
`WHERE` clauses differ as triples of column, operator and literal text get
different `CONDITION` entries.  `DELETE FROM t WHERE a >= 1;` has the clause
`a`, `>=`, `1` and `DELETE FROM t WHERE a > '=1';` has the clause `a`, `>`,
`=1`; line 538 joins both to the entry `a>=1`. -/
theorem C21_different_conditions_same_entry :
    (Parser.fresh.parse "DELETE FROM t WHERE a >= 1;").outcome =
      Outcome.returned (some (ASTNode.mk "DELETE" [ASTNode.mk "t" [],
        ASTNode.mk "CONDITION" [ASTNode.mk "a" [], ASTNode.mk ">=" [], ASTNode.mk "1" []]])) ∧
    (Parser.fresh.parse "DELETE FROM t WHERE a > '=1';").outcome =
      Outcome.returned (some (ASTNode.mk "DELETE" [ASTNode.mk "t" [],
        ASTNode.mk "CONDITION" [ASTNode.mk "a" [], ASTNode.mk ">" [], ASTNode.mk "=1" []]])) ∧
    SQL_Parser Parser.fresh "DELETE FROM t WHERE a >= 1;" =
      Extraction.done
        { sql_type := "DELETE", table_name := "t",
          results := { VALUES := [], COLUMN := [], COLUMNS := [], UPDATE_FIELD := [],
                       CONDITION := ["a>=1"], ALL_COLUMNS := [] } } ∧
    SQL_Parser Parser.fresh "DELETE FROM t WHERE a > '=1';" =
      Extraction.done
        { sql_type := "DELETE", table_name := "t",
          results := { VALUES := [], COLUMN := [], COLUMNS := [], UPDATE_FIELD := [],
                       CONDITION := ["a>=1"], ALL_COLUMNS := [] } } := by
  refine ⟨?_, ?_, ?_, ?_⟩ <;> decide

/-- C21, amended: take two texts whose tokens begin with well-formed
statements that have `WHERE` clauses `c1` and `c2`, none of whose names is
spelled like a node label, and whose literal texts do not begin with `=`.
When the clauses differ as triples of column, operator and literal text,
`SQL_Parser` completes on both texts, each `CONDITION` result is the single
entry of its clause, and the two `CONDITION` results differ. -/
theorem C21_condition_entry_injective_without_leading_equals (p1 p2 : Parser)
    (input1 input2 : String) (s1 s2 : Statement) (c1 c2 : Condition) (rest1 rest2 : List Token)
    (hpb1 : p1.hasPutBack = false) (hpb2 : p2.hasPutBack = false)
    (htok1 : tokens input1 = s1.tokens ++ rest1) (htok2 : tokens input2 = s2.tokens ++ rest2)
    (hwf1 : s1.wellFormed) (hwf2 : s2.wellFormed)
    (hcond1 : s1.condition = some c1) (hcond2 : s2.condition = some c2)
    (hlabels1 : ∀ x ∈ s1.identifiers, x ∉ nodeLabels)
    (hlabels2 : ∀ x ∈ s2.identifiers, x ∉ nodeLabels)
    (hv1 : c1.value.value.data.head? ≠ some '=') (hv2 : c2.value.value.data.head? ≠ some '=')
    (hne : (c1.column, c1.op, c1.value.value) ≠ (c2.column, c2.op, c2.value.value)) :
    ∃ d1 d2 : Descriptor,
      SQL_Parser p1 input1 = Extraction.done d1 ∧ SQL_Parser p2 input2 = Extraction.done d2 ∧
      d1.results.CONDITION = [c1.column ++ c1.op ++ c1.value.value] ∧
      d2.results.CONDITION = [c2.column ++ c2.op ++ c2.value.value] ∧
      d1.results.CONDITION ≠ d2.results.CONDITION := by
  obtain ⟨d1, hd1, he1⟩ :=
    SQL_Parser_condition p1 input1 s1 c1 rest1 hpb1 htok1 hwf1 hcond1 hlabels1
  obtain ⟨d2, hd2, he2⟩ :=
    SQL_Parser_condition p2 input2 s2 c2 rest2 hpb2 htok2 hwf2 hcond2 hlabels2
  refine ⟨d1, d2, hd1, hd2, he1, he2, ?_⟩
  rw [he1, he2]
  intro heq
  have hjoin : c1.column ++ c1.op ++ c1.value.value = c2.column ++ c2.op ++ c2.value.value := by
    simpa using heq
  obtain ⟨h1, h2, h3⟩ := joined_injective c1 c2
    (condition_column_chars s1 c1 input1 rest1 htok1 hcond1)
    (condition_column_chars s2 c2 input2 rest2 htok2 hcond2)
    (s1.condition_wellFormed c1 hwf1 hcond1).1 (s2.condition_wellFormed c2 hwf2 hcond2).1
    hv1 hv2 hjoin
  exact hne (by rw [h1, h2, h3])

/-- Instance of the amended C21 at `DELETE FROM t WHERE a >= 1;` and
`DELETE FROM t WHERE a > 1;`. -/
theorem C21_condition_entry_injective_without_leading_equals_witness :
    ∃ d1 d2 : Descriptor,
      SQL_Parser Parser.fresh "DELETE FROM t WHERE a >= 1;" = Extraction.done d1 ∧
      SQL_Parser Parser.fresh "DELETE FROM t WHERE a > 1;" = Extraction.done d2 ∧
      d1.results.CONDITION = ["a" ++ ">=" ++ "1"] ∧
      d2.results.CONDITION = ["a" ++ ">" ++ "1"] ∧
      d1.results.CONDITION ≠ d2.results.CONDITION :=
  C21_condition_entry_injective_without_leading_equals Parser.fresh Parser.fresh
    "DELETE FROM t WHERE a >= 1;" "DELETE FROM t WHERE a > 1;"
    (Statement.delete "t" (some ⟨"a", ">=", ⟨TokenType.NUMBER, "1"⟩⟩))
    (Statement.delete "t" (some ⟨"a", ">", ⟨TokenType.NUMBER, "1"⟩⟩))
    ⟨"a", ">=", ⟨TokenType.NUMBER, "1"⟩⟩ ⟨"a", ">", ⟨TokenType.NUMBER, "1"⟩⟩
    [⟨TokenType.SYMBOL, ";"⟩] [⟨TokenType.SYMBOL, ";"⟩]
    rfl rfl (by decide) (by decide)
    (by simp [Statement.wellFormed, Condition.wellFormed, Token.isValue, comparisonOperators])
    (by simp [Statement.wellFormed, Condition.wellFormed, Token.isValue, comparisonOperators])
    rfl rfl (by decide) (by decide) (by decide) (by decide) (by decide)

end SQLFront
